import Mathlib

/-!
# Verification of the `strip-whitespace` core

This file gives a shallow embedding in Lean 4 of the transformation core of the
`strip-whitespace` repository (crates/core): the edit model and validator
(`edit.rs`), the gap-rotation rewriter (`strip.rs`), the output/input origin
map builders and the source-map edit-anchor emission (`edit.rs`), and the
UTF-16 column index (`utf16.rs`).  Strings are modelled as `List Char`
(Unicode scalar values) and byte buffers as `List Nat`; byte offsets are `Nat`
with UTF-8 byte lengths computed explicitly.  The external tree-sitter parser
is out of scope (a black box per the specification), so theorems about the
CST walk quantify over explicitly well-formed trees instead of over parses.
-/

namespace StripWs

/-! ## Bytes, UTF-8 and UTF-16 lengths

`utf8Len`/`utf16Len` mirror Rust's `char::len_utf8`/`char::len_utf16`;
`utf8Bytes` is the UTF-8 encoding of a scalar value written with `/` and `%`
(equivalent to the usual shift/mask formulation). -/

/-- Number of bytes of the UTF-8 encoding of a scalar value (`char::len_utf8`). -/
def utf8Len (c : Char) : Nat :=
  if c.val.toNat < 0x80 then 1
  else if c.val.toNat < 0x800 then 2
  else if c.val.toNat < 0x10000 then 3
  else 4

/-- Number of UTF-16 code units of a scalar value (`char::len_utf16`). -/
def utf16Len (c : Char) : Nat :=
  if c.val.toNat < 0x10000 then 1 else 2

/-- The UTF-8 encoding of a scalar value, as a list of byte values. -/
def utf8Bytes (c : Char) : List Nat :=
  if c.val.toNat < 0x80 then [c.val.toNat]
  else if c.val.toNat < 0x800 then
    [0xC0 + c.val.toNat / 0x40, 0x80 + c.val.toNat % 0x40]
  else if c.val.toNat < 0x10000 then
    [0xE0 + c.val.toNat / 0x1000, 0x80 + (c.val.toNat / 0x40) % 0x40,
      0x80 + c.val.toNat % 0x40]
  else
    [0xF0 + c.val.toNat / 0x40000, 0x80 + (c.val.toNat / 0x1000) % 0x40,
      0x80 + (c.val.toNat / 0x40) % 0x40, 0x80 + c.val.toNat % 0x40]

/-- UTF-8 encoding of a string (list of scalar values) as a byte list
(`str::as_bytes`). -/
def encodeUtf8 (s : List Char) : List Nat :=
  s.flatMap utf8Bytes

theorem utf8Bytes_length (c : Char) : (utf8Bytes c).length = utf8Len c := by
  unfold utf8Bytes utf8Len
  split
  · rfl
  · split
    · rfl
    · split <;> rfl

/-- Rust's `char::is_whitespace` (the Unicode `White_Space` property). -/
def rustIsWhitespace (c : Char) : Bool :=
  let v := c.val.toNat
  v == 0x09 || v == 0x0A || v == 0x0B || v == 0x0C || v == 0x0D || v == 0x20 ||
  v == 0x85 || v == 0xA0 || v == 0x1680 ||
  (0x2000 ≤ v && v ≤ 0x200A) ||
  v == 0x2028 || v == 0x2029 || v == 0x202F || v == 0x205F || v == 0x3000

/-- A byte value that can occur in the UTF-8 encoding of a whitespace scalar:
an ASCII whitespace byte or a non-ASCII (≥ 0x80) byte. -/
def wsCompatibleByte (b : Nat) : Prop :=
  b = 0x09 ∨ b = 0x0A ∨ b = 0x0B ∨ b = 0x0C ∨ b = 0x0D ∨ b = 0x20 ∨ 0x80 ≤ b

/-- A byte of `utf8Bytes c` is either the scalar value itself (ASCII case) or
a byte ≥ 0x80 (lead/continuation byte of a multi-byte sequence). -/
theorem mem_utf8Bytes_cases {c : Char} {b : Nat} (hb : b ∈ utf8Bytes c) :
    (b = c.val.toNat ∧ c.val.toNat < 0x80) ∨ 0x80 ≤ b := by
  unfold utf8Bytes at hb
  split at hb
  · simp at hb; omega
  · split at hb
    · simp at hb; omega
    · split at hb <;> · simp at hb; omega

/-- Every byte of the UTF-8 encoding of a whitespace scalar is either an ASCII
whitespace byte or ≥ 0x80.  In particular no ASCII delimiter byte
(`<`, `>`, `/`, `-`, `!`, `{`, `}`) occurs in whitespace. -/
theorem wsCompatibleByte_of_mem_utf8Bytes {c : Char} {b : Nat}
    (hws : rustIsWhitespace c = true) (hb : b ∈ utf8Bytes c) :
    wsCompatibleByte b := by
  unfold rustIsWhitespace at hws
  simp only [Bool.or_eq_true, beq_iff_eq, Bool.and_eq_true, decide_eq_true_eq] at hws
  rcases mem_utf8Bytes_cases hb with ⟨hbe, hlt⟩ | hge
  · unfold wsCompatibleByte
    omega
  · unfold wsCompatibleByte
    omega

/-! ## The edit model (`edit.rs`)

`Edit` mirrors `edit::Edit`.  Rust's `end` field is called `stop` here
(`end` is a Lean keyword); `replacement` is kept as its byte list
(`replacement.as_bytes()` is all the core ever reads from it). -/

/-- A byte-range replacement over the input, `edit::Edit`. -/
structure Edit where
  /-- Start byte offset (inclusive) in the input code. -/
  start : Nat
  /-- End byte offset (exclusive) in the input code (`end` in Rust). -/
  stop : Nat
  /-- Replacement bytes inserted into the output code. -/
  replacement : List Nat
  /-- For each output byte of `replacement`, its originating input byte
  offset, or `none` for an inserted byte. -/
  outputByteToInputByte : List (Option Nat)
  /-- Length of the moved-delimiter suffix of `replacement`. -/
  movedDelimLen : Nat
deriving Repr, DecidableEq, Inhabited

/-- Errors of the core, `StripError` (the sourcemap library error is a bare
constructor since its payload is external). -/
inductive StripError where
  | parseFailed
  | unsupportedLanguage
  | invalidEdit (msg : String)
  | overlappingEdits (aStart aStop bStart bStop : Nat)
  | sourceMap
deriving Repr, DecidableEq

/-! ## The validator (`edit::validate_edits`) -/

/-- First origin entry that maps at or beyond the input length, together with
its output offset (the loop over `output_byte_to_input_byte` in
`validate_edits`). -/
def firstBadOrigin (inputLen : Nat) : List (Option Nat) → Nat → Option (Nat × Nat)
  | [], _ => none
  | none :: rest, off => firstBadOrigin inputLen rest (off + 1)
  | some i :: rest, off =>
    if inputLen ≤ i then some (off, i) else firstBadOrigin inputLen rest (off + 1)

/-- The per-edit structural checks of `validate_edits` that follow the overlap
check: origin-table length, `moved_delim_len`, and origin bounds. -/
def validateStructTail (inputLen idx : Nat) (e : Edit) : Option StripError :=
  if e.outputByteToInputByte.length ≠ e.replacement.length then
    some (.invalidEdit ("output_byte_to_input_byte length mismatch at index " ++
      toString idx ++ ": map_len=" ++ toString e.outputByteToInputByte.length ++
      ", replacement_len=" ++ toString e.replacement.length))
  else if e.replacement.length < e.movedDelimLen then
    some (.invalidEdit ("moved_delim_len too large at index " ++ toString idx ++
      ": moved_delim_len=" ++ toString e.movedDelimLen ++ " > replacement_len=" ++
      toString e.replacement.length))
  else
    match firstBadOrigin inputLen e.outputByteToInputByte 0 with
    | some (off, i) =>
      some (.invalidEdit ("mapped input byte out of bounds at index " ++
        toString idx ++ ": out_off=" ++ toString off ++ ", in_byte=" ++ toString i ++
        " >= input_len=" ++ toString inputLen))
    | none => none

/-- All checks `validate_edits` performs for one edit, in source order:
`start > end`, `end > input_len`, overlap with the previous edit, then the
structural tail checks.  `prev` is the previous edit (`none` at index 0,
matching the `idx > 0` guard with `prev_end` initialised to 0). -/
def checkEdit (inputLen idx : Nat) (prev : Option Edit) (e : Edit) : Option StripError :=
  if e.stop < e.start then
    some (.invalidEdit ("start > end at index " ++ toString idx ++ ": start=" ++
      toString e.start ++ ", end=" ++ toString e.stop))
  else if inputLen < e.stop then
    some (.invalidEdit ("edit out of bounds at index " ++ toString idx ++ ": end=" ++
      toString e.stop ++ " > input_len=" ++ toString inputLen))
  else
    match prev with
    | some p =>
      if e.start < p.stop then
        some (.overlappingEdits p.start p.stop e.start e.stop)
      else validateStructTail inputLen idx e
    | none => validateStructTail inputLen idx e

/-- The loop of `validate_edits`: check each edit in turn, carrying the
previous edit. -/
def validateEditsGo (inputLen : Nat) : List Edit → Nat → Option Edit → Except StripError Unit
  | [], _, _ => .ok ()
  | e :: rest, idx, prev =>
    match checkEdit inputLen idx prev e with
    | some err => .error err
    | none => validateEditsGo inputLen rest (idx + 1) (some e)

/-- `edit::validate_edits`. -/
def validateEdits (inputLen : Nat) (edits : List Edit) : Except StripError Unit :=
  validateEditsGo inputLen edits 0 none

/-! ### Violation predicates (the claims' vocabulary) -/

/-- An origin entry violating the bound `in_byte < input_len`. -/
def badOriginB (inputLen : Nat) : Option Nat → Bool
  | some i => inputLen ≤ i
  | none => false

/-- One of the structural violations listed for `InvalidEdit`: `start > end`,
`end` out of bounds, origin-table length mismatch, `moved_delim_len` too
large, or an origin offset at or beyond the input length. -/
def structViolB (inputLen : Nat) (e : Edit) : Bool :=
  decide (e.stop < e.start) || decide (inputLen < e.stop) ||
  decide (e.outputByteToInputByte.length ≠ e.replacement.length) ||
  decide (e.replacement.length < e.movedDelimLen) ||
  e.outputByteToInputByte.any (badOriginB inputLen)

/-- No consecutive pair, starting from an optional previous edit, has the
later edit's start before the earlier edit's end. -/
def noOverlapFrom : Option Edit → List Edit → Prop
  | _, [] => True
  | none, e :: rest => noOverlapFrom (some e) rest
  | some p, e :: rest => p.stop ≤ e.start ∧ noOverlapFrom (some e) rest

theorem firstBadOrigin_eq_none_iff (inputLen : Nat) (l : List (Option Nat)) :
    ∀ off, firstBadOrigin inputLen l off = none ↔ l.any (badOriginB inputLen) = false := by
  induction l with
  | nil => simp [firstBadOrigin]
  | cons x rest ih =>
    intro off
    cases x with
    | none => simp [firstBadOrigin, badOriginB, ih]
    | some i =>
      by_cases h : inputLen ≤ i
      · simp [firstBadOrigin, h, badOriginB]
      · simp [firstBadOrigin, h, badOriginB, ih, Nat.lt_of_not_le h]

theorem validateStructTail_eq_none_iff (inputLen idx : Nat) (e : Edit) :
    validateStructTail inputLen idx e = none ↔
      (e.outputByteToInputByte.length = e.replacement.length ∧
       e.movedDelimLen ≤ e.replacement.length ∧
       e.outputByteToInputByte.any (badOriginB inputLen) = false) := by
  unfold validateStructTail
  split
  · simp_all
  · split
    · simp_all
    · split
      · rename_i off i heq
        constructor
        · intro h; exact absurd h (by simp)
        · rintro ⟨-, -, hany⟩
          rw [← firstBadOrigin_eq_none_iff inputLen _ 0] at hany
          simp [hany] at heq
      · rename_i heq
        rw [firstBadOrigin_eq_none_iff inputLen _ 0] at heq
        simp_all

theorem structViolB_eq_false_iff (inputLen : Nat) (e : Edit) :
    structViolB inputLen e = false ↔
      (e.start ≤ e.stop ∧ e.stop ≤ inputLen ∧
       e.outputByteToInputByte.length = e.replacement.length ∧
       e.movedDelimLen ≤ e.replacement.length ∧
       e.outputByteToInputByte.any (badOriginB inputLen) = false) := by
  unfold structViolB
  simp only [Bool.or_eq_false_iff, decide_eq_false_iff_not, Nat.not_lt, not_ne_iff]
  tauto

theorem checkEdit_eq_none_iff (inputLen idx : Nat) (prev : Option Edit) (e : Edit) :
    checkEdit inputLen idx prev e = none ↔
      (structViolB inputLen e = false ∧ ∀ p, prev = some p → p.stop ≤ e.start) := by
  unfold checkEdit
  split
  · rename_i h1
    constructor
    · exact fun h => Option.noConfusion h
    · rintro ⟨hviol, -⟩
      rw [structViolB_eq_false_iff] at hviol
      exact absurd h1 (by omega)
  · split
    · rename_i h1 h2
      constructor
      · exact fun h => Option.noConfusion h
      · rintro ⟨hviol, -⟩
        rw [structViolB_eq_false_iff] at hviol
        exact absurd h2 (by omega)
    · rename_i h1 h2
      split
      · rename_i p
        split
        · rename_i hov
          constructor
          · exact fun h => Option.noConfusion h
          · rintro ⟨-, hp⟩
            have := hp p rfl
            exact absurd hov (by omega)
        · rename_i hov
          rw [validateStructTail_eq_none_iff, structViolB_eq_false_iff]
          constructor
          · rintro ⟨a3, a4, a5⟩
            refine ⟨⟨by omega, by omega, a3, a4, a5⟩, ?_⟩
            intro q hq
            injection hq with hq
            subst hq
            omega
          · rintro ⟨⟨-, -, a3, a4, a5⟩, -⟩
            exact ⟨a3, a4, a5⟩
      · rw [validateStructTail_eq_none_iff, structViolB_eq_false_iff]
        constructor
        · rintro ⟨a3, a4, a5⟩
          exact ⟨⟨by omega, by omega, a3, a4, a5⟩, fun p hp => Option.noConfusion hp⟩
        · rintro ⟨⟨-, -, a3, a4, a5⟩, -⟩
          exact ⟨a3, a4, a5⟩

theorem validateStructTail_shape (inputLen idx : Nat) (e : Edit) :
    validateStructTail inputLen idx e = none ∨
      ∃ msg, validateStructTail inputLen idx e = some (.invalidEdit msg) := by
  unfold validateStructTail
  split
  · exact Or.inr ⟨_, rfl⟩
  · split
    · exact Or.inr ⟨_, rfl⟩
    · split
      · exact Or.inr ⟨_, rfl⟩
      · exact Or.inl rfl

theorem checkEdit_shape (inputLen idx : Nat) (prev : Option Edit) (e : Edit) :
    checkEdit inputLen idx prev e = none ∨
      (∃ msg, checkEdit inputLen idx prev e = some (.invalidEdit msg)) ∨
      (∃ p, prev = some p ∧ e.start < p.stop ∧ checkEdit inputLen idx prev e =
        some (.overlappingEdits p.start p.stop e.start e.stop)) := by
  unfold checkEdit
  split
  · exact Or.inr (Or.inl ⟨_, rfl⟩)
  · split
    · exact Or.inr (Or.inl ⟨_, rfl⟩)
    · split
      · rename_i p
        split
        · rename_i hov
          exact Or.inr (Or.inr ⟨p, rfl, hov, rfl⟩)
        · rcases validateStructTail_shape inputLen idx e with h | ⟨msg, h⟩
          · exact Or.inl h
          · exact Or.inr (Or.inl ⟨msg, h⟩)
      · rcases validateStructTail_shape inputLen idx e with h | ⟨msg, h⟩
        · exact Or.inl h
        · exact Or.inr (Or.inl ⟨msg, h⟩)

theorem checkEdit_overlap_of (inputLen idx : Nat) (p e : Edit)
    (hviol : structViolB inputLen e = false) (hov : e.start < p.stop) :
    checkEdit inputLen idx (some p) e =
      some (.overlappingEdits p.start p.stop e.start e.stop) := by
  rw [structViolB_eq_false_iff] at hviol
  unfold checkEdit
  rw [if_neg (by omega), if_neg (by omega)]
  simp [hov]

theorem checkEdit_invalid_imp (inputLen idx : Nat) (prev : Option Edit) (e : Edit)
    (msg : String) (h : checkEdit inputLen idx prev e = some (.invalidEdit msg)) :
    structViolB inputLen e = true := by
  by_contra hc
  have hfalse : structViolB inputLen e = false := Bool.of_not_eq_true hc
  cases prev with
  | none =>
    rw [(checkEdit_eq_none_iff inputLen idx none e).mpr ⟨hfalse, by simp⟩] at h
    exact absurd h (by simp)
  | some p =>
    by_cases hov : e.start < p.stop
    · rw [checkEdit_overlap_of inputLen idx p e hfalse hov] at h
      exact absurd h (by simp)
    · rw [(checkEdit_eq_none_iff inputLen idx (some p) e).mpr
        ⟨hfalse, by intro q hq; injection hq with hq; subst hq; omega⟩] at h
      exact absurd h (by simp)

theorem checkEdit_overlapping_imp (inputLen idx : Nat) (prev : Option Edit) (e : Edit)
    (a1 a2 b1 b2 : Nat)
    (h : checkEdit inputLen idx prev e = some (.overlappingEdits a1 a2 b1 b2)) :
    ∃ p, prev = some p ∧ p.start = a1 ∧ p.stop = a2 ∧ e.start = b1 ∧ e.stop = b2 ∧
      b1 < a2 := by
  rcases checkEdit_shape inputLen idx prev e with hs | ⟨msg, hs⟩ | ⟨p, hp, hov, hs⟩
  · rw [hs] at h; exact absurd h (by simp)
  · rw [hs] at h; exact absurd h (by simp)
  · rw [hs] at h
    injection h with h
    cases h
    exact ⟨p, hp, rfl, rfl, rfl, rfl, hov⟩

theorem checkEdit_some_of_viol (inputLen idx : Nat) (prev : Option Edit) (e : Edit)
    (hviol : structViolB inputLen e = true)
    (hov : ∀ p, prev = some p → p.stop ≤ e.start) :
    ∃ msg, checkEdit inputLen idx prev e = some (.invalidEdit msg) := by
  rcases checkEdit_shape inputLen idx prev e with hs | ⟨msg, hs⟩ | ⟨p, hp, hlt, hs⟩
  · rw [checkEdit_eq_none_iff] at hs
    rw [hs.1] at hviol
    exact absurd hviol (by simp)
  · exact ⟨msg, hs⟩
  · have := hov p hp
    omega

/-- Consecutive pairs of a list, optionally preceded by a carried element
(mirrors how the validator walks `edits` with `prev_end`). -/
def pairsFrom : Option Edit → List Edit → List (Edit × Edit)
  | _, [] => []
  | none, e :: rest => pairsFrom (some e) rest
  | some p, e :: rest => (p, e) :: pairsFrom (some e) rest

theorem pairsFrom_some (p : Edit) (l : List Edit) :
    pairsFrom (some p) l = (p :: l).zip l := by
  induction l generalizing p with
  | nil => rfl
  | cons e rest ih => simp [pairsFrom, ih, List.zip]

theorem pairsFrom_none (l : List Edit) : pairsFrom none l = l.zip l.tail := by
  cases l with
  | nil => rfl
  | cons e rest => simp [pairsFrom, pairsFrom_some, List.zip]

theorem noOverlapFrom_some_iff (p : Edit) (l : List Edit) :
    noOverlapFrom (some p) l ↔
      ((∀ q, l.head? = some q → p.stop ≤ q.start) ∧ noOverlapFrom none l) := by
  cases l with
  | nil => simp [noOverlapFrom]
  | cons e rest =>
    simp only [noOverlapFrom, List.head?]
    constructor
    · rintro ⟨h1, h2⟩
      exact ⟨fun q hq => by injection hq with hq; subst hq; exact h1, h2⟩
    · rintro ⟨h1, h2⟩
      exact ⟨h1 e rfl, h2⟩

theorem noOverlapFrom_none_iff (l : List Edit) :
    noOverlapFrom none l ↔ ∀ pr ∈ l.zip l.tail, pr.1.stop ≤ pr.2.start := by
  induction l with
  | nil => simp [noOverlapFrom]
  | cons e rest ih =>
    cases rest with
    | nil => simp [noOverlapFrom]
    | cons f t =>
      have step : noOverlapFrom none (e :: f :: t) ↔
          (e.stop ≤ f.start ∧ noOverlapFrom none (f :: t)) := by
        simp only [noOverlapFrom]
      rw [step, ih]
      simp [List.zip]

theorem validateEditsGo_ok_iff (inputLen : Nat) (edits : List Edit) :
    ∀ idx prev, validateEditsGo inputLen edits idx prev = .ok () ↔
      ((∀ e ∈ edits, structViolB inputLen e = false) ∧ noOverlapFrom prev edits) := by
  induction edits with
  | nil =>
    intro idx prev
    constructor
    · intro _
      refine ⟨by simp, ?_⟩
      cases prev <;> trivial
    · intro _
      rfl
  | cons e rest ih =>
    intro idx prev
    unfold validateEditsGo
    rcases hc : checkEdit inputLen idx prev e with _ | err
    · obtain ⟨hv, hov⟩ := (checkEdit_eq_none_iff inputLen idx prev e).mp hc
      simp only
      rw [ih (idx + 1) (some e)]
      cases prev with
      | none =>
        simp only [noOverlapFrom, List.mem_cons]
        constructor
        · rintro ⟨h1, h2⟩
          exact ⟨fun x hx => hx.elim (fun hxe => hxe ▸ hv) (h1 x), h2⟩
        · rintro ⟨h1, h2⟩
          exact ⟨fun x hx => h1 x (Or.inr hx), h2⟩
      | some p =>
        simp only [noOverlapFrom, List.mem_cons]
        constructor
        · rintro ⟨h1, h2⟩
          exact ⟨fun x hx => hx.elim (fun hxe => hxe ▸ hv) (h1 x), hov p rfl, h2⟩
        · rintro ⟨h1, hps, h2⟩
          exact ⟨fun x hx => h1 x (Or.inr hx), h2⟩
    · simp only
      constructor
      · intro h
        exact absurd h (by simp)
      · rintro ⟨h1, h2⟩
        have hnone : checkEdit inputLen idx prev e = none := by
          rw [checkEdit_eq_none_iff]
          refine ⟨h1 e (List.mem_cons_self _ _), ?_⟩
          intro p hp
          subst hp
          exact ((noOverlapFrom_some_iff p (e :: rest)).mp h2).1 e rfl
        rw [hnone] at hc
        exact Option.noConfusion hc

theorem validateEditsGo_invalid (inputLen : Nat) (edits : List Edit) :
    ∀ idx prev msg, validateEditsGo inputLen edits idx prev = .error (.invalidEdit msg) →
      ∃ e ∈ edits, structViolB inputLen e = true := by
  induction edits with
  | nil =>
    intro idx prev msg h
    exact absurd h (by simp [validateEditsGo])
  | cons e rest ih =>
    intro idx prev msg h
    unfold validateEditsGo at h
    rcases hc : checkEdit inputLen idx prev e with _ | err
    · rw [hc] at h
      obtain ⟨x, hx, hv⟩ := ih (idx + 1) (some e) msg h
      exact ⟨x, List.mem_cons_of_mem _ hx, hv⟩
    · rw [hc] at h
      simp only at h
      injection h with h
      subst h
      exact ⟨e, List.mem_cons_self _ _, checkEdit_invalid_imp _ _ _ _ _ hc⟩

theorem validateEditsGo_overlapping (inputLen : Nat) (edits : List Edit) :
    ∀ idx prev a1 a2 b1 b2,
      validateEditsGo inputLen edits idx prev = .error (.overlappingEdits a1 a2 b1 b2) →
      ∃ pr ∈ pairsFrom prev edits, pr.1.start = a1 ∧ pr.1.stop = a2 ∧
        pr.2.start = b1 ∧ pr.2.stop = b2 ∧ b1 < a2 := by
  induction edits with
  | nil =>
    intro idx prev a1 a2 b1 b2 h
    exact absurd h (by simp [validateEditsGo])
  | cons e rest ih =>
    intro idx prev a1 a2 b1 b2 h
    unfold validateEditsGo at h
    rcases hc : checkEdit inputLen idx prev e with _ | err
    · rw [hc] at h
      obtain ⟨pr, hpr, hf⟩ := ih (idx + 1) (some e) a1 a2 b1 b2 h
      refine ⟨pr, ?_, hf⟩
      cases prev with
      | none => exact hpr
      | some p => exact List.mem_cons_of_mem _ hpr
    · rw [hc] at h
      simp only at h
      injection h with h
      subst h
      obtain ⟨p, hp, e1, e2, e3, e4, hlt⟩ :=
        checkEdit_overlapping_imp _ _ _ _ _ _ _ _ hc
      subst hp
      exact ⟨(p, e), List.mem_cons_self _ _, e1, e2, e3, e4, hlt⟩

theorem validateEditsGo_invalid_of_viol (inputLen : Nat) (edits : List Edit) :
    ∀ idx prev, (∃ e ∈ edits, structViolB inputLen e = true) →
      noOverlapFrom prev edits →
      ∃ msg, validateEditsGo inputLen edits idx prev = .error (.invalidEdit msg) := by
  induction edits with
  | nil =>
    intro idx prev h _
    simp at h
  | cons e rest ih =>
    intro idx prev hviol hov
    by_cases hve : structViolB inputLen e = true
    · have hovp : ∀ p, prev = some p → p.stop ≤ e.start := by
        intro p hp
        subst hp
        exact ((noOverlapFrom_some_iff p (e :: rest)).mp hov).1 e rfl
      obtain ⟨msg, hm⟩ := checkEdit_some_of_viol inputLen idx prev e hve hovp
      refine ⟨msg, ?_⟩
      unfold validateEditsGo
      rw [hm]
    · have hvrest : ∃ x ∈ rest, structViolB inputLen x = true := by
        obtain ⟨x, hx, hv⟩ := hviol
        rcases List.mem_cons.mp hx with rfl | hx2
        · exact absurd hv hve
        · exact ⟨x, hx2, hv⟩
      have hovrest : noOverlapFrom (some e) rest := by
        cases prev with
        | none => exact hov
        | some p => exact (hov : _ ∧ _).2
      have hnone : checkEdit inputLen idx prev e = none := by
        rw [checkEdit_eq_none_iff]
        refine ⟨Bool.of_not_eq_true hve, ?_⟩
        intro p hp
        subst hp
        exact ((noOverlapFrom_some_iff p (e :: rest)).mp hov).1 e rfl
      obtain ⟨msg, hm⟩ := ih (idx + 1) (some e) hvrest hovrest
      refine ⟨msg, ?_⟩
      unfold validateEditsGo
      rw [hnone]
      exact hm

theorem validateEditsGo_overlap_of (inputLen : Nat) (edits : List Edit) :
    ∀ idx prev, (∀ e ∈ edits, structViolB inputLen e = false) →
      ¬ noOverlapFrom prev edits →
      ∃ a1 a2 b1 b2, validateEditsGo inputLen edits idx prev =
        .error (.overlappingEdits a1 a2 b1 b2) := by
  induction edits with
  | nil =>
    intro idx prev _ hno
    exfalso
    apply hno
    cases prev <;> trivial
  | cons e rest ih =>
    intro idx prev hok hno
    have hcase : (∃ p, prev = some p ∧ e.start < p.stop) ∨
        ((∀ p, prev = some p → p.stop ≤ e.start) ∧ ¬ noOverlapFrom (some e) rest) := by
      cases prev with
      | none => exact Or.inr ⟨fun p hp => Option.noConfusion hp, hno⟩
      | some p =>
        by_cases hov : e.start < p.stop
        · exact Or.inl ⟨p, rfl, hov⟩
        · refine Or.inr ⟨?_, ?_⟩
          · intro q hq
            injection hq with hq
            subst hq
            omega
          · intro hcontra
            exact hno ⟨by omega, hcontra⟩
    rcases hcase with ⟨p, hp, hov⟩ | ⟨hovok, hnorest⟩
    · subst hp
      refine ⟨p.start, p.stop, e.start, e.stop, ?_⟩
      unfold validateEditsGo
      rw [checkEdit_overlap_of inputLen idx p e (hok e (List.mem_cons_self _ _)) hov]
    · have hnone : checkEdit inputLen idx prev e = none := by
        rw [checkEdit_eq_none_iff]
        exact ⟨hok e (List.mem_cons_self _ _), hovok⟩
      obtain ⟨a1, a2, b1, b2, hm⟩ := ih (idx + 1) (some e)
        (fun x hx => hok x (List.mem_cons_of_mem _ hx)) hnorest
      refine ⟨a1, a2, b1, b2, ?_⟩
      unfold validateEditsGo
      rw [hnone]
      exact hm

/-- C6: the edit validator returns `InvalidEdit` exactly for the listed
structural violations (start > end, end beyond the input length, origin-table
length differing from the replacement length, `moved_delim_len` greater than
the replacement length, or an origin offset at or beyond the input length),
returns `OverlappingEdits` carrying both ranges when a later edit's start is
before the previous edit's end, and returns `Ok` when none of these hold. -/
theorem validateEdits_characterization (inputLen : Nat) (edits : List Edit) :
    (validateEdits inputLen edits = .ok () ↔
      ((∀ e ∈ edits, structViolB inputLen e = false) ∧
       ∀ pr ∈ edits.zip edits.tail, pr.1.stop ≤ pr.2.start)) ∧
    (∀ msg, validateEdits inputLen edits = .error (.invalidEdit msg) →
      ∃ e ∈ edits, structViolB inputLen e = true) ∧
    (∀ a1 a2 b1 b2,
      validateEdits inputLen edits = .error (.overlappingEdits a1 a2 b1 b2) →
      ∃ pr ∈ edits.zip edits.tail, pr.1.start = a1 ∧ pr.1.stop = a2 ∧
        pr.2.start = b1 ∧ pr.2.stop = b2 ∧ b1 < a2) ∧
    ((∃ e ∈ edits, structViolB inputLen e = true) →
      (∀ pr ∈ edits.zip edits.tail, pr.1.stop ≤ pr.2.start) →
      ∃ msg, validateEdits inputLen edits = .error (.invalidEdit msg)) ∧
    ((∀ e ∈ edits, structViolB inputLen e = false) →
      (∃ pr ∈ edits.zip edits.tail, pr.2.start < pr.1.stop) →
      ∃ a1 a2 b1 b2, validateEdits inputLen edits =
        .error (.overlappingEdits a1 a2 b1 b2)) := by
  refine ⟨?_, ?_, ?_, ?_, ?_⟩
  · rw [show validateEdits inputLen edits = validateEditsGo inputLen edits 0 none from rfl,
      validateEditsGo_ok_iff, noOverlapFrom_none_iff]
  · intro msg h
    exact validateEditsGo_invalid inputLen edits 0 none msg h
  · intro a1 a2 b1 b2 h
    obtain ⟨pr, hpr, hf⟩ := validateEditsGo_overlapping inputLen edits 0 none a1 a2 b1 b2 h
    rw [pairsFrom_none] at hpr
    exact ⟨pr, hpr, hf⟩
  · intro hviol hov
    exact validateEditsGo_invalid_of_viol inputLen edits 0 none hviol
      ((noOverlapFrom_none_iff edits).mpr hov)
  · intro hok hpair
    refine validateEditsGo_overlap_of inputLen edits 0 none hok ?_
    rw [noOverlapFrom_none_iff]
    intro hall
    obtain ⟨pr, hpr, hlt⟩ := hpair
    have := hall pr hpr
    omega

/-- Witness for C6 on concrete inputs: a well-formed two-edit list validates
`Ok`, and a list whose first edit has `start > end` yields `InvalidEdit`. -/
theorem validateEdits_characterization_witness :
    validateEdits 10 [⟨0, 2, [61, 62], [some 0, some 1], 1⟩, ⟨5, 7, [], [], 0⟩] =
        .ok () ∧
      ∃ msg, validateEdits 10 [⟨3, 1, [], [], 0⟩] = .error (.invalidEdit msg) := by
  constructor
  · exact (validateEdits_characterization 10 _).1.mpr (by decide)
  · exact (validateEdits_characterization 10 _).2.2.2.1 ⟨⟨3, 1, [], [], 0⟩,
      List.mem_singleton.mpr rfl, by decide⟩ (by decide)

/-- C9 counterexample: `validate_edits` does not always return
`OverlappingEdits` when some edit's start is before the preceding edit's end —
a structural violation in an earlier edit is reported first (here the first
edit has start 2 > end 1, so `InvalidEdit` is returned even though the second
edit's start 0 is before the first edit's end 1). -/
theorem validateEdits_orderSensitive_counterexample :
    (∃ pr ∈ ([⟨2, 1, [], [], 0⟩, ⟨0, 5, [], [], 0⟩] : List Edit).zip
        ([⟨2, 1, [], [], 0⟩, ⟨0, 5, [], [], 0⟩] : List Edit).tail,
      pr.2.start < pr.1.stop) ∧
    ∀ a1 a2 b1 b2,
      validateEdits 10 [⟨2, 1, [], [], 0⟩, ⟨0, 5, [], [], 0⟩] ≠
        .error (.overlappingEdits a1 a2 b1 b2) := by
  constructor
  · exact ⟨(⟨2, 1, [], [], 0⟩, ⟨0, 5, [], [], 0⟩), by decide, by decide⟩
  · intro a1 a2 b1 b2 h
    have hinv : validateEdits 10 [⟨2, 1, [], [], 0⟩, ⟨0, 5, [], [], 0⟩] =
        .error (.invalidEdit "start > end at index 0: start=2, end=1") := by rfl
    rw [hinv] at h
    simp at h

/-- C9 (amended): `validate_edits` never sorts its input; for any edit list
whose edits individually pass the structural checks, if some edit's start is
smaller than the immediately preceding edit's end — even when the two byte
ranges are disjoint and merely given out of ascending order — it returns
`OverlappingEdits`. -/
theorem validateEdits_orderSensitive (inputLen : Nat) (edits : List Edit)
    (hok : ∀ e ∈ edits, structViolB inputLen e = false)
    (hpair : ∃ pr ∈ edits.zip edits.tail, pr.2.start < pr.1.stop) :
    ∃ a1 a2 b1 b2, validateEdits inputLen edits =
      .error (.overlappingEdits a1 a2 b1 b2) := by
  refine validateEditsGo_overlap_of inputLen edits 0 none hok ?_
  rw [noOverlapFrom_none_iff]
  intro hall
  obtain ⟨pr, hpr, hlt⟩ := hpair
  have := hall pr hpr
  omega

/-- Witness for C9: two disjoint edits given out of ascending order
(`[4,6)` then `[0,2)`) are rejected as overlapping. -/
theorem validateEdits_orderSensitive_witness :
    ∃ a1 a2 b1 b2, validateEdits 10 [⟨4, 6, [], [], 0⟩, ⟨0, 2, [], [], 0⟩] =
      .error (.overlappingEdits a1 a2 b1 b2) :=
  validateEdits_orderSensitive 10 _ (by decide)
    ⟨(⟨4, 6, [], [], 0⟩, ⟨0, 2, [], [], 0⟩), by decide, by decide⟩

/-! ## Gap rotation (`strip.rs`)

`rotate_delim_over_gap` and `rotate_prefix_over_gap` are pure byte
permutations; they are modelled over the gap's characters (the Rust functions
take `&str` and immediately use `as_bytes`). -/

/-- Trailing delimiters that can be rotated across a whitespace gap
(`strip::TrailingDelim`). -/
inductive TrailingDelim where
  | gt
  | slashGt
  | commentEnd
  | rBrace
deriving Repr, DecidableEq

/-- `TrailingDelim::bytes`: the literal delimiter bytes
(`>`, `/>`, `-->`, `}`). -/
def TrailingDelim.bytes : TrailingDelim → List Nat
  | .gt => [0x3E]
  | .slashGt => [0x2F, 0x3E]
  | .commentEnd => [0x2D, 0x2D, 0x3E]
  | .rBrace => [0x7D]

/-- `TrailingDelim::len`. -/
def TrailingDelim.len (d : TrailingDelim) : Nat := d.bytes.length

/-- The `max_steal` table in `rotate_delim_over_gap`: 2 for `/>`, 1
otherwise. -/
def maxSteal : TrailingDelim → Nat
  | .slashGt => 2
  | _ => 1

/-- Start index of the final line within the gap bytes (the `\n` scan at the
top of `rotate_delim_over_gap`). -/
def lastLineStart (gapB : List Nat) : Nat :=
  gapB.enum.foldl (fun acc p => if p.2 = 0x0A then p.1 + 1 else acc) 0

/-- The backward walk of `rotate_delim_over_gap` collecting stealable
space/tab indices on the final gap line; `i` is the cursor (counts down from
the gap length), `acc` the indices pushed so far (in descending order, as in
the source). -/
def stealWalk (gapB : List Nat) (lastLine maxSt : Nat) : Nat → List Nat → List Nat
  | 0, acc => acc
  | i + 1, acc =>
    if lastLine ≤ i ∧ acc.length < maxSt then
      if gapB.getD i 0 = 0x20 ∨ gapB.getD i 0 = 0x09 then
        stealWalk gapB lastLine maxSt i (acc ++ [i])
      else acc
    else acc

/-- The sorted steal-index list of `rotate_delim_over_gap` (the walk followed
by `sort_unstable`; the indices are distinct, so any correct sort gives the
same result). -/
def stealIndices (gapB : List Nat) (delim : TrailingDelim) : List Nat :=
  if 0 < maxSteal delim ∧ lastLineStart gapB < gapB.length then
    List.insertionSort (· ≤ ·)
      (stealWalk gapB (lastLineStart gapB) (maxSteal delim) gapB.length [])
  else []

/-- `strip::rotate_delim_over_gap`: returns `(replacement bytes,
input_offset_for_output)`.  Input segment offsets: delimiter at `0..d`, gap
at `d..d+g`. -/
def rotateDelimOverGap (delim : TrailingDelim) (gap : List Char) : List Nat × List Nat :=
  let delimBytes := delim.bytes
  let delimLen := delimBytes.length
  let gapB := encodeUtf8 gap
  let steal := stealIndices gapB delim
  if steal = [] then
    (gapB ++ delimBytes,
     (List.range gapB.length).map (delimLen + ·) ++ List.range delimLen)
  else
    (steal.map (fun i => gapB.getD i 0) ++
       gapB.enum.filterMap (fun p => if p.1 ∈ steal then none else some p.2) ++
       delimBytes,
     steal.map (fun i => delimLen + i) ++
       gapB.enum.filterMap (fun p => if p.1 ∈ steal then none else some (delimLen + p.1)) ++
       List.range delimLen)

/-- `strip::rotate_prefix_over_gap`: input segment is gap (offsets `0..g`)
then the opener bytes (offsets `g..g+p`); output is opener then gap. -/
def rotatePrefixOverGap (pfx : List Nat) (gap : List Char) : List Nat × List Nat :=
  let gapB := encodeUtf8 gap
  (pfx ++ gapB,
   (List.range pfx.length).map (gapB.length + ·) ++ List.range gapB.length)

/-! ### The steal set is a contiguous tail run -/

theorem stealWalk_spec (gapB : List Nat) (lastLine maxSt : Nat) :
    ∀ i acc, ∃ j, j ≤ i ∧
      stealWalk gapB lastLine maxSt i acc = acc ++ (List.range' j (i - j)).reverse := by
  intro i
  induction i with
  | zero => exact fun acc => ⟨0, le_refl _, by simp [stealWalk]⟩
  | succ i ih =>
    intro acc
    unfold stealWalk
    split
    · split
      · obtain ⟨j, hj, hw⟩ := ih (acc ++ [i])
        refine ⟨j, by omega, ?_⟩
        rw [hw]
        have hr : List.range' j (i + 1 - j) = List.range' j (i - j) ++ [i] := by
          have : i + 1 - j = (i - j) + 1 := by omega
          rw [this, List.range'_concat]
          congr 1
          simp
          omega
        rw [hr]
        simp
      · exact ⟨i + 1, le_refl _, by simp⟩
    · exact ⟨i + 1, le_refl _, by simp⟩

theorem sorted_le_range' (s n : Nat) : List.Sorted (· ≤ ·) (List.range' s n) :=
  (List.pairwise_lt_range' s n 1 (by omega)).imp (fun h => Nat.le_of_lt h)

theorem insertionSort_reverse_range' (j n : Nat) :
    List.insertionSort (· ≤ ·) (List.range' j n).reverse = List.range' j n := by
  refine List.eq_of_perm_of_sorted
    ((List.perm_insertionSort _ _).trans (List.reverse_perm _)) ?_ (sorted_le_range' j n)
  exact List.sorted_insertionSort _ _

/-- `stealIndices` is always a contiguous run `[j, gapLen)` of final-line
indices. -/
theorem stealIndices_spec (gapB : List Nat) (delim : TrailingDelim) :
    ∃ j, j ≤ gapB.length ∧
      stealIndices gapB delim = List.range' j (gapB.length - j) := by
  unfold stealIndices
  split
  · obtain ⟨j, hj, hw⟩ := stealWalk_spec gapB (lastLineStart gapB) (maxSteal delim)
      gapB.length []
    refine ⟨j, hj, ?_⟩
    rw [hw]
    simp only [List.nil_append]
    exact insertionSort_reverse_range' j (gapB.length - j)
  · exact ⟨gapB.length, le_refl _, by simp⟩

/-! ### Extraction lemmas for contiguous index runs -/

theorem map_getD_range' (l : List Nat) :
    ∀ n j, j + n = l.length →
      (List.range' j n).map (fun i => l.getD i 0) = l.drop j := by
  intro n
  induction n with
  | zero =>
    intro j hj
    rw [List.range'_zero]
    rw [List.map_nil, Eq.comm, List.drop_eq_nil_iff]
    omega
  | succ n ih =>
    intro j hj
    have hjl : j < l.length := by omega
    rw [List.range'_succ, List.map_cons, ih (j + 1) (by omega),
      List.drop_eq_getElem_cons hjl, List.getD_eq_getElem?_getD]
    simp [List.getElem?_eq_getElem hjl]

theorem filterMap_enumFrom_take {α β : Type} (j : Nat) (f : Nat → α → β) :
    ∀ (l : List α) (k : Nat),
      (List.enumFrom k l).filterMap
          (fun p => if j ≤ p.1 then none else some (f p.1 p.2)) =
        ((List.enumFrom k l).map (fun p => f p.1 p.2)).take (j - k) := by
  intro l
  induction l with
  | nil => intro k; simp
  | cons a l ih =>
    intro k
    simp only [List.enumFrom, List.filterMap_cons, List.map_cons]
    by_cases hk : j ≤ k
    · rw [if_pos hk]
      have : j - k = 0 := by omega
      rw [this, List.take_zero, ih (k + 1)]
      have : j - (k + 1) = 0 := by omega
      rw [this, List.take_zero]
    · rw [if_neg hk]
      have : j - k = (j - (k + 1)) + 1 := by omega
      rw [this, List.take_succ_cons, ih (k + 1)]

theorem take_range' : ∀ (n s m : Nat), (List.range' s n).take m = List.range' s (min m n) := by
  intro n
  induction n with
  | zero => intro s m; simp
  | succ n ih =>
    intro s m
    cases m with
    | zero => simp
    | succ m =>
      rw [List.range'_succ, List.take_succ_cons, ih (s + 1) m]
      have : min (m + 1) (n + 1) = (min m n) + 1 := by omega
      rw [this, List.range'_succ]

theorem enum_fst_lt {α : Type} {p : Nat × α} {l : List α} (h : p ∈ l.enum) :
    p.1 < l.length := by
  have := List.mem_map_of_mem Prod.fst h
  rw [List.enum_map_fst] at this
  exact List.mem_range.mp this

theorem filterMap_enum_snd_take {α : Type} (j : Nat) (l : List α) :
    l.enum.filterMap (fun p => if j ≤ p.1 then none else some p.2) = l.take j := by
  have h := filterMap_enumFrom_take j (fun _ a => a) l 0
  rw [← List.enum_eq_enumFrom] at h
  simp only [Nat.sub_zero] at h
  rw [h]
  have hsnd : l.enum.map (fun p => p.2) = l := by
    have := List.enumFrom_map_snd 0 l
    rw [← List.enum_eq_enumFrom] at this
    exact this
  rw [hsnd]

theorem filterMap_enum_addFst_take (c j : Nat) (l : List Nat) (hj : j ≤ l.length) :
    l.enum.filterMap (fun p => if j ≤ p.1 then none else some (c + p.1)) =
      List.range' c j := by
  have h := filterMap_enumFrom_take j (fun i _ => c + i) l 0
  rw [← List.enum_eq_enumFrom] at h
  simp only [Nat.sub_zero] at h
  rw [h]
  have hfst : l.enum.map (fun p => c + p.1) = List.range' c l.length := by
    have h2 : l.enum.map (fun p => c + p.1) =
        (l.enum.map Prod.fst).map (fun i => c + i) := by
      rw [List.map_map]
      rfl
    rw [h2, List.enum_map_fst, List.range_eq_range', List.map_add_range',
      Nat.add_zero]
  rw [hfst, take_range']
  congr 1
  omega

/-- Rewrites the binary-search membership test against the contiguous steal
run into an index comparison. -/
theorem filterMap_mem_range'_congr {β : Type} (l : List Nat) (j : Nat)
    (f : Nat × Nat → β) :
    l.enum.filterMap
        (fun p => if p.1 ∈ List.range' j (l.length - j) then none else some (f p)) =
      l.enum.filterMap (fun p => if j ≤ p.1 then none else some (f p)) := by
  refine List.filterMap_congr ?_
  intro p hp
  have hlt := enum_fst_lt hp
  by_cases hle : j ≤ p.1
  · rw [if_pos (List.mem_range'_1.mpr ⟨hle, by omega⟩), if_pos hle]
  · rw [if_neg (fun hm => hle (List.mem_range'_1.mp hm).1), if_neg hle]

/-- The replacement of a delimiter rotation is a byte permutation of the
input segment `delim ++ gap` (stolen bytes are relocated, never deleted). -/
theorem rotateDelimOverGap_fst_multiset (delim : TrailingDelim) (gap : List Char) :
    ((rotateDelimOverGap delim gap).1 : Multiset Nat) =
      (↑(delim.bytes ++ encodeUtf8 gap) : Multiset Nat) := by
  obtain ⟨j, hj, hsteal⟩ := stealIndices_spec (encodeUtf8 gap) delim
  unfold rotateDelimOverGap
  simp only [hsteal]
  split
  · rw [← Multiset.coe_add, ← Multiset.coe_add]
    exact add_comm _ _
  · have hstolen : (List.range' j ((encodeUtf8 gap).length - j)).map
        (fun i => (encodeUtf8 gap).getD i 0) = (encodeUtf8 gap).drop j :=
      map_getD_range' (encodeUtf8 gap) ((encodeUtf8 gap).length - j) j (by omega)
    have hkept : (encodeUtf8 gap).enum.filterMap
        (fun p => if p.1 ∈ List.range' j ((encodeUtf8 gap).length - j) then none
          else some p.2) = (encodeUtf8 gap).take j := by
      rw [filterMap_mem_range'_congr (encodeUtf8 gap) j (fun p => p.2)]
      exact filterMap_enum_snd_take j (encodeUtf8 gap)
    rw [hstolen, hkept, ← Multiset.coe_add, ← Multiset.coe_add, ← Multiset.coe_add]
    have hdt : (↑((encodeUtf8 gap).drop j) : Multiset Nat) +
        ↑((encodeUtf8 gap).take j) = (↑(encodeUtf8 gap) : Multiset Nat) := by
      rw [add_comm, Multiset.coe_add, List.take_append_drop]
    rw [hdt, add_comm]

/-- The replacement of an opener-prefix rotation is a byte permutation of the
input segment `gap ++ opener`. -/
theorem rotatePrefixOverGap_fst_multiset (pfx : List Nat) (gap : List Char) :
    ((rotatePrefixOverGap pfx gap).1 : Multiset Nat) =
      (↑(encodeUtf8 gap ++ pfx) : Multiset Nat) := by
  unfold rotatePrefixOverGap
  rw [← Multiset.coe_add, ← Multiset.coe_add]
  exact add_comm _ _

theorem coe_two_ranges (a b : Nat) :
    (↑((List.range b).map (a + ·) ++ List.range a) : Multiset Nat) =
      ↑(List.range (a + b)) := by
  rw [← Multiset.coe_add, add_comm, Multiset.coe_add]
  congr 1
  rw [List.range_eq_range' a, List.range_eq_range' b, List.range_eq_range' (a + b),
    List.map_add_range', Nat.add_zero]
  have h := List.range'_append 0 a b 1
  simp only [Nat.zero_add, Nat.one_mul] at h
  rw [h, Nat.add_comm b a]

/-- The origin-offset table of a delimiter rotation is a permutation of
`0 .. d + g`: every output byte has an origin and origins form a bijection of
the input segment. -/
theorem rotateDelimOverGap_snd_multiset (delim : TrailingDelim) (gap : List Char) :
    ((rotateDelimOverGap delim gap).2 : Multiset Nat) =
      ↑(List.range (delim.bytes.length + (encodeUtf8 gap).length)) := by
  obtain ⟨j, hj, hsteal⟩ := stealIndices_spec (encodeUtf8 gap) delim
  unfold rotateDelimOverGap
  simp only [hsteal]
  split
  · exact coe_two_ranges delim.bytes.length (encodeUtf8 gap).length
  · have hstolen : (List.range' j ((encodeUtf8 gap).length - j)).map
        (fun i => delim.bytes.length + i) =
        List.range' (delim.bytes.length + j) ((encodeUtf8 gap).length - j) :=
      List.map_add_range' _ _ _ _
    have hkept : (encodeUtf8 gap).enum.filterMap
        (fun p => if p.1 ∈ List.range' j ((encodeUtf8 gap).length - j) then none
          else some (delim.bytes.length + p.1)) =
        List.range' delim.bytes.length j := by
      rw [filterMap_mem_range'_congr (encodeUtf8 gap) j
        (fun p => delim.bytes.length + p.1)]
      exact filterMap_enum_addFst_take delim.bytes.length j (encodeUtf8 gap) hj
    rw [hstolen, hkept, ← Multiset.coe_add, ← Multiset.coe_add]
    have hmid : (↑(List.range' (delim.bytes.length + j)
          ((encodeUtf8 gap).length - j)) : Multiset Nat) +
        ↑(List.range' delim.bytes.length j) =
        ↑(List.range' delim.bytes.length (encodeUtf8 gap).length) := by
      rw [add_comm, Multiset.coe_add]
      congr 1
      have h := List.range'_append delim.bytes.length j ((encodeUtf8 gap).length - j) 1
      simp only [Nat.one_mul] at h
      rw [h]
      congr 1
      omega
    rw [hmid]
    have h2 : (List.range (encodeUtf8 gap).length).map (delim.bytes.length + ·) =
        List.range' delim.bytes.length (encodeUtf8 gap).length := by
      rw [List.range_eq_range', List.map_add_range', Nat.add_zero]
    rw [← h2]
    exact coe_two_ranges delim.bytes.length (encodeUtf8 gap).length

/-- The origin-offset table of an opener-prefix rotation is a permutation of
`0 .. g + p`. -/
theorem rotatePrefixOverGap_snd_multiset (pfx : List Nat) (gap : List Char) :
    ((rotatePrefixOverGap pfx gap).2 : Multiset Nat) =
      ↑(List.range ((encodeUtf8 gap).length + pfx.length)) := by
  unfold rotatePrefixOverGap
  exact coe_two_ranges (encodeUtf8 gap).length pfx.length

/-- C2: for every single rotation edit produced by the rewriter, the multiset
of bytes in the replacement equals the multiset of bytes in the input segment
minus at most `max_steal(delim)` whitespace bytes (`max_steal` is 2 for `/>`,
1 for every other delimiter, and 0 for opener-prefix rotations, which never
steal).  Here the removed multiset is in fact always empty: rotation is a
byte permutation of the segment (`delim ++ gap`, resp. `gap ++ opener`). -/
theorem rotation_byte_count_invariant :
    (∀ (delim : TrailingDelim) (gap : List Char),
      ∃ removed : Multiset Nat,
        (∀ b ∈ removed, b = 0x20 ∨ b = 0x09) ∧
        Multiset.card removed ≤ maxSteal delim ∧
        ((rotateDelimOverGap delim gap).1 : Multiset Nat) + removed =
          ↑(delim.bytes ++ encodeUtf8 gap)) ∧
    (∀ (pfx : List Nat) (gap : List Char),
      ((rotatePrefixOverGap pfx gap).1 : Multiset Nat) =
        ↑(encodeUtf8 gap ++ pfx)) := by
  constructor
  · intro delim gap
    refine ⟨0, by simp, by simp, ?_⟩
    rw [add_zero]
    exact rotateDelimOverGap_fst_multiset delim gap
  · exact rotatePrefixOverGap_fst_multiset

/-! ## Output spans and origin maps (`edit.rs`)

`compute_output_spans`, `build_output_to_input_map` and
`build_input_to_output_map`.  The maps are `List (Option Nat)` updated with
`List.set`; every in-bounds store of the Rust code carries its guard here,
and stores the Rust code would perform out of bounds (a panic) become
`List.set` no-ops, which keeps the shallow embedding total. -/

/-- 64-bit `usize` cast of a possibly negative `isize` value (`x as usize`
wraps modulo `2^64`). -/
def usizeOfInt (x : Int) : Nat := (x % (2 ^ 64)).toNat

/-- The loop of `edit::compute_output_spans`: spans from the running length
delta, returning the final delta. -/
def computeOutputSpansGo : List Edit → Int → List (Edit × Nat × Nat) × Int
  | [], delta => ([], delta)
  | e :: rest, delta =>
    let outStart := usizeOfInt ((e.start : Int) + delta)
    let outEnd := outStart + e.replacement.length
    let next := computeOutputSpansGo rest
      (delta + (e.replacement.length : Int) - ((e.stop : Int) - (e.start : Int)))
    ((e, outStart, outEnd) :: next.1, next.2)

/-- `edit::compute_output_spans`: per-edit output spans and the expected
output length (`(input_len as isize + delta).max(0) as usize`). -/
def computeOutputSpans (inputLen : Nat) (edits : List Edit) :
    List (Edit × Nat × Nat) × Nat :=
  let r := computeOutputSpansGo edits 0
  (r.1, ((inputLen : Int) + r.2).toNat)

/-- Unchanged-region loop of `build_output_to_input_map`: copy `len` identity
entries; the `Bool` is `true` when the loop hit the output bound (the Rust
code then returns the map immediately). -/
def copyRunOut (inputLen outputLen : Nat) :
    Nat → Nat → Nat → List (Option Nat) → List (Option Nat) × Bool
  | _, _, 0, m => (m, false)
  | inByte, outByte, len + 1, m =>
    if outputLen ≤ outByte then (m, true)
    else
      copyRunOut inputLen outputLen (inByte + 1) (outByte + 1) len
        (if inByte < inputLen then m.set outByte (some inByte) else m)

/-- Edit-replacement loop of `build_output_to_input_map`: store each origin
entry; the `Bool` is `true` when the loop hit the output bound. -/
def editRunOut (inputLen outputLen : Nat) :
    Nat → List (Option Nat) → List (Option Nat) → List (Option Nat) × Bool
  | _, [], m => (m, false)
  | outByte, o :: os, m =>
    if outputLen ≤ outByte then (m, true)
    else
      editRunOut inputLen outputLen (outByte + 1) os
        (match o with
         | some inByte => if inByte < inputLen then m.set outByte (some inByte) else m
         | none => m)

/-- Trailing-region loop of `build_output_to_input_map` (and of the input
map): identity entries for the bytes after the last edit, stopping at the
output bound. -/
def trailRunOut (outputLen : Nat) :
    Nat → Nat → Nat → List (Option Nat) → List (Option Nat)
  | 0, _, _, m => m
  | len + 1, inByte, outByte, m =>
    if outputLen ≤ outByte then m
    else trailRunOut outputLen len (inByte + 1) (outByte + 1)
      (m.set outByte (some inByte))

/-- One span step of `build_output_to_input_map`: unchanged-region copy,
then the edit's origin entries from `out_start` (`out_cursor` is
resynchronised to `out_start`, which is what the
`if out_start != out_cursor` branch amounts to).  The `Bool` is `true` when
the builder hit the output bound and returns early. -/
def outSpanStep (inputLen outputLen : Nat) (e : Edit) (outStart : Nat)
    (inCursor outCursor : Nat) (m : List (Option Nat)) : List (Option Nat) × Bool :=
  match (if inCursor < e.start then
      copyRunOut inputLen outputLen inCursor outCursor (e.start - inCursor) m
    else (m, false)) with
  | (m1, true) => (m1, true)
  | (m1, false) => editRunOut inputLen outputLen outStart e.outputByteToInputByte m1

/-- The span walk of `edit::build_output_to_input_map`, carrying the input
and output cursors. -/
def buildOutToInGo (inputLen outputLen : Nat) :
    List (Edit × Nat × Nat) → Nat → Nat → List (Option Nat) → List (Option Nat)
  | [], inCursor, outCursor, m =>
    trailRunOut outputLen (inputLen - inCursor) inCursor outCursor m
  | (e, outStart, outEnd) :: spans, inCursor, outCursor, m =>
    match outSpanStep inputLen outputLen e outStart inCursor outCursor m with
    | (m2, true) => m2
    | (m2, false) => buildOutToInGo inputLen outputLen spans e.stop outEnd m2

/-- `edit::build_output_to_input_map`. -/
def buildOutputToInputMap (inputLen outputLen : Nat)
    (spans : List (Edit × Nat × Nat)) : List (Option Nat) :=
  buildOutToInGo inputLen outputLen spans 0 0 (List.replicate outputLen none)

/-- Unchanged-region loop of `build_input_to_output_map` (no bound guard on
the store index in the Rust code; out-of-bounds stores are no-ops here). -/
def copyRunIn (outputLen : Nat) :
    Nat → Nat → Nat → List (Option Nat) → List (Option Nat) × Bool
  | _, _, 0, m => (m, false)
  | inByte, outByte, len + 1, m =>
    if outputLen ≤ outByte then (m, true)
    else
      copyRunIn outputLen (inByte + 1) (outByte + 1) len
        (m.set inByte (some outByte))

/-- Edit-replacement loop of `build_input_to_output_map`: stores origins back
to output positions; on hitting the output bound it merely `break`s, so no
flag is needed. -/
def editRunIn (inputLen outputLen : Nat) :
    Nat → List (Option Nat) → List (Option Nat) → List (Option Nat)
  | _, [], m => m
  | outByte, o :: os, m =>
    if outputLen ≤ outByte then m
    else
      editRunIn inputLen outputLen (outByte + 1) os
        (match o with
         | some inByte => if inByte < inputLen then m.set inByte (some outByte) else m
         | none => m)

/-- Trailing-region loop of `build_input_to_output_map`. -/
def trailRunIn (outputLen : Nat) :
    Nat → Nat → Nat → List (Option Nat) → List (Option Nat)
  | 0, _, _, m => m
  | len + 1, inByte, outByte, m =>
    if outputLen ≤ outByte then m
    else trailRunIn outputLen len (inByte + 1) (outByte + 1)
      (m.set inByte (some outByte))

/-- One span step of `build_input_to_output_map` (the edit loop `break`s on
the output bound instead of returning, so only the copy loop can end the
builder early). -/
def inSpanStep (inputLen outputLen : Nat) (e : Edit) (outStart : Nat)
    (inCursor outCursor : Nat) (m : List (Option Nat)) : List (Option Nat) × Bool :=
  match (if inCursor < e.start then
      copyRunIn outputLen inCursor outCursor (e.start - inCursor) m
    else (m, false)) with
  | (m1, true) => (m1, true)
  | (m1, false) =>
    (editRunIn inputLen outputLen outStart e.outputByteToInputByte m1, false)

/-- The span walk of `edit::build_input_to_output_map`. -/
def buildInToOutGo (inputLen outputLen : Nat) :
    List (Edit × Nat × Nat) → Nat → Nat → List (Option Nat) → List (Option Nat)
  | [], inCursor, outCursor, m =>
    trailRunIn outputLen (inputLen - inCursor) inCursor outCursor m
  | (e, outStart, outEnd) :: spans, inCursor, outCursor, m =>
    match inSpanStep inputLen outputLen e outStart inCursor outCursor m with
    | (m2, true) => m2
    | (m2, false) => buildInToOutGo inputLen outputLen spans e.stop outEnd m2

/-- `edit::build_input_to_output_map`. -/
def buildInputToOutputMap (inputLen outputLen : Nat)
    (spans : List (Edit × Nat × Nat)) : List (Option Nat) :=
  buildInToOutGo inputLen outputLen spans 0 0 (List.replicate inputLen none)

/-! ### Totality of the output map builder (C10) -/

theorem copyRunOut_length (inputLen outputLen : Nat) :
    ∀ len inByte outByte m,
      ((copyRunOut inputLen outputLen inByte outByte len m).1).length = m.length := by
  intro len
  induction len with
  | zero => intro inByte outByte m; rfl
  | succ len ih =>
    intro inByte outByte m
    unfold copyRunOut
    split
    · rfl
    · rw [ih]
      split <;> simp

theorem editRunOut_length (inputLen outputLen : Nat) :
    ∀ os outByte m,
      ((editRunOut inputLen outputLen outByte os m).1).length = m.length := by
  intro os
  induction os with
  | nil => intro outByte m; rfl
  | cons o os ih =>
    intro outByte m
    unfold editRunOut
    split
    · rfl
    · rw [ih]
      cases o with
      | none => rfl
      | some i =>
        simp only
        split <;> simp

theorem trailRunOut_length (outputLen : Nat) :
    ∀ len inByte outByte m,
      (trailRunOut outputLen len inByte outByte m).length = m.length := by
  intro len
  induction len with
  | zero => intro inByte outByte m; rfl
  | succ len ih =>
    intro inByte outByte m
    unfold trailRunOut
    split
    · rfl
    · rw [ih]
      simp

theorem outSpanStep_length (inputLen outputLen : Nat) (e : Edit) (outStart : Nat)
    (inCursor outCursor : Nat) (m : List (Option Nat)) :
    ((outSpanStep inputLen outputLen e outStart inCursor outCursor m).1).length =
      m.length := by
  have haux : ((if inCursor < e.start then
      copyRunOut inputLen outputLen inCursor outCursor (e.start - inCursor) m
    else (m, false)).1).length = m.length := by
    split
    · exact copyRunOut_length inputLen outputLen _ _ _ _
    · rfl
  unfold outSpanStep
  split
  · rename_i m1 heq
    rw [heq] at haux
    exact haux
  · rename_i m1 heq
    rw [editRunOut_length]
    rw [heq] at haux
    exact haux

theorem buildOutToInGo_length (inputLen outputLen : Nat) :
    ∀ spans inCursor outCursor m,
      (buildOutToInGo inputLen outputLen spans inCursor outCursor m).length =
        m.length := by
  intro spans
  induction spans with
  | nil =>
    intro inCursor outCursor m
    exact trailRunOut_length outputLen _ _ _ _
  | cons s spans ih =>
    intro inCursor outCursor m
    obtain ⟨e, outStart, outEnd⟩ := s
    have hstep := outSpanStep_length inputLen outputLen e outStart inCursor outCursor m
    unfold buildOutToInGo
    split
    · rename_i m2 heq
      rw [heq] at hstep
      exact hstep
    · rename_i m2 heq
      rw [ih]
      rw [heq] at hstep
      exact hstep

/-- Every entry of the map references an input byte below `inputLen`. -/
def entriesOk (inputLen : Nat) (m : List (Option Nat)) : Prop :=
  ∀ x ∈ m, ∀ i, x = some i → i < inputLen

theorem entriesOk_set (inputLen : Nat) {m : List (Option Nat)}
    (hm : entriesOk inputLen m) {k : Nat} {v : Option Nat}
    (hv : ∀ i, v = some i → i < inputLen) : entriesOk inputLen (m.set k v) := by
  intro x hx i hxi
  rcases List.mem_or_eq_of_mem_set hx with hx2 | rfl
  · exact hm x hx2 i hxi
  · exact hv i hxi

theorem copyRunOut_entriesOk (inputLen outputLen : Nat) :
    ∀ len inByte outByte m, entriesOk inputLen m →
      entriesOk inputLen ((copyRunOut inputLen outputLen inByte outByte len m).1) := by
  intro len
  induction len with
  | zero => intro inByte outByte m hm; exact hm
  | succ len ih =>
    intro inByte outByte m hm
    unfold copyRunOut
    split
    · exact hm
    · refine ih _ _ _ ?_
      split
      · rename_i hlt
        exact entriesOk_set inputLen hm (fun i hi => by injection hi with hi; omega)
      · exact hm

theorem editRunOut_entriesOk (inputLen outputLen : Nat) :
    ∀ os outByte m, entriesOk inputLen m →
      entriesOk inputLen ((editRunOut inputLen outputLen outByte os m).1) := by
  intro os
  induction os with
  | nil => intro outByte m hm; exact hm
  | cons o os ih =>
    intro outByte m hm
    unfold editRunOut
    split
    · exact hm
    · refine ih _ _ ?_
      cases o with
      | none => exact hm
      | some j =>
        simp only
        split
        · rename_i hlt
          exact entriesOk_set inputLen hm (fun i hi => by injection hi with hi; omega)
        · exact hm

theorem trailRunOut_entriesOk (inputLen outputLen : Nat) :
    ∀ len inByte outByte m, (∀ k, k < len → inByte + k < inputLen) →
      entriesOk inputLen m →
      entriesOk inputLen (trailRunOut outputLen len inByte outByte m) := by
  intro len
  induction len with
  | zero => intro inByte outByte m _ hm; exact hm
  | succ len ih =>
    intro inByte outByte m hbound hm
    unfold trailRunOut
    split
    · exact hm
    · refine ih _ _ _ (fun k hk => ?_) ?_
      · have := hbound (k + 1) (by omega)
        omega
      · refine entriesOk_set inputLen hm (fun i hi => ?_)
        injection hi with hi
        have := hbound 0 (by omega)
        omega

theorem outSpanStep_entriesOk (inputLen outputLen : Nat) (e : Edit) (outStart : Nat)
    (inCursor outCursor : Nat) (m : List (Option Nat)) (hm : entriesOk inputLen m) :
    entriesOk inputLen
      ((outSpanStep inputLen outputLen e outStart inCursor outCursor m).1) := by
  have haux : entriesOk inputLen ((if inCursor < e.start then
      copyRunOut inputLen outputLen inCursor outCursor (e.start - inCursor) m
    else (m, false)).1) := by
    split
    · exact copyRunOut_entriesOk inputLen outputLen _ _ _ _ hm
    · exact hm
  unfold outSpanStep
  split
  · rename_i m1 heq
    rw [heq] at haux
    exact haux
  · rename_i m1 heq
    rw [heq] at haux
    exact editRunOut_entriesOk inputLen outputLen _ _ _ haux

theorem buildOutToInGo_entriesOk (inputLen outputLen : Nat) :
    ∀ spans inCursor outCursor m, entriesOk inputLen m →
      entriesOk inputLen
        (buildOutToInGo inputLen outputLen spans inCursor outCursor m) := by
  intro spans
  induction spans with
  | nil =>
    intro inCursor outCursor m hm
    exact trailRunOut_entriesOk inputLen outputLen _ _ _ _ (fun k hk => by omega) hm
  | cons s spans ih =>
    intro inCursor outCursor m hm
    obtain ⟨e, outStart, outEnd⟩ := s
    have hstep := outSpanStep_entriesOk inputLen outputLen e outStart inCursor
      outCursor m hm
    unfold buildOutToInGo
    split
    · rename_i m2 heq
      rw [heq] at hstep
      exact hstep
    · rename_i m2 heq
      rw [heq] at hstep
      exact ih _ _ _ hstep

/-- C10: for every input length, output length and edit span list — including
lists inconsistent with the claimed output length — `build_output_to_input_map`
returns a vector of exactly `output_len` entries, never stores outside that
vector (each loop stops as soon as an output position reaches `output_len`),
and every `Some i` entry satisfies `i < input_len`. -/
theorem buildOutputToInputMap_total (inputLen outputLen : Nat)
    (spans : List (Edit × Nat × Nat)) :
    (buildOutputToInputMap inputLen outputLen spans).length = outputLen ∧
    ∀ x ∈ buildOutputToInputMap inputLen outputLen spans,
      ∀ i, x = some i → i < inputLen := by
  constructor
  · rw [show buildOutputToInputMap inputLen outputLen spans =
      buildOutToInGo inputLen outputLen spans 0 0 (List.replicate outputLen none)
      from rfl, buildOutToInGo_length]
    exact List.length_replicate _ _
  · refine buildOutToInGo_entriesOk inputLen outputLen spans 0 0 _ ?_
    intro x hx i hxi
    rw [List.eq_of_mem_replicate hx] at hxi
    exact absurd hxi (by simp)

/-! ## Source-map edit anchors (`edit::create_sourcemap`, `add_anchor_create`)

Each anchor is kept as its output byte position paired with the `out_to_in`
resolution of that position (`none` makes `add_anchor_create` emit the
explicit unmapped entry).  The UTF-16 conversion the Rust code applies to
both positions when adding the mapping does not affect which anchors exist
nor how they resolve. -/

/-- `out_to_in.get(out_byte).copied().flatten()` in `add_anchor_create`. -/
def resolveAnchor (outToIn : List (Option Nat)) (outByte : Nat) : Option Nat :=
  (outToIn[outByte]?).join

/-- The anchors the edit-anchor loop of `create_sourcemap` emits for one edit
output span: segment start, delimiter start, delimiter last byte (multi-byte
delimiters), and the boundary right after the delimiter. -/
def editAnchorsForSpan (outToIn : List (Option Nat)) (mapLen : Nat)
    (e : Edit) (outStart outEnd : Nat) : List (Nat × Option Nat) :=
  (if outStart < mapLen then [(outStart, resolveAnchor outToIn outStart)] else []) ++
  (if 0 < e.movedDelimLen ∧ e.movedDelimLen ≤ outEnd then
    (if outEnd - e.movedDelimLen < mapLen then
      [(outEnd - e.movedDelimLen, resolveAnchor outToIn (outEnd - e.movedDelimLen))]
     else []) ++
    (if 1 < e.movedDelimLen ∧ outEnd - 1 < mapLen then
      [(outEnd - 1, resolveAnchor outToIn (outEnd - 1))]
     else [])
   else []) ++
  (if 0 < e.movedDelimLen ∧ outEnd < mapLen then
    [(outEnd, resolveAnchor outToIn outEnd)]
   else [])

/-- `map_len = out_len.min(expected_out_len)` in `create_sourcemap`. -/
def sourcemapMapLen (inputLen outLen : Nat) (edits : List Edit) : Nat :=
  min outLen (computeOutputSpans inputLen edits).2

/-- The `out_to_in` table `create_sourcemap` builds (over `map_len`). -/
def sourcemapOutToIn (inputLen outLen : Nat) (edits : List Edit) :
    List (Option Nat) :=
  buildOutputToInputMap inputLen (sourcemapMapLen inputLen outLen edits)
    (computeOutputSpans inputLen edits).1

/-- All anchors of the edit-anchor loop of `create_sourcemap`
(lines 117–173 of `edit.rs`), in emission order. -/
def createSourcemapEditAnchors (inputLen outLen : Nat) (edits : List Edit) :
    List (Nat × Option Nat) :=
  (computeOutputSpans inputLen edits).1.flatMap
    (fun s => editAnchorsForSpan (sourcemapOutToIn inputLen outLen edits)
      (sourcemapMapLen inputLen outLen edits) s.1 s.2.1 s.2.2)

/-- C3 counterexample: an edit whose output span starts at `map_len` gets no
anchor at `out_start`.  With input `ab`, the single edit deleting `[0,2)`
(empty replacement) and its true output of length 0, the edit has output span
`(0,0)` but the anchor list is empty, though the claim requires a mapping at
`out_start` for every edit. -/
theorem createSourcemap_anchors_counterexample :
    (computeOutputSpans 2 [⟨0, 2, [], [], 0⟩]).1 = [(⟨0, 2, [], [], 0⟩, 0, 0)] ∧
    createSourcemapEditAnchors 2 0 [⟨0, 2, [], [], 0⟩] = [] := by
  constructor
  · decide
  · decide

/-- C3 (amended): the edit-anchor loop of `create_sourcemap` emits, for every
edit with output span `(out_start, out_end)`: a mapping at `out_start` when
`out_start < map_len`; when `moved_delim_len > 0` and `out_end ≥
moved_delim_len`, a mapping at `out_end - moved_delim_len` when that position
is below `map_len`, and when additionally `moved_delim_len > 1` a mapping at
`out_end - 1` when below `map_len`; and when `moved_delim_len > 0` and
`out_end < map_len`, a mapping at `out_end` — each anchor resolving its
position through `out_to_in` (a `none` resolution is the explicit unmapped
entry). -/
theorem createSourcemap_edit_anchors (inputLen outLen : Nat) (edits : List Edit)
    (e : Edit) (outStart outEnd : Nat)
    (hmem : (e, outStart, outEnd) ∈ (computeOutputSpans inputLen edits).1) :
    (outStart < sourcemapMapLen inputLen outLen edits →
      (outStart, resolveAnchor (sourcemapOutToIn inputLen outLen edits) outStart) ∈
        createSourcemapEditAnchors inputLen outLen edits) ∧
    (0 < e.movedDelimLen → e.movedDelimLen ≤ outEnd →
      outEnd - e.movedDelimLen < sourcemapMapLen inputLen outLen edits →
      (outEnd - e.movedDelimLen,
        resolveAnchor (sourcemapOutToIn inputLen outLen edits)
          (outEnd - e.movedDelimLen)) ∈
        createSourcemapEditAnchors inputLen outLen edits) ∧
    (1 < e.movedDelimLen → e.movedDelimLen ≤ outEnd →
      outEnd - 1 < sourcemapMapLen inputLen outLen edits →
      (outEnd - 1,
        resolveAnchor (sourcemapOutToIn inputLen outLen edits) (outEnd - 1)) ∈
        createSourcemapEditAnchors inputLen outLen edits) ∧
    (0 < e.movedDelimLen → outEnd < sourcemapMapLen inputLen outLen edits →
      (outEnd, resolveAnchor (sourcemapOutToIn inputLen outLen edits) outEnd) ∈
        createSourcemapEditAnchors inputLen outLen edits) := by
  have base : ∀ a ∈ editAnchorsForSpan (sourcemapOutToIn inputLen outLen edits)
      (sourcemapMapLen inputLen outLen edits) e outStart outEnd,
      a ∈ createSourcemapEditAnchors inputLen outLen edits := by
    intro a ha
    unfold createSourcemapEditAnchors
    exact List.mem_flatMap.mpr ⟨(e, outStart, outEnd), hmem, ha⟩
  refine ⟨?_, ?_, ?_, ?_⟩
  · intro h1
    refine base _ ?_
    unfold editAnchorsForSpan
    rw [if_pos h1]
    exact List.mem_append_left _ (List.mem_append_left _ (List.mem_singleton.mpr rfl))
  · intro h1 h2 h3
    refine base _ ?_
    unfold editAnchorsForSpan
    refine List.mem_append_left _ (List.mem_append_right _ ?_)
    rw [if_pos ⟨h1, h2⟩]
    refine List.mem_append_left _ ?_
    rw [if_pos h3]
    exact List.mem_singleton.mpr rfl
  · intro h1 h2 h3
    refine base _ ?_
    unfold editAnchorsForSpan
    refine List.mem_append_left _ (List.mem_append_right _ ?_)
    rw [if_pos ⟨by omega, h2⟩]
    refine List.mem_append_right _ ?_
    rw [if_pos ⟨h1, h3⟩]
    exact List.mem_singleton.mpr rfl
  · intro h1 h2
    refine base _ ?_
    unfold editAnchorsForSpan
    refine List.mem_append_right _ ?_
    rw [if_pos ⟨h1, h2⟩]
    exact List.mem_singleton.mpr rfl

/-- Witness for C3 on a concrete rotation edit: input `ab`, edit `[0,2)` with
replacement `ba` (origin table `[1,0]`, moved delimiter length 1) — the
anchors at `out_start = 0` and at `out_end - moved_delim_len = 1` are both
emitted with their `out_to_in` resolutions. -/
theorem createSourcemap_edit_anchors_witness :
    (0, some 1) ∈ createSourcemapEditAnchors 2 2
        [⟨0, 2, [0x62, 0x61], [some 1, some 0], 1⟩] ∧
    (1, some 0) ∈ createSourcemapEditAnchors 2 2
        [⟨0, 2, [0x62, 0x61], [some 1, some 0], 1⟩] := by
  have h := createSourcemap_edit_anchors 2 2
    [⟨0, 2, [0x62, 0x61], [some 1, some 0], 1⟩]
    ⟨0, 2, [0x62, 0x61], [some 1, some 0], 1⟩ 0 2 (by decide)
  constructor
  · have h1 := h.1 (by decide)
    have : resolveAnchor (sourcemapOutToIn 2 2
        [⟨0, 2, [0x62, 0x61], [some 1, some 0], 1⟩]) 0 = some 1 := by decide
    rw [this] at h1
    exact h1
  · have h2 := h.2.1 (by decide) (by decide) (by decide)
    rw [show (2 : Nat) - 1 = 1 from rfl] at h2
    have h3 : resolveAnchor (sourcemapOutToIn 2 2
        [⟨0, 2, [0x62, 0x61], [some 1, some 0], 1⟩]) 1 = some 0 := by decide
    rw [h3] at h2
    exact h2

/-! ## Dual index consistency (C7)

`build_output_to_input_map` and `build_input_to_output_map` walk the same
spans with the same cursors.  `SpanChain` packages the facts that hold of the
span list computed from a validated edit list whose origins stay within their
own edit's span and are injective; the two builders are then proved
consistent by a lockstep induction. -/

/-- Invariants of the remaining span list relative to the current cursors:
edits are sorted and in bounds, each span's output positions continue the
output cursor, origin tables have replacement length, reference only bytes of
their own edit's span, and are injective; at the end the output cursor plus
the trailing run reaches exactly `outputLen`. -/
inductive SpanChain (inputLen outputLen : Nat) :
    Nat → Nat → List (Edit × Nat × Nat) → Prop
  | nil : ∀ inCur outCur, inCur ≤ inputLen →
      outCur + (inputLen - inCur) = outputLen →
      SpanChain inputLen outputLen inCur outCur []
  | cons : ∀ inCur outCur (e : Edit) (outStart outEnd : Nat) spans,
      inCur ≤ e.start → e.start ≤ e.stop → e.stop ≤ inputLen →
      outStart = outCur + (e.start - inCur) →
      outEnd = outStart + e.replacement.length →
      e.outputByteToInputByte.length = e.replacement.length →
      (∀ o ∈ e.outputByteToInputByte, ∀ i, o = some i → e.start ≤ i ∧ i < e.stop) →
      (e.outputByteToInputByte.filterMap id).Nodup →
      SpanChain inputLen outputLen e.stop outEnd spans →
      SpanChain inputLen outputLen inCur outCur ((e, outStart, outEnd) :: spans)

/-- Sortedness and per-edit bounds of an edit list, walked from a previous
end offset (a restatement of what `validate_edits` checks, as a recursive
predicate convenient for induction). -/
def editsChainFrom (inputLen : Nat) : Nat → List Edit → Prop
  | _, [] => True
  | p, e :: rest =>
    p ≤ e.start ∧ e.start ≤ e.stop ∧ e.stop ≤ inputLen ∧
    e.outputByteToInputByte.length = e.replacement.length ∧
    editsChainFrom inputLen e.stop rest

theorem editsChainFrom_of_validated (inputLen : Nat) :
    ∀ (edits : List Edit) (p : Nat),
      (∀ e ∈ edits, structViolB inputLen e = false) →
      noOverlapFrom (some ⟨0, p, [], [], 0⟩) edits →
      editsChainFrom inputLen p edits := by
  intro edits
  induction edits with
  | nil => intro p _ _; trivial
  | cons e rest ih =>
    intro p hok hov
    obtain ⟨h1, h2⟩ := (hov : _ ∧ _)
    have hv := (structViolB_eq_false_iff inputLen e).mp (hok e (List.mem_cons_self _ _))
    refine ⟨h1, hv.1, hv.2.1, hv.2.2.1, ?_⟩
    exact ih e.stop (fun x hx => hok x (List.mem_cons_of_mem _ hx))
      (by
        rw [noOverlapFrom_some_iff] at h2 ⊢
        exact ⟨fun q hq => h2.1 q hq, h2.2⟩)

/-- Along a chained edit list the output cursor (as an integer) never exceeds
the expected output length. -/
theorem cursor_le_expected (inputLen : Nat) :
    ∀ (edits : List Edit) (p : Nat) (d : Int),
      editsChainFrom inputLen p edits → p ≤ inputLen →
      (p : Int) + d ≤ (inputLen : Int) + (computeOutputSpansGo edits d).2 := by
  intro edits
  induction edits with
  | nil =>
    intro p d _ hp
    unfold computeOutputSpansGo
    simp only
    omega
  | cons e rest ih =>
    intro p d hchain hp
    obtain ⟨h1, h2, h3, _, hrest⟩ := hchain
    have hih := ih e.stop (d + (e.replacement.length : Int) -
      ((e.stop : Int) - (e.start : Int))) hrest h3
    unfold computeOutputSpansGo
    simp only
    omega

theorem spanChain_of_chained (inputLen : Nat) (outputLen : Nat) :
    ∀ (edits : List Edit) (p outCur : Nat) (d : Int),
      (p : Int) + d = (outCur : Int) →
      editsChainFrom inputLen p edits → p ≤ inputLen →
      (∀ e ∈ edits, ∀ o ∈ e.outputByteToInputByte, ∀ i, o = some i →
        e.start ≤ i ∧ i < e.stop) →
      (∀ e ∈ edits, (e.outputByteToInputByte.filterMap id).Nodup) →
      (inputLen : Int) + (computeOutputSpansGo edits d).2 < 2 ^ 64 →
      outputLen = ((inputLen : Int) + (computeOutputSpansGo edits d).2).toNat →
      SpanChain inputLen outputLen p outCur (computeOutputSpansGo edits d).1 := by
  intro edits
  induction edits with
  | nil =>
    intro p outCur d hd _ hp _ _ _ hout
    unfold computeOutputSpansGo
    unfold computeOutputSpansGo at hout
    simp only at hout ⊢
    refine SpanChain.nil p outCur hp ?_
    omega
  | cons e rest ih =>
    intro p outCur d hd hchain hp hwithin hinj hsize hout
    obtain ⟨h1, h2, h3, h4, hrest⟩ := hchain
    have hcursor : (e.start : Int) + d = (outCur : Int) + ((e.start : Nat) - p : Nat) := by
      omega
    have hnonneg : (0 : Int) ≤ (e.start : Int) + d := by omega
    have hbound : (e.start : Int) + d < 2 ^ 64 := by
      have hm := cursor_le_expected inputLen rest e.stop
        (d + (e.replacement.length : Int) - ((e.stop : Int) - (e.start : Int)))
        hrest h3
      unfold computeOutputSpansGo at hsize
      simp only at hsize
      omega
    have hstart : usizeOfInt ((e.start : Int) + d) = outCur + (e.start - p) := by
      unfold usizeOfInt
      rw [Int.emod_eq_of_lt hnonneg hbound]
      omega
    unfold computeOutputSpansGo
    simp only
    rw [hstart]
    refine SpanChain.cons p outCur e _ _ _ h1 h2 h3 rfl rfl h4
      (hwithin e (List.mem_cons_self _ _)) (hinj e (List.mem_cons_self _ _)) ?_
    refine ih e.stop (outCur + (e.start - p) + e.replacement.length)
      (d + (e.replacement.length : Int) - ((e.stop : Int) - (e.start : Int)))
      (by omega) hrest h3
      (fun x hx => hwithin x (List.mem_cons_of_mem _ hx))
      (fun x hx => hinj x (List.mem_cons_of_mem _ hx)) ?_ ?_
    · unfold computeOutputSpansGo at hsize
      simp only at hsize
      exact hsize
    · unfold computeOutputSpansGo at hout
      simp only at hout
      exact hout

/-- Lockstep invariant for the two builders: lengths, consistency of the maps
built so far, and the fact that every input position recorded in `in_to_out`
is below `lo`, so future writes cannot clobber it. -/
def MapsInv (outputLen inputLen lo : Nat) (mOut mIn : List (Option Nat)) : Prop :=
  mOut.length = outputLen ∧ mIn.length = inputLen ∧
  (∀ (o i : Nat), mOut[o]? = some (some i) → mIn[i]? = some (some o)) ∧
  (∀ (i o' : Nat), mIn[i]? = some (some o') → i < lo)

theorem MapsInv.mono {outputLen inputLen lo lo' : Nat}
    {mOut mIn : List (Option Nat)} (h : MapsInv outputLen inputLen lo mOut mIn)
    (hle : lo ≤ lo') : MapsInv outputLen inputLen lo' mOut mIn :=
  ⟨h.1, h.2.1, h.2.2.1, fun i o' hi => lt_of_lt_of_le (h.2.2.2 i o' hi) hle⟩

theorem copyRunPair (inputLen outputLen : Nat) :
    ∀ len inByte outByte mOut mIn,
      outByte + len ≤ outputLen → inByte + len ≤ inputLen →
      MapsInv outputLen inputLen inByte mOut mIn →
      ∃ mo mi,
        copyRunOut inputLen outputLen inByte outByte len mOut = (mo, false) ∧
        copyRunIn outputLen inByte outByte len mIn = (mi, false) ∧
        MapsInv outputLen inputLen (inByte + len) mo mi := by
  intro len
  induction len with
  | zero =>
    intro inByte outByte mOut mIn _ _ hinv
    exact ⟨mOut, mIn, rfl, rfl, hinv⟩
  | succ len ih =>
    intro inByte outByte mOut mIn hob hib hinv
    obtain ⟨hlo, hli, hA, hC⟩ := hinv
    have hobyte : outByte < outputLen := by omega
    have hibyte : inByte < inputLen := by omega
    have hinv' : MapsInv outputLen inputLen (inByte + 1)
        (mOut.set outByte (some inByte)) (mIn.set inByte (some outByte)) := by
      refine ⟨by simp [hlo], by simp [hli], ?_, ?_⟩
      · intro o i hoi
        rw [List.getElem?_set] at hoi ⊢
        by_cases ho : outByte = o
        · rw [if_pos ho, if_pos (by omega)] at hoi
          injection hoi with hoi
          injection hoi with hoi
          subst hoi
          rw [if_pos rfl, if_pos (by omega)]
          subst ho
          rfl
        · rw [if_neg ho] at hoi
          have hold := hA o i hoi
          have hib2 := hC i o hold
          rw [if_neg (by omega)]
          exact hold
      · intro i o' hio
        rw [List.getElem?_set] at hio
        by_cases hi : inByte = i
        · omega
        · rw [if_neg hi] at hio
          have := hC i o' hio
          omega
    obtain ⟨mo, mi, h1, h2, h3⟩ := ih (inByte + 1) (outByte + 1)
      (mOut.set outByte (some inByte)) (mIn.set inByte (some outByte))
      (by omega) (by omega) hinv'
    refine ⟨mo, mi, ?_, ?_, ?_⟩
    · unfold copyRunOut
      rw [if_neg (by omega), if_pos hibyte]
      exact h1
    · unfold copyRunIn
      rw [if_neg (by omega)]
      exact h2
    · have : inByte + 1 + len = inByte + (len + 1) := by omega
      rw [this] at h3
      exact h3

theorem editRunPair (inputLen outputLen lo hi : Nat) (hhi : hi ≤ inputLen) :
    ∀ (os : List (Option Nat)) (outByte : Nat) (mOut mIn : List (Option Nat)),
      outByte + os.length ≤ outputLen →
      (∀ o' ∈ os, ∀ i, o' = some i → lo ≤ i ∧ i < hi) →
      (os.filterMap id).Nodup →
      mOut.length = outputLen → mIn.length = inputLen →
      (∀ (o i : Nat), mOut[o]? = some (some i) → mIn[i]? = some (some o)) →
      (∀ (i o' : Nat), mIn[i]? = some (some o') → i < hi ∧ (some i) ∉ os) →
      ∃ mo,
        editRunOut inputLen outputLen outByte os mOut = (mo, false) ∧
        mo.length = outputLen ∧
        (editRunIn inputLen outputLen outByte os mIn).length = inputLen ∧
        (∀ (o i : Nat), mo[o]? = some (some i) →
          (editRunIn inputLen outputLen outByte os mIn)[i]? = some (some o)) ∧
        (∀ (i o' : Nat), (editRunIn inputLen outputLen outByte os mIn)[i]? =
          some (some o') → i < hi) := by
  intro os
  induction os with
  | nil =>
    intro outByte mOut mIn _ _ _ hlo hli hA hC
    exact ⟨mOut, rfl, hlo, hli, hA, fun i o' hio => (hC i o' hio).1⟩
  | cons o os ih =>
    intro outByte mOut mIn hob hwithin hnodup hlo hli hA hC
    have hobyte : outByte < outputLen := by
      simp only [List.length_cons] at hob
      omega
    cases o with
    | none =>
      have step := ih (outByte + 1) mOut mIn
        (by simp only [List.length_cons] at hob; omega)
        (fun o' ho' => hwithin o' (List.mem_cons_of_mem _ ho'))
        (by simpa using hnodup) hlo hli hA
        (fun i o' hio => ⟨(hC i o' hio).1,
          fun hmem => (hC i o' hio).2 (List.mem_cons_of_mem _ hmem)⟩)
      obtain ⟨mo, h1, h2, h3, h4, h5⟩ := step
      refine ⟨mo, ?_, h2, ?_, ?_, ?_⟩
      · unfold editRunOut
        rw [if_neg (by omega)]
        exact h1
      · unfold editRunIn
        rw [if_neg (by omega)]
        exact h3
      · intro o i hoi
        unfold editRunIn
        rw [if_neg (by omega)]
        exact h4 o i hoi
      · intro i o' hio
        unfold editRunIn at hio
        rw [if_neg (by omega)] at hio
        exact h5 i o' hio
    | some istar =>
      have histar := hwithin (some istar) (List.mem_cons_self _ _) istar rfl
      have histarIn : istar < inputLen := by omega
      have hnodup2 : (os.filterMap id).Nodup ∧ (some istar) ∉ os := by
        have : ((some istar :: os).filterMap id) = istar :: os.filterMap id := by
          simp
        rw [this] at hnodup
        refine ⟨hnodup.of_cons, fun hmem => ?_⟩
        have : istar ∈ os.filterMap id := by
          rw [List.mem_filterMap]
          exact ⟨some istar, hmem, rfl⟩
        exact (List.nodup_cons.mp hnodup).1 this
      have hA' : ∀ (o i : Nat), (mOut.set outByte (some istar))[o]? = some (some i) →
          (mIn.set istar (some outByte))[i]? = some (some o) := by
        intro o i hoi
        rw [List.getElem?_set] at hoi ⊢
        by_cases ho : outByte = o
        · rw [if_pos ho, if_pos (by omega)] at hoi
          injection hoi with hoi
          injection hoi with hoi
          subst hoi
          rw [if_pos rfl, if_pos (by omega)]
          subst ho
          rfl
        · rw [if_neg ho] at hoi
          have hold := hA o i hoi
          by_cases hii : istar = i
          · subst hii
            exact absurd (List.mem_cons_self _ _) ((hC istar o hold).2)
          · rw [if_neg hii]
            exact hold
      have hC' : ∀ (i o' : Nat), (mIn.set istar (some outByte))[i]? = some (some o') →
          i < hi ∧ (some i) ∉ os := by
        intro i o' hio
        rw [List.getElem?_set] at hio
        by_cases hii : istar = i
        · subst hii
          exact ⟨by omega, hnodup2.2⟩
        · rw [if_neg hii] at hio
          exact ⟨(hC i o' hio).1,
            fun hmem => (hC i o' hio).2 (List.mem_cons_of_mem _ hmem)⟩
      have step := ih (outByte + 1) (mOut.set outByte (some istar))
        (mIn.set istar (some outByte))
        (by simp only [List.length_cons] at hob; omega)
        (fun o' ho' => hwithin o' (List.mem_cons_of_mem _ ho'))
        hnodup2.1 (by simp [hlo]) (by simp [hli]) hA' hC'
      obtain ⟨mo, h1, h2, h3, h4, h5⟩ := step
      refine ⟨mo, ?_, h2, ?_, ?_, ?_⟩
      · unfold editRunOut
        rw [if_neg (by omega)]
        simp only
        rw [if_pos histarIn]
        exact h1
      · unfold editRunIn
        rw [if_neg (by omega)]
        simp only
        rw [if_pos histarIn]
        exact h3
      · intro o i hoi
        unfold editRunIn
        rw [if_neg (by omega)]
        simp only
        rw [if_pos histarIn]
        exact h4 o i hoi
      · intro i o' hio
        unfold editRunIn at hio
        rw [if_neg (by omega)] at hio
        simp only at hio
        rw [if_pos histarIn] at hio
        exact h5 i o' hio

theorem trailRunPair (inputLen outputLen : Nat) :
    ∀ len inByte outByte mOut mIn,
      outByte + len ≤ outputLen → inByte + len ≤ inputLen →
      MapsInv outputLen inputLen inByte mOut mIn →
      ∀ (o i : Nat),
        (trailRunOut outputLen len inByte outByte mOut)[o]? = some (some i) →
        (trailRunIn outputLen len inByte outByte mIn)[i]? = some (some o) := by
  intro len
  induction len with
  | zero =>
    intro inByte outByte mOut mIn _ _ hinv
    exact hinv.2.2.1
  | succ len ih =>
    intro inByte outByte mOut mIn hob hib hinv
    obtain ⟨hlo, hli, hA, hC⟩ := hinv
    have hobyte : outByte < outputLen := by omega
    have hibyte : inByte < inputLen := by omega
    have hinv' : MapsInv outputLen inputLen (inByte + 1)
        (mOut.set outByte (some inByte)) (mIn.set inByte (some outByte)) := by
      refine ⟨by simp [hlo], by simp [hli], ?_, ?_⟩
      · intro o i hoi
        rw [List.getElem?_set] at hoi ⊢
        by_cases ho : outByte = o
        · rw [if_pos ho, if_pos (by omega)] at hoi
          injection hoi with hoi
          injection hoi with hoi
          subst hoi
          rw [if_pos rfl, if_pos (by omega)]
          subst ho
          rfl
        · rw [if_neg ho] at hoi
          have hold := hA o i hoi
          have := hC i o hold
          rw [if_neg (by omega)]
          exact hold
      · intro i o' hio
        rw [List.getElem?_set] at hio
        by_cases hii : inByte = i
        · omega
        · rw [if_neg hii] at hio
          have := hC i o' hio
          omega
    intro o i
    unfold trailRunOut trailRunIn
    rw [if_neg (by omega), if_neg (by omega)]
    exact ih (inByte + 1) (outByte + 1) _ _ (by omega) (by omega) hinv' o i

theorem SpanChain.outCur_le {inputLen outputLen inCur outCur : Nat}
    {spans : List (Edit × Nat × Nat)}
    (h : SpanChain inputLen outputLen inCur outCur spans) :
    outCur ≤ outputLen ∧ inCur ≤ inputLen := by
  induction h with
  | nil inCur outCur h1 h2 => exact ⟨by omega, h1⟩
  | cons inCur outCur e outStart outEnd spans h1 h2 h3 h4 h5 h6 h7 h8 hrec ih =>
    obtain ⟨ha, hb⟩ := ih
    exact ⟨by omega, by omega⟩

theorem buildGo_consistent (inputLen outputLen : Nat) :
    ∀ (spans : List (Edit × Nat × Nat)) (inCur outCur : Nat)
      (mOut mIn : List (Option Nat)),
      SpanChain inputLen outputLen inCur outCur spans →
      MapsInv outputLen inputLen inCur mOut mIn →
      ∀ (o i : Nat),
        (buildOutToInGo inputLen outputLen spans inCur outCur mOut)[o]? =
          some (some i) →
        (buildInToOutGo inputLen outputLen spans inCur outCur mIn)[i]? =
          some (some o) := by
  intro spans
  induction spans with
  | nil =>
    intro inCur outCur mOut mIn hchain hinv o i
    cases hchain with
    | nil _ _ h1 h2 =>
      unfold buildOutToInGo buildInToOutGo
      exact trailRunPair inputLen outputLen (inputLen - inCur) inCur outCur mOut mIn
        (by omega) (by omega) hinv o i
  | cons s spans ih =>
    intro inCur outCur mOut mIn hchain hinv o i
    obtain ⟨e, outStart, outEnd⟩ := s
    cases hchain with
    | cons _ _ _ _ _ _ h1 h2 h3 h4 h5 h6 h7 h8 hrest =>
      obtain ⟨hboundO, hboundI⟩ := hrest.outCur_le
      have hcopy : ∃ mo1 mi1,
          (if inCur < e.start then
            copyRunOut inputLen outputLen inCur outCur (e.start - inCur) mOut
          else (mOut, false)) = (mo1, false) ∧
          (if inCur < e.start then
            copyRunIn outputLen inCur outCur (e.start - inCur) mIn
          else (mIn, false)) = (mi1, false) ∧
          MapsInv outputLen inputLen e.start mo1 mi1 := by
        by_cases hc : inCur < e.start
        · obtain ⟨mo1, mi1, ha, hb, hc2⟩ := copyRunPair inputLen outputLen
            (e.start - inCur) inCur outCur mOut mIn (by omega) (by omega) hinv
          refine ⟨mo1, mi1, by rw [if_pos hc]; exact ha,
            by rw [if_pos hc]; exact hb, ?_⟩
          have heq : inCur + (e.start - inCur) = e.start := by omega
          rw [heq] at hc2
          exact hc2
        · exact ⟨mOut, mIn, by rw [if_neg hc], by rw [if_neg hc],
            hinv.mono (by omega)⟩
      obtain ⟨mo1, mi1, hcO, hcI, hinv1⟩ := hcopy
      obtain ⟨hl1, hl2, hA1, hC1⟩ := hinv1
      have hedit := editRunPair inputLen outputLen e.start e.stop h3
        e.outputByteToInputByte outStart mo1 mi1
        (by rw [h6]; omega) h7 h8 hl1 hl2 hA1
        (fun i2 o2 hio => ⟨by have := hC1 i2 o2 hio; omega,
          fun hmem => by
            have hw := (h7 _ hmem i2 rfl).1
            have := hC1 i2 o2 hio
            omega⟩)
      obtain ⟨mo2, heO, hlo2, hli2, hA2, hC2⟩ := hedit
      have houtstep : outSpanStep inputLen outputLen e outStart inCur outCur mOut =
          (mo2, false) := by
        unfold outSpanStep
        rw [hcO]
        exact heO
      have hinstep : inSpanStep inputLen outputLen e outStart inCur outCur mIn =
          (editRunIn inputLen outputLen outStart e.outputByteToInputByte mi1,
            false) := by
        unfold inSpanStep
        rw [hcI]
      intro hoi
      unfold buildOutToInGo at hoi
      rw [houtstep] at hoi
      unfold buildInToOutGo
      rw [hinstep]
      exact ih e.stop outEnd mo2
        (editRunIn inputLen outputLen outStart e.outputByteToInputByte mi1)
        hrest ⟨hlo2, hli2, hA2, hC2⟩ o i hoi

/-- C7 counterexample: the dual maps built from the same edit list need not
be consistent for arbitrary edit lists.  The single edit over input `aa`
with a duplicated origin table `[Some 0, Some 0]` yields
`out_to_in[0] = Some 0` but `in_to_out[0] = Some 1` (the later write wins),
so `out_to_in[o] = Some i` does not imply `in_to_out[i] = Some o`. -/
theorem dualIndexConsistency_counterexample :
    (buildOutputToInputMap 2
        (computeOutputSpans 2 [⟨0, 2, [0x61, 0x61], [some 0, some 0], 0⟩]).2
        (computeOutputSpans 2 [⟨0, 2, [0x61, 0x61], [some 0, some 0], 0⟩]).1)[0]? =
      some (some 0) ∧
    (buildInputToOutputMap 2
        (computeOutputSpans 2 [⟨0, 2, [0x61, 0x61], [some 0, some 0], 0⟩]).2
        (computeOutputSpans 2 [⟨0, 2, [0x61, 0x61], [some 0, some 0], 0⟩]).1)[0]? =
      some (some 1) := by
  constructor
  · decide
  · decide

/-- C7 (amended): for every edit list that passes validation, whose origin
entries reference only bytes within their own edit's span and are injective
within each edit, and whose expected output length is below `2^64`, the
`out_to_in` table built by `build_output_to_input_map` and the `in_to_out`
table built by `build_input_to_output_map` from that same edit list (same
input length and the expected output length) are consistent: whenever
`out_to_in[o] = Some i` then `in_to_out[i] = Some o`. -/
theorem dualIndexConsistency (inputLen : Nat) (edits : List Edit)
    (hval : validateEdits inputLen edits = .ok ())
    (hwithin : ∀ e ∈ edits, ∀ o ∈ e.outputByteToInputByte, ∀ i, o = some i →
      e.start ≤ i ∧ i < e.stop)
    (hinj : ∀ e ∈ edits, (e.outputByteToInputByte.filterMap id).Nodup)
    (hsize : (computeOutputSpans inputLen edits).2 < 2 ^ 64) :
    ∀ (o i : Nat),
      (buildOutputToInputMap inputLen (computeOutputSpans inputLen edits).2
        (computeOutputSpans inputLen edits).1)[o]? = some (some i) →
      (buildInputToOutputMap inputLen (computeOutputSpans inputLen edits).2
        (computeOutputSpans inputLen edits).1)[i]? = some (some o) := by
  obtain ⟨hok, hnoov⟩ := (validateEditsGo_ok_iff inputLen edits 0 none).mp hval
  have hchainFrom : editsChainFrom inputLen 0 edits := by
    refine editsChainFrom_of_validated inputLen edits 0 hok ?_
    rw [noOverlapFrom_some_iff]
    exact ⟨fun q hq => Nat.zero_le _, hnoov⟩
  have hnonneg : (0 : Int) ≤ (inputLen : Int) + (computeOutputSpansGo edits 0).2 := by
    have := cursor_le_expected inputLen edits 0 0 hchainFrom (Nat.zero_le _)
    omega
  have hsizeInt : (inputLen : Int) + (computeOutputSpansGo edits 0).2 < 2 ^ 64 := by
    have hs2 : (computeOutputSpans inputLen edits).2 =
        ((inputLen : Int) + (computeOutputSpansGo edits 0).2).toNat := rfl
    rw [hs2] at hsize
    omega
  have hchain := spanChain_of_chained inputLen (computeOutputSpans inputLen edits).2
    edits 0 0 0 (by simp) hchainFrom (Nat.zero_le _) hwithin hinj hsizeInt rfl
  have hinv : MapsInv (computeOutputSpans inputLen edits).2 inputLen 0
      (List.replicate (computeOutputSpans inputLen edits).2 none)
      (List.replicate inputLen none) := by
    refine ⟨List.length_replicate _ _, List.length_replicate _ _, ?_, ?_⟩
    · intro o i hoi
      rw [List.getElem?_replicate] at hoi
      split at hoi
      · injection hoi with hoi
        exact absurd hoi (by simp)
      · exact absurd hoi (by simp)
    · intro i o' hio
      rw [List.getElem?_replicate] at hio
      split at hio
      · injection hio with hio
        exact absurd hio (by simp)
      · exact absurd hio (by simp)
  exact buildGo_consistent inputLen (computeOutputSpans inputLen edits).2
    (computeOutputSpans inputLen edits).1 0 0 _ _ hchain hinv

/-- Witness for C7: input of length 4 with the rotation-style edit `[1,3)`
whose replacement swaps the two bytes; `out_to_in[1] = Some 2` and indeed
`in_to_out[2] = Some 1`. -/
theorem dualIndexConsistency_witness :
    (buildInputToOutputMap 4
      (computeOutputSpans 4 [⟨1, 3, [0x62, 0x61], [some 2, some 1], 1⟩]).2
      (computeOutputSpans 4 [⟨1, 3, [0x62, 0x61], [some 2, some 1], 1⟩]).1)[2]? =
      some (some 1) :=
  dualIndexConsistency 4 [⟨1, 3, [0x62, 0x61], [some 2, some 1], 1⟩]
    rfl (by decide) (by decide) (by decide) 1 2 (by decide)

/-! ## UTF-16 column index (`utf16.rs`)

Strings are `List Char`; a line index stores its absolute byte span together
with the line's characters (the Rust code re-slices the borrowed `&str`
instead).  Byte offsets are cumulative UTF-8 lengths. -/

/-- Total UTF-8 byte length of a character list (`str::len`). -/
def utf8SumLen (l : List Char) : Nat := (l.map utf8Len).sum

/-- Total UTF-16 length of a character list. -/
def utf16SumLen (l : List Char) : Nat := (l.map utf16Len).sum

/-- `utf16::Utf16Checkpoint`. -/
structure Utf16Checkpoint where
  byte : Nat
  utf16Col : Nat
deriving Repr, DecidableEq, Inhabited

/-- `utf16::Utf16LineIndex`; `chars` is the line slice `s[start..end]`. -/
structure Utf16LineIndex where
  start : Nat
  stop : Nat
  chars : List Char
  checkpoints : List Utf16Checkpoint
deriving Repr, DecidableEq, Inhabited

/-- `Utf16LineIndex::CHECKPOINT_STRIDE_CHARS`. -/
def checkpointStride : Nat := 64

/-- The `char_indices` loop of `Utf16LineIndex::new`: push a checkpoint at
the byte after every 64th scalar. -/
def buildCheckpointsGo : List Char → Nat → Nat → Nat → List Utf16Checkpoint
  | [], _, _, _ => []
  | c :: rest, absByte, col, count =>
    if (count + 1) % checkpointStride = 0 then
      ⟨absByte + utf8Len c, col + utf16Len c⟩ ::
        buildCheckpointsGo rest (absByte + utf8Len c) (col + utf16Len c) (count + 1)
    else buildCheckpointsGo rest (absByte + utf8Len c) (col + utf16Len c) (count + 1)

/-- `Utf16LineIndex::new`: initial checkpoint at the line start, stride
checkpoints, and a final end-boundary checkpoint if the last one is not
already at the line end. -/
def lineIndexNew (start : Nat) (line : List Char) : Utf16LineIndex :=
  if (((⟨start, 0⟩ : Utf16Checkpoint) ::
        buildCheckpointsGo line start 0 0).getLast?.map (fun c => c.byte)).getD start ≠
      start + utf8SumLen line then
    ⟨start, start + utf8SumLen line, line,
      ((⟨start, 0⟩ : Utf16Checkpoint) :: buildCheckpointsGo line start 0 0) ++
        [⟨start + utf8SumLen line, utf16SumLen line⟩]⟩
  else
    ⟨start, start + utf8SumLen line, line,
      (⟨start, 0⟩ : Utf16Checkpoint) :: buildCheckpointsGo line start 0 0⟩

/-- `Utf16LineIndex::utf16_len`: the last checkpoint's column. -/
def Utf16LineIndex.utf16len (li : Utf16LineIndex) : Nat :=
  ((li.checkpoints.getLast?).map (fun c => c.utf16Col)).getD 0

/-- The deterministic binary search of Rust's `slice::binary_search_by`
(`inl i` is `Ok(i)`, `inr i` is `Err(i)`); the first argument is fuel
bounding the iteration count. -/
def binarySearchBy (cmp : Nat → Ordering) : Nat → Nat → Nat → Sum Nat Nat
  | 0, left, _ => Sum.inr left
  | fuel + 1, left, right =>
    if left < right then
      match cmp ((left + right) / 2) with
      | Ordering.lt => binarySearchBy cmp fuel ((left + right) / 2 + 1) right
      | Ordering.gt => binarySearchBy cmp fuel left ((left + right) / 2)
      | Ordering.eq => Sum.inl ((left + right) / 2)
    else Sum.inr left

/-- `checkpoints.binary_search_by(...)` over a checkpoint list. -/
def rustBinarySearch (cps : List Utf16Checkpoint) (f : Utf16Checkpoint → Ordering) :
    Sum Nat Nat :=
  binarySearchBy (fun i => f (cps.getD i default)) (cps.length + 1) 0 cps.length

/-- Drop the characters occupying the first `n` bytes (used to resume the
walk at a checkpoint byte, which is always a character boundary). -/
def dropBytes : List Char → Nat → List Char
  | l, 0 => l
  | [], _ => []
  | c :: rest, n + 1 => dropBytes rest (n + 1 - utf8Len c)

/-- The forward walk of `utf16_col_to_byte`: advance scalar by scalar while
the target column is not inside the current scalar. -/
def utf16Walk (target : Nat) : List Char → Nat → Nat → Nat
  | [], curByte, _ => curByte
  | c :: rest, curByte, curU16 =>
    if curU16 < target then
      if target < curU16 + utf16Len c then curByte
      else utf16Walk target rest (curByte + utf8Len c) (curU16 + utf16Len c)
    else curByte

/-- `Utf16LineIndex::utf16_col_to_byte`. -/
def Utf16LineIndex.utf16ColToByte (li : Utf16LineIndex) (utf16Col : Nat) : Nat :=
  if utf16Col = 0 then li.start
  else if li.utf16len ≤ utf16Col then li.stop
  else
    utf16Walk utf16Col
      (dropBytes li.chars
        ((li.checkpoints.getD
          (match rustBinarySearch li.checkpoints
              (fun c => compare c.utf16Col utf16Col) with
            | Sum.inl i => i
            | Sum.inr 0 => 0
            | Sum.inr (i + 1) => i) default).byte - li.start))
      (li.checkpoints.getD
        (match rustBinarySearch li.checkpoints
            (fun c => compare c.utf16Col utf16Col) with
          | Sum.inl i => i
          | Sum.inr 0 => 0
          | Sum.inr (i + 1) => i) default).byte
      (li.checkpoints.getD
        (match rustBinarySearch li.checkpoints
            (fun c => compare c.utf16Col utf16Col) with
          | Sum.inl i => i
          | Sum.inr 0 => 0
          | Sum.inr (i + 1) => i) default).utf16Col

/-- `edit::compute_line_starts` (byte offsets after every `\n`). -/
def computeLineStartsGo : List Char → Nat → List Nat
  | [], _ => []
  | c :: rest, pos =>
    if c = '\n' then (pos + utf8Len c) :: computeLineStartsGo rest (pos + utf8Len c)
    else computeLineStartsGo rest (pos + utf8Len c)

/-- `edit::compute_line_starts`: always starts with 0. -/
def computeLineStarts (s : List Char) : List Nat := 0 :: computeLineStartsGo s 0

/-- Characters of `s` whose byte span lies within `[a, b)` (the slice
`&s[a..b]` for boundary-aligned offsets). -/
def charsInRangeGo : List Char → Nat → Nat → Nat → List Char
  | [], _, _, _ => []
  | c :: rest, pos, a, b =>
    if pos < a then charsInRangeGo rest (pos + utf8Len c) a b
    else if pos + utf8Len c ≤ b then c :: charsInRangeGo rest (pos + utf8Len c) a b
    else []

/-- Slice of `s` between byte offsets `a` and `b`. -/
def charsInRange (s : List Char) (a b : Nat) : List Char := charsInRangeGo s 0 a b

/-- The line-end adjustment of `Utf16Index::new`: the `\n` is already
excluded; also exclude a preceding `\r` (CRLF). -/
def lineSliceStop (s : List Char) (start stop : Nat) : Nat :=
  if start < stop ∧ (charsInRange s start stop).getLast? = some '\r' then stop - 1
  else stop

/-- `utf16::Utf16Index` (the borrowed string is not stored; each line carries
its characters). -/
structure Utf16Index where
  lineStarts : List Nat
  lines : List Utf16LineIndex
deriving Repr

/-- `Utf16Index::new`. -/
def utf16IndexNew (s : List Char) (lineStarts : List Nat) : Utf16Index :=
  ⟨lineStarts,
    (List.range lineStarts.length).map (fun i =>
      lineIndexNew (lineStarts.getD i 0)
        (charsInRange s (lineStarts.getD i 0)
          (lineSliceStop s (lineStarts.getD i 0)
            (match lineStarts[i + 1]? with
              | some next => next - 1
              | none => utf8SumLen s))))⟩

/-- The index as built by the callers in `edit.rs`:
`Utf16Index::new(code, &compute_line_starts(code))`. -/
def utf16IndexOf (s : List Char) : Utf16Index :=
  utf16IndexNew s (computeLineStarts s)

/-- `Utf16Index::line_utf16_col_to_byte`. -/
def Utf16Index.lineUtf16ColToByte (idx : Utf16Index) (line utf16Col : Nat) :
    Option Nat :=
  (idx.lines[line]?).map (fun li => li.utf16ColToByte utf16Col)

/-! ### Basic length-sum lemmas -/

theorem utf8Len_pos (c : Char) : 1 ≤ utf8Len c := by
  unfold utf8Len
  split
  · omega
  · split
    · omega
    · split <;> omega

theorem utf16Len_pos (c : Char) : 1 ≤ utf16Len c := by
  unfold utf16Len
  split <;> omega

theorem utf8SumLen_append (l1 l2 : List Char) :
    utf8SumLen (l1 ++ l2) = utf8SumLen l1 + utf8SumLen l2 := by
  unfold utf8SumLen
  rw [List.map_append, List.sum_append]

theorem utf16SumLen_append (l1 l2 : List Char) :
    utf16SumLen (l1 ++ l2) = utf16SumLen l1 + utf16SumLen l2 := by
  unfold utf16SumLen
  rw [List.map_append, List.sum_append]

theorem utf8SumLen_take_add_drop (l : List Char) (m : Nat) :
    utf8SumLen (l.take m) + utf8SumLen (l.drop m) = utf8SumLen l := by
  rw [← utf8SumLen_append, List.take_append_drop]

theorem utf16SumLen_take_add_drop (l : List Char) (m : Nat) :
    utf16SumLen (l.take m) + utf16SumLen (l.drop m) = utf16SumLen l := by
  rw [← utf16SumLen_append, List.take_append_drop]

theorem utf8SumLen_take_le (l : List Char) (m : Nat) :
    utf8SumLen (l.take m) ≤ utf8SumLen l := by
  have := utf8SumLen_take_add_drop l m
  omega

theorem utf16SumLen_take_le (l : List Char) (m : Nat) :
    utf16SumLen (l.take m) ≤ utf16SumLen l := by
  have := utf16SumLen_take_add_drop l m
  omega

theorem utf8SumLen_pos_of_ne_nil {l : List Char} (h : l ≠ []) :
    1 ≤ utf8SumLen l := by
  cases l with
  | nil => exact absurd rfl h
  | cons c rest =>
    have := utf8Len_pos c
    unfold utf8SumLen
    simp only [List.map_cons, List.sum_cons]
    omega

theorem utf16SumLen_pos_of_ne_nil {l : List Char} (h : l ≠ []) :
    1 ≤ utf16SumLen l := by
  cases l with
  | nil => exact absurd rfl h
  | cons c rest =>
    have := utf16Len_pos c
    unfold utf16SumLen
    simp only [List.map_cons, List.sum_cons]
    omega

theorem take_eq_self_of_utf8SumLen {l : List Char} {m : Nat}
    (h : utf8SumLen (l.take m) = utf8SumLen l) : l.take m = l := by
  by_cases hm : l.length ≤ m
  · exact List.take_of_length_le hm
  · exfalso
    have hdrop : l.drop m ≠ [] := by
      intro hc
      have := congrArg List.length hc
      simp at this
      omega
    have h1 := utf8SumLen_take_add_drop l m
    have h2 := utf8SumLen_pos_of_ne_nil hdrop
    omega

theorem take_succ_of_lt {l : List Char} {k : Nat} (h : k < l.length) :
    l.take (k + 1) = l.take k ++ [l.get ⟨k, h⟩] := by
  rw [List.take_succ]
  congr 1
  rw [List.getElem?_eq_getElem h]
  rfl

/-! ### Line-index structure and checkpoint invariants -/

theorem lineIndexNew_start (start : Nat) (line : List Char) :
    (lineIndexNew start line).start = start := by
  unfold lineIndexNew
  split <;> rfl

theorem lineIndexNew_stop (start : Nat) (line : List Char) :
    (lineIndexNew start line).stop = start + utf8SumLen line := by
  unfold lineIndexNew
  split <;> rfl

theorem lineIndexNew_chars (start : Nat) (line : List Char) :
    (lineIndexNew start line).chars = line := by
  unfold lineIndexNew
  split <;> rfl

/-- A checkpoint sitting on a character boundary of the line. -/
def IsBoundary (start : Nat) (line : List Char) (cp : Utf16Checkpoint) : Prop :=
  ∃ m, m ≤ line.length ∧ cp.byte = start + utf8SumLen (line.take m) ∧
    cp.utf16Col = utf16SumLen (line.take m)

theorem buildCheckpointsGo_boundary (start : Nat) (line : List Char) :
    ∀ (rest : List Char) (k count : Nat), rest = line.drop k → k ≤ line.length →
      ∀ cp ∈ buildCheckpointsGo rest (start + utf8SumLen (line.take k))
        (utf16SumLen (line.take k)) count,
        IsBoundary start line cp := by
  intro rest
  induction rest with
  | nil => intro k count _ _ cp hcp; exact absurd hcp (by simp [buildCheckpointsGo])
  | cons c rest ih =>
    intro k count hdrop hk cp hcp
    have hklt : k < line.length := by
      by_contra hc
      rw [List.drop_of_length_le (by omega)] at hdrop
      exact absurd hdrop.symm (by simp)
    have hc0 : line.get ⟨k, hklt⟩ = c := by
      have h0 : (line.drop k)[0]? = some c := by rw [← hdrop]; simp
      rw [List.getElem?_drop, Nat.add_zero, List.getElem?_eq_getElem hklt] at h0
      injection h0 with h0
    have htake : line.take (k + 1) = line.take k ++ [c] := by
      rw [take_succ_of_lt hklt, hc0]
    have hrest : rest = line.drop (k + 1) := by
      have : line.drop (k + 1) = (line.drop k).drop 1 := by
        rw [List.drop_drop]
      rw [this, ← hdrop]
      rfl
    have hsum8 : start + utf8SumLen (line.take k) + utf8Len c =
        start + utf8SumLen (line.take (k + 1)) := by
      rw [htake, utf8SumLen_append]
      simp [utf8SumLen]
      omega
    have hsum16 : utf16SumLen (line.take k) + utf16Len c =
        utf16SumLen (line.take (k + 1)) := by
      rw [htake, utf16SumLen_append]
      simp [utf16SumLen]
    unfold buildCheckpointsGo at hcp
    split at hcp
    · rcases List.mem_cons.mp hcp with rfl | hcp2
      · exact ⟨k + 1, by omega, by simp only; omega, by simp only; omega⟩
      · rw [hsum8, hsum16] at hcp2
        exact ih (k + 1) (count + 1) hrest (by omega) cp hcp2
    · rw [hsum8, hsum16] at hcp
      exact ih (k + 1) (count + 1) hrest (by omega) cp hcp

theorem lineIndexNew_checkpoints_boundary (start : Nat) (line : List Char) :
    ∀ cp ∈ (lineIndexNew start line).checkpoints, IsBoundary start line cp := by
  have hbase : ∀ cp ∈ buildCheckpointsGo line start 0 0, IsBoundary start line cp := by
    have h0 := buildCheckpointsGo_boundary start line line 0 0 rfl (by omega)
    simpa [utf8SumLen, utf16SumLen] using h0
  have hfirst : IsBoundary start line ⟨start, 0⟩ :=
    ⟨0, by omega, by simp [utf8SumLen], by simp [utf16SumLen]⟩
  have hlast : IsBoundary start line ⟨start + utf8SumLen line, utf16SumLen line⟩ :=
    ⟨line.length, le_refl _, by rw [List.take_of_length_le (le_refl _)],
      by rw [List.take_of_length_le (le_refl _)]⟩
  intro cp hcp
  unfold lineIndexNew at hcp
  split at hcp
  · simp only at hcp
    rcases List.mem_append.mp hcp with hcp2 | hcp2
    · rcases List.mem_cons.mp hcp2 with rfl | hcp3
      · exact hfirst
      · exact hbase cp hcp3
    · rw [List.mem_singleton.mp hcp2]
      exact hlast
  · simp only at hcp
    rcases List.mem_cons.mp hcp with rfl | hcp3
    · exact hfirst
    · exact hbase cp hcp3

theorem lineIndexNew_checkpoints_cons (start : Nat) (line : List Char) :
    ∃ t, (lineIndexNew start line).checkpoints = (⟨start, 0⟩ : Utf16Checkpoint) :: t := by
  unfold lineIndexNew
  split
  · exact ⟨buildCheckpointsGo line start 0 0 ++
      [(⟨start + utf8SumLen line, utf16SumLen line⟩ : Utf16Checkpoint)], rfl⟩
  · exact ⟨buildCheckpointsGo line start 0 0, rfl⟩

theorem lineIndexNew_utf16len (start : Nat) (line : List Char) :
    (lineIndexNew start line).utf16len = utf16SumLen line := by
  unfold Utf16LineIndex.utf16len
  unfold lineIndexNew
  split
  · show ((((⟨start, 0⟩ : Utf16Checkpoint) :: buildCheckpointsGo line start 0 0) ++
      [(⟨start + utf8SumLen line, utf16SumLen line⟩ : Utf16Checkpoint)]).getLast?.map
        (fun c : Utf16Checkpoint => c.utf16Col)).getD 0 = utf16SumLen line
    rw [List.getLast?_concat]
    rfl
  · rename_i hlast
    show (((⟨start, 0⟩ : Utf16Checkpoint) ::
      buildCheckpointsGo line start 0 0).getLast?.map
        (fun c : Utf16Checkpoint => c.utf16Col)).getD 0 =
      utf16SumLen line
    push_neg at hlast
    rcases hgl : ((⟨start, 0⟩ : Utf16Checkpoint) ::
        buildCheckpointsGo line start 0 0).getLast? with _ | cp
    · exact absurd hgl (by simp)
    · rw [hgl] at hlast
      have hlast2 : cp.byte = start + utf8SumLen line := hlast
      have hmem : cp ∈ (⟨start, 0⟩ : Utf16Checkpoint) ::
          buildCheckpointsGo line start 0 0 := List.mem_of_mem_getLast? hgl
      have hbd : IsBoundary start line cp := by
        rcases List.mem_cons.mp hmem with rfl | hmem2
        · exact ⟨0, by omega, by simp [utf8SumLen], by simp [utf16SumLen]⟩
        · have h0 := buildCheckpointsGo_boundary start line line 0 0 rfl (by omega)
          simp only [List.take_zero] at h0
          have h1 := h0 cp
          simp only [utf8SumLen, utf16SumLen, List.map_nil, List.sum_nil,
            Nat.add_zero] at h1
          exact h1 hmem2
      obtain ⟨m, hm, hbyte, hcol⟩ := hbd
      have hsum : utf8SumLen (line.take m) = utf8SumLen line := by omega
      have heq := take_eq_self_of_utf8SumLen hsum
      show cp.utf16Col = utf16SumLen line
      rw [hcol, heq]

/-! ### Binary search, byte dropping and the forward walk -/

theorem utf8SumLen_cons (c : Char) (l : List Char) :
    utf8SumLen (c :: l) = utf8Len c + utf8SumLen l := by
  simp [utf8SumLen]

theorem utf16SumLen_cons (c : Char) (l : List Char) :
    utf16SumLen (c :: l) = utf16Len c + utf16SumLen l := by
  simp [utf16SumLen]

theorem utf16SumLen_take_mono (l : List Char) {m1 m2 : Nat} (h : m1 ≤ m2) :
    utf16SumLen (l.take m1) ≤ utf16SumLen (l.take m2) := by
  have heq : l.take m1 = (l.take m2).take m1 := by
    rw [List.take_take, Nat.min_eq_left h]
  rw [heq]
  exact utf16SumLen_take_le _ _

theorem dropBytes_cons_of_pos (c : Char) (rest : List Char) {n : Nat} (h : 0 < n) :
    dropBytes (c :: rest) n = dropBytes rest (n - utf8Len c) := by
  cases n with
  | zero => omega
  | succ m => rfl

theorem dropBytes_utf8SumLen_take (l : List Char) (m : Nat) :
    dropBytes l (utf8SumLen (l.take m)) = l.drop m := by
  induction l generalizing m with
  | nil => cases m <;> rfl
  | cons c rest ih =>
    cases m with
    | zero => rfl
    | succ m =>
      have hpos : 0 < utf8SumLen ((c :: rest).take (m + 1)) := by
        rw [List.take_succ_cons, utf8SumLen_cons]
        have := utf8Len_pos c
        omega
      rw [dropBytes_cons_of_pos c _ hpos, List.take_succ_cons, utf8SumLen_cons,
        Nat.add_sub_cancel_left]
      exact ih m

theorem binarySearchBy_inl (cmp : Nat → Ordering) :
    ∀ fuel left right i, left ≤ right →
      binarySearchBy cmp fuel left right = Sum.inl i →
      cmp i = Ordering.eq ∧ left ≤ i ∧ i < right := by
  intro fuel
  induction fuel with
  | zero =>
    intro left right i _ h
    simp only [binarySearchBy] at h
    exact Sum.noConfusion h
  | succ fuel ih =>
    intro left right i hlr h
    simp only [binarySearchBy] at h
    split at h
    · rename_i hlt
      split at h
      · obtain ⟨he, hl, hr⟩ := ih _ _ _ (by omega) h
        exact ⟨he, by omega, hr⟩
      · obtain ⟨he, hl, hr⟩ := ih _ _ _ (by omega) h
        exact ⟨he, hl, by omega⟩
      · rename_i heq
        injection h with h
        subst h
        exact ⟨heq, by omega, by omega⟩
    · exact Sum.noConfusion h

theorem binarySearchBy_inr (cmp : Nat → Ordering) :
    ∀ fuel left right i, left ≤ right →
      binarySearchBy cmp fuel left right = Sum.inr i →
      left ≤ i ∧ i ≤ right ∧ (i = left ∨ (1 ≤ i ∧ cmp (i - 1) = Ordering.lt)) := by
  intro fuel
  induction fuel with
  | zero =>
    intro left right i hlr h
    simp only [binarySearchBy] at h
    injection h with h
    subst h
    exact ⟨le_refl _, hlr, Or.inl rfl⟩
  | succ fuel ih =>
    intro left right i hlr h
    simp only [binarySearchBy] at h
    split at h
    · rename_i hlt
      split at h
      · rename_i hcmp
        obtain ⟨hl, hr, hd⟩ := ih _ _ _ (by omega) h
        refine ⟨by omega, hr, Or.inr ?_⟩
        rcases hd with rfl | ⟨h1, h2⟩
        · exact ⟨by omega, by rw [Nat.add_sub_cancel]; exact hcmp⟩
        · exact ⟨h1, h2⟩
      · obtain ⟨hl, hr, hd⟩ := ih _ _ _ (by omega) h
        refine ⟨hl, by omega, ?_⟩
        rcases hd with rfl | hd2
        · exact Or.inl rfl
        · exact Or.inr hd2
      · exact Sum.noConfusion h
    · injection h with h
      subst h
      exact ⟨le_refl _, hlr, Or.inl rfl⟩

theorem rustBinarySearch_inl (cps : List Utf16Checkpoint)
    (f : Utf16Checkpoint → Ordering) (i : Nat)
    (h : rustBinarySearch cps f = Sum.inl i) :
    f (cps.getD i default) = Ordering.eq ∧ i < cps.length := by
  obtain ⟨he, _, hr⟩ :=
    binarySearchBy_inl (fun j => f (cps.getD j default)) (cps.length + 1) 0
      cps.length i (Nat.zero_le _) h
  exact ⟨he, hr⟩

theorem rustBinarySearch_inr (cps : List Utf16Checkpoint)
    (f : Utf16Checkpoint → Ordering) (i : Nat)
    (h : rustBinarySearch cps f = Sum.inr i) :
    i ≤ cps.length ∧
      (i = 0 ∨ (1 ≤ i ∧ f (cps.getD (i - 1) default) = Ordering.lt)) := by
  obtain ⟨_, hr, hd⟩ :=
    binarySearchBy_inr (fun j => f (cps.getD j default)) (cps.length + 1) 0
      cps.length i (Nat.zero_le _) h
  exact ⟨hr, hd⟩

theorem utf16Walk_clamp (col : Nat) (pre : List Char) (c : Char) (suf : List Char)
    (start : Nat) (h1 : utf16SumLen pre ≤ col)
    (h2 : col < utf16SumLen pre + utf16Len c) :
    ∀ n k, pre.length - k = n → k ≤ pre.length →
      utf16Walk col ((pre ++ c :: suf).drop k)
        (start + utf8SumLen ((pre ++ c :: suf).take k))
        (utf16SumLen ((pre ++ c :: suf).take k)) = start + utf8SumLen pre := by
  intro n
  induction n with
  | zero =>
    intro k hn hk
    have hkeq : k = pre.length := by omega
    subst hkeq
    have htake : (pre ++ c :: suf).take pre.length = pre := List.take_left _ _
    have hdrop : (pre ++ c :: suf).drop pre.length = c :: suf := List.drop_left _ _
    rw [htake, hdrop]
    show (if utf16SumLen pre < col then
        if col < utf16SumLen pre + utf16Len c then start + utf8SumLen pre
        else utf16Walk col suf (start + utf8SumLen pre + utf8Len c)
          (utf16SumLen pre + utf16Len c)
      else start + utf8SumLen pre) = start + utf8SumLen pre
    rw [if_pos h2]
    split <;> rfl
  | succ n ih =>
    intro k hn hk
    have hklt : k < pre.length := by omega
    have hkl : k < (pre ++ c :: suf).length := by
      rw [List.length_append]
      omega
    have hdrop : (pre ++ c :: suf).drop k =
        (pre ++ c :: suf).get ⟨k, hkl⟩ :: (pre ++ c :: suf).drop (k + 1) := by
      rw [List.drop_eq_getElem_cons hkl]
      rfl
    have htake : (pre ++ c :: suf).take (k + 1) =
        (pre ++ c :: suf).take k ++ [(pre ++ c :: suf).get ⟨k, hkl⟩] :=
      take_succ_of_lt hkl
    have hsum8 : utf8SumLen ((pre ++ c :: suf).take (k + 1)) =
        utf8SumLen ((pre ++ c :: suf).take k) +
          utf8Len ((pre ++ c :: suf).get ⟨k, hkl⟩) := by
      rw [htake, utf8SumLen_append, utf8SumLen_cons]
      simp [utf8SumLen]
    have hsum16 : utf16SumLen ((pre ++ c :: suf).take (k + 1)) =
        utf16SumLen ((pre ++ c :: suf).take k) +
          utf16Len ((pre ++ c :: suf).get ⟨k, hkl⟩) := by
      rw [htake, utf16SumLen_append, utf16SumLen_cons]
      simp [utf16SumLen]
    have hpre : utf16SumLen ((pre ++ c :: suf).take pre.length) =
        utf16SumLen pre := by
      rw [List.take_left]
    have hnext_le : utf16SumLen ((pre ++ c :: suf).take (k + 1)) ≤
        utf16SumLen pre := by
      have := utf16SumLen_take_mono (pre ++ c :: suf) (Nat.succ_le_of_lt hklt)
      rw [hpre] at this
      exact this
    have hchar := utf16Len_pos ((pre ++ c :: suf).get ⟨k, hkl⟩)
    have hlt : utf16SumLen ((pre ++ c :: suf).take k) < col := by omega
    have hnotin : ¬ col < utf16SumLen ((pre ++ c :: suf).take k) +
        utf16Len ((pre ++ c :: suf).get ⟨k, hkl⟩) := by omega
    rw [hdrop]
    show (if utf16SumLen ((pre ++ c :: suf).take k) < col then
        if col < utf16SumLen ((pre ++ c :: suf).take k) +
            utf16Len ((pre ++ c :: suf).get ⟨k, hkl⟩) then
          start + utf8SumLen ((pre ++ c :: suf).take k)
        else utf16Walk col ((pre ++ c :: suf).drop (k + 1))
          (start + utf8SumLen ((pre ++ c :: suf).take k) +
            utf8Len ((pre ++ c :: suf).get ⟨k, hkl⟩))
          (utf16SumLen ((pre ++ c :: suf).take k) +
            utf16Len ((pre ++ c :: suf).get ⟨k, hkl⟩))
      else start + utf8SumLen ((pre ++ c :: suf).take k)) = start + utf8SumLen pre
    rw [if_pos hlt, if_neg hnotin, Nat.add_assoc, ← hsum8, ← hsum16]
    exact ih (k + 1) (by omega) (by omega)

theorem walk_from_boundary (start : Nat) (chars pre : List Char) (c : Char)
    (suf : List Char) (col : Nat) (cp : Utf16Checkpoint)
    (hd : chars = pre ++ c :: suf) (h1 : utf16SumLen pre ≤ col)
    (h2 : col < utf16SumLen pre + utf16Len c)
    (hbd : IsBoundary start chars cp) (hle : cp.utf16Col ≤ col) :
    utf16Walk col (dropBytes chars (cp.byte - start)) cp.byte cp.utf16Col =
      start + utf8SumLen pre := by
  subst hd
  obtain ⟨m, hm, hbyte, hcol⟩ := hbd
  have hple : m ≤ pre.length := by
    by_contra hgt
    push_neg at hgt
    have h3 : utf16SumLen ((pre ++ c :: suf).take (pre.length + 1)) ≤
        utf16SumLen ((pre ++ c :: suf).take m) :=
      utf16SumLen_take_mono _ (by omega)
    have h4 : (pre ++ c :: suf).take (pre.length + 1) = pre ++ [c] := by
      rw [show pre ++ c :: suf = (pre ++ [c]) ++ suf by simp,
        show pre.length + 1 = (pre ++ [c]).length by simp]
      exact List.take_left _ _
    rw [h4, utf16SumLen_append,
      show utf16SumLen [c] = utf16Len c by simp [utf16SumLen], ← hcol] at h3
    omega
  have hdropB : dropBytes (pre ++ c :: suf) (cp.byte - start) =
      (pre ++ c :: suf).drop m := by
    rw [hbyte, Nat.add_sub_cancel_left]
    exact dropBytes_utf8SumLen_take _ m
  rw [hdropB, hbyte, hcol]
  exact utf16Walk_clamp col pre c suf start h1 h2 (pre.length - m) m rfl hple

/-! ### The three behaviours of `utf16_col_to_byte` on a line -/

theorem lineIndexNew_colToByte_zero (start : Nat) (line : List Char) :
    (lineIndexNew start line).utf16ColToByte 0 = start := by
  unfold Utf16LineIndex.utf16ColToByte
  rw [if_pos rfl, lineIndexNew_start]

theorem lineIndexNew_colToByte_end (start : Nat) (line : List Char) (col : Nat)
    (h : utf16SumLen line ≤ col) :
    (lineIndexNew start line).utf16ColToByte col = start + utf8SumLen line := by
  by_cases hc0 : col = 0
  · subst hc0
    have hnil : line = [] := by
      cases line with
      | nil => rfl
      | cons c rest =>
        have := utf16SumLen_pos_of_ne_nil (l := c :: rest) (by simp)
        omega
    subst hnil
    rw [lineIndexNew_colToByte_zero]
    simp [utf8SumLen]
  · unfold Utf16LineIndex.utf16ColToByte
    rw [if_neg hc0, if_pos (by rw [lineIndexNew_utf16len]; exact h),
      lineIndexNew_stop]

theorem lineIndexNew_colToByte_clamp (start : Nat) (chars pre : List Char)
    (c : Char) (suf : List Char) (col : Nat)
    (hd : chars = pre ++ c :: suf) (h1 : utf16SumLen pre ≤ col)
    (h2 : col < utf16SumLen pre + utf16Len c) :
    (lineIndexNew start chars).utf16ColToByte col = start + utf8SumLen pre := by
  by_cases hc0 : col = 0
  · subst hc0
    cases pre with
    | nil =>
      rw [lineIndexNew_colToByte_zero]
      simp [utf8SumLen]
    | cons p ps =>
      have := utf16SumLen_pos_of_ne_nil (l := p :: ps) (by simp)
      omega
  · have hcol_lt : col < utf16SumLen chars := by
      rw [hd, utf16SumLen_append, utf16SumLen_cons]
      omega
    have hbound := lineIndexNew_checkpoints_boundary start chars
    unfold Utf16LineIndex.utf16ColToByte
    rw [if_neg hc0, if_neg (by rw [lineIndexNew_utf16len]; omega),
      lineIndexNew_chars, lineIndexNew_start]
    rcases hbs : rustBinarySearch (lineIndexNew start chars).checkpoints
        (fun cc => compare cc.utf16Col col) with i | i
    · obtain ⟨hfe, hilt⟩ := rustBinarySearch_inl _ _ _ hbs
      have hle : ((lineIndexNew start chars).checkpoints.getD i default).utf16Col ≤
          col := by
        have := Nat.compare_eq_eq.mp hfe
        omega
      have hmem : (lineIndexNew start chars).checkpoints.getD i default ∈
          (lineIndexNew start chars).checkpoints := by
        rw [List.getD_eq_getElem _ _ hilt]
        exact List.getElem_mem _
      exact walk_from_boundary start chars pre c suf col _ hd h1 h2
        (hbound _ hmem) hle
    · obtain ⟨hile, hdj⟩ := rustBinarySearch_inr _ _ _ hbs
      cases i with
      | zero =>
        obtain ⟨t, ht⟩ := lineIndexNew_checkpoints_cons start chars
        have hcp0 : (lineIndexNew start chars).checkpoints.getD 0 default =
            ⟨start, 0⟩ := by
          rw [ht]
          rfl
        have hbd : IsBoundary start chars
            ((lineIndexNew start chars).checkpoints.getD 0 default) := by
          rw [hcp0]
          exact ⟨0, Nat.zero_le _, by simp [utf8SumLen], by simp [utf16SumLen]⟩
        have hle : ((lineIndexNew start chars).checkpoints.getD 0
            default).utf16Col ≤ col := by
          rw [hcp0]
          exact Nat.zero_le _
        exact walk_from_boundary start chars pre c suf col _ hd h1 h2 hbd hle
      | succ j =>
        rcases hdj with h0 | ⟨h1j, hflt⟩
        · exact absurd h0 (by omega)
        · have hjlt : j < (lineIndexNew start chars).checkpoints.length := by
            omega
          have hle : ((lineIndexNew start chars).checkpoints.getD j
              default).utf16Col ≤ col := by
            simp only [Nat.add_sub_cancel] at hflt
            have := Nat.compare_eq_lt.mp hflt
            omega
          have hmem : (lineIndexNew start chars).checkpoints.getD j default ∈
              (lineIndexNew start chars).checkpoints := by
            rw [List.getD_eq_getElem _ _ hjlt]
            exact List.getElem_mem _
          exact walk_from_boundary start chars pre c suf col _ hd h1 h2
            (hbound _ hmem) hle

/-- C5: UTF-16 column-to-byte conversion is total with the specified
clamping: `line_utf16_col_to_byte` returns nothing for an out-of-range line;
on a valid line (built by `Utf16LineIndex::new` from a start offset and the
line's characters) it returns the line start when `col = 0`, the line end
(start plus the line's UTF-8 byte length) when `col` is at least the line's
UTF-16 length, and whenever `col` falls within the UTF-16 span of a single
scalar (in particular halfway through a surrogate pair) it returns the byte
offset of the start of that scalar. -/
theorem lineUtf16ColToByte_spec (s : List Char) (line col : Nat) :
    ((utf16IndexOf s).lines.length ≤ line →
      (utf16IndexOf s).lineUtf16ColToByte line col = none) ∧
    (∀ (start : Nat) (chars : List Char),
      (utf16IndexOf s).lines[line]? = some (lineIndexNew start chars) →
      ((col = 0 → (utf16IndexOf s).lineUtf16ColToByte line col = some start) ∧
       (utf16SumLen chars ≤ col →
         (utf16IndexOf s).lineUtf16ColToByte line col =
           some (start + utf8SumLen chars)) ∧
       (∀ (pre : List Char) (c : Char) (suf : List Char),
         chars = pre ++ c :: suf → utf16SumLen pre ≤ col →
         col < utf16SumLen pre + utf16Len c →
         (utf16IndexOf s).lineUtf16ColToByte line col =
           some (start + utf8SumLen pre)))) := by
  constructor
  · intro h
    unfold Utf16Index.lineUtf16ColToByte
    rw [List.getElem?_eq_none h]
    rfl
  · intro start chars hline
    unfold Utf16Index.lineUtf16ColToByte
    rw [hline]
    refine ⟨?_, ?_, ?_⟩
    · intro hc0
      subst hc0
      show some ((lineIndexNew start chars).utf16ColToByte 0) = some start
      rw [lineIndexNew_colToByte_zero]
    · intro hge
      show some ((lineIndexNew start chars).utf16ColToByte col) =
        some (start + utf8SumLen chars)
      rw [lineIndexNew_colToByte_end start chars col hge]
    · intro pre c suf hd hl hh
      show some ((lineIndexNew start chars).utf16ColToByte col) =
        some (start + utf8SumLen pre)
      rw [lineIndexNew_colToByte_clamp start chars pre c suf col hd hl hh]

/-- Witness for C5: in the single-line string `a🙂b` the column 2 falls
between the two UTF-16 code units of the emoji's surrogate pair, and the
conversion clamps to byte 1, the start of that scalar. -/
theorem lineUtf16ColToByte_spec_witness :
    (utf16IndexOf ['a', '🙂', 'b']).lineUtf16ColToByte 0 2 =
      some (0 + utf8SumLen ['a']) :=
  ((lineUtf16ColToByte_spec ['a', '🙂', 'b'] 0 2).2 0 ['a', '🙂', 'b']
      (by decide)).2.2 ['a'] '🙂' ['b'] rfl (by decide) (by decide)

/-! ## The CST walk of `collect_edits` (`strip.rs`)

The tree-sitter parse tree is external, so the walk is modelled over explicit
trees: a node is a kind, a byte span and its named children.  `collect_edits`
is the pre-order worklist traversal that applies `process_container_gaps` to
every `document`/`element` node and finally sorts; the traversal is written
with a fuel argument (instantiated with `sizeOf`, which always dominates the
node count) so that every definition stays executable by kernel reduction.
Theorems quantify over trees satisfying `wfB`, the tree-sitter invariants the
code relies on: ordered, contained, character-aligned spans, plus two facts
of the Astro grammar (an element's first named child is its opening tag, and
`document`/`element` nodes never occur inside non-container nodes). -/

/-- Node kinds of the Astro grammar that `strip.rs` inspects (every other
kind behaves identically, collapsed into `other`). -/
inductive Kind where
  | document
  | element
  | startTag
  | endTag
  | selfClosingTag
  | comment
  | htmlInterpolation
  | text
  | tagName
  | other
deriving Repr, DecidableEq

/-- A CST node: kind, byte span `[start, stop)` and named children. -/
inductive CST where
  | mk (kind : Kind) (start stop : Nat) (children : List CST)
deriving Repr

def CST.kind : CST → Kind
  | .mk k _ _ _ => k

def CST.start : CST → Nat
  | .mk _ s _ _ => s

def CST.stop : CST → Nat
  | .mk _ _ e _ => e

def CST.children : CST → List CST
  | .mk _ _ _ cs => cs

/-- The containers whose gaps are processed: `document` and `element`. -/
def isContainer (k : Kind) : Bool :=
  decide (k = Kind.document) || decide (k = Kind.element)

/-- `slice.get(a..b)` on success: the byte sub-range. -/
def sliceBytes (l : List Nat) (a b : Nat) : List Nat := (l.take b).drop a

/-- Rust's `slice::get(a..b)`: `Some` exactly when `a ≤ b ≤ len`. -/
def rustGetRange (l : List Nat) (a b : Nat) : Option (List Nat) :=
  if a ≤ b ∧ b ≤ l.length then some (sliceBytes l a b) else none

/-- `TrailingDelim::from_node` (fuelled: the recursion follows the chain of
last named children of `element` nodes, so any fuel at least the node count
of the tree suffices; the traversal's well-formedness check only passes with
such fuel). -/
def fromNodeGo : Nat → CST → Option TrailingDelim
  | 0, _ => none
  | fuel + 1, t =>
    match t.kind with
    | Kind.startTag => some .gt
    | Kind.endTag => some .gt
    | Kind.selfClosingTag => some .slashGt
    | Kind.comment => some .commentEnd
    | Kind.htmlInterpolation => some .rBrace
    | Kind.element =>
      match t.children.getLast? with
      | some c => fromNodeGo fuel c
      | none => none
    | _ => none

/-- The `start_tag`/`end_tag`/`self_closing_tag` body of `opener_prefix_end`:
verify the `<`, then end of the `tag_name` child. -/
def openerTagEnd (src : List Char) (t : CST) : Option Nat :=
  if (encodeUtf8 src)[t.start]? = some 0x3C then
    match t.children.find? (fun c => decide (c.kind = Kind.tagName)) with
    | some tn => if t.start < tn.stop then some tn.stop else none
    | none => none
  else none

/-- `strip::opener_prefix_end`. -/
def openerPrefixEnd (src : List Char) (n : CST) : Option Nat :=
  match n.kind with
  | Kind.htmlInterpolation =>
    if (encodeUtf8 src)[n.start]? = some 0x7B then some (n.start + 1) else none
  | Kind.comment =>
    if rustGetRange (encodeUtf8 src) n.start (n.start + 4) =
        some [0x3C, 0x21, 0x2D, 0x2D] then some (n.start + 4)
    else none
  | Kind.element =>
    match n.children.find? (fun c =>
        decide (c.kind = Kind.startTag) || decide (c.kind = Kind.selfClosingTag)) with
    | some t => openerTagEnd src t
    | none => none
  | Kind.startTag => openerTagEnd src n
  | Kind.endTag => openerTagEnd src n
  | Kind.selfClosingTag => openerTagEnd src n
  | _ => none

/-- The `windows(2)` scan for a double line feed. -/
def hasBlankLF : List Nat → Bool
  | 10 :: 10 :: _ => true
  | _ :: rest => hasBlankLF rest
  | [] => false

/-- The `windows(4)` scan for a double CRLF. -/
def hasBlankCRLF : List Nat → Bool
  | 13 :: 10 :: 13 :: 10 :: _ => true
  | _ :: rest => hasBlankCRLF rest
  | [] => false

/-- `strip::contains_blank_line` over the gap's bytes. -/
def containsBlankLine (b : List Nat) : Bool := hasBlankLF b || hasBlankCRLF b

/-- Case 1 of the gap loop: rotate a verified trailing delimiter of `p`
across the gap. -/
def gapEditDelim (src : List Char) (fuel : Nat) (p n : CST) (gap : List Char) :
    Option Edit :=
  match fromNodeGo fuel p with
  | some d =>
    if d.len ≤ p.stop ∧
        rustGetRange (encodeUtf8 src) (p.stop - d.len) p.stop = some d.bytes then
      some ⟨p.stop - d.len, n.start, (rotateDelimOverGap d gap).1,
        (rotateDelimOverGap d gap).2.map (fun off => some (p.stop - d.len + off)),
        d.len⟩
    else none
  | none => none

/-- Case 2 of the gap loop: rotate the opener prefix of `n` left across the
gap when `p` is a text node. -/
def gapEditOpener (src : List Char) (p n : CST) (gap : List Char) : Option Edit :=
  if p.kind = Kind.text then
    match openerPrefixEnd src n with
    | some pe =>
      if n.start < pe then
        some ⟨p.stop, pe,
          (rotatePrefixOverGap (sliceBytes (encodeUtf8 src) n.start pe) gap).1,
          (rotatePrefixOverGap (sliceBytes (encodeUtf8 src) n.start pe) gap).2.map
            (fun off => some (p.stop + off)),
          0⟩
      else none
    | none => none
  else none

/-- One iteration of the gap loop of `process_container_gaps` for the
adjacent named children `p`, `n`: skip non-gaps, non-whitespace gaps and
(under `preserve_blank_lines`) blank-line gaps, then try the delimiter
rotation and fall through to the opener rotation. -/
def gapEdit (src : List Char) (cfg : Bool) (fuel : Nat) (p n : CST) : Option Edit :=
  if n.start ≤ p.stop then none
  else
    if (charsInRange src p.stop n.start).isEmpty then none
    else if ¬ (charsInRange src p.stop n.start).all rustIsWhitespace then none
    else if cfg &&
        containsBlankLine (encodeUtf8 (charsInRange src p.stop n.start)) then none
    else
      match gapEditDelim src fuel p n (charsInRange src p.stop n.start) with
      | some e => some e
      | none => gapEditOpener src p n (charsInRange src p.stop n.start)

/-- `process_container_gaps`: the gap loop over consecutive named children. -/
def processPairs (src : List Char) (cfg : Bool) (fuel : Nat) (cs : List CST) :
    List Edit :=
  (cs.zip cs.tail).filterMap (fun pr => gapEdit src cfg fuel pr.1 pr.2)

/-- The pre-order worklist traversal of `collect_edits` (fuelled). -/
def collectGo (src : List Char) (cfg : Bool) : Nat → List CST → List Edit
  | 0, _ => []
  | _, [] => []
  | fuel + 1, t :: rest =>
    (if isContainer t.kind then processPairs src cfg fuel t.children else []) ++
      collectGo src cfg fuel (t.children ++ rest)

/-- The sort key of `collect_edits`: `(start, end, replacement.len())`
lexicographically. -/
def editLe (a b : Edit) : Prop :=
  a.start < b.start ∨ (a.start = b.start ∧ (a.stop < b.stop ∨
    (a.stop = b.stop ∧ a.replacement.length ≤ b.replacement.length)))

instance : DecidableRel editLe := fun a b => by
  unfold editLe
  infer_instance

/-- `strip::collect_edits`: traverse, collect, sort.  The fuel bounds the
traversal; `wfB` with the same fuel certifies that it is never exhausted. -/
def collectEdits (src : List Char) (cfg : Bool) (fuel : Nat) (root : CST) :
    List Edit :=
  List.insertionSort editLe (collectGo src cfg fuel [root])

/-- `k` is a character boundary of `src` (a prefix's UTF-8 length). -/
def boundaryB (src : List Char) (k : Nat) : Bool :=
  (List.range (src.length + 1)).any (fun i => decide (utf8SumLen (src.take i) = k))

/-- The per-node tree-sitter/grammar invariants: a valid span on character
boundaries of the source, contained and ordered children, an element's first
named child is its opening tag, and non-container nodes have no container
children. -/
def nodeOkB (src : List Char) (t : CST) : Bool :=
  decide (t.start ≤ t.stop) && boundaryB src t.start && boundaryB src t.stop &&
  t.children.all (fun c => decide (t.start ≤ c.start) && decide (c.stop ≤ t.stop)) &&
  (t.children.zip t.children.tail).all (fun pr => decide (pr.1.stop ≤ pr.2.start)) &&
  (if t.kind = Kind.element then
    match t.children with
    | [] => true
    | c :: _ => decide (c.kind = Kind.startTag) || decide (c.kind = Kind.selfClosingTag)
  else true) &&
  (if isContainer t.kind then true
   else t.children.all (fun c => ! isContainer c.kind))

/-- Well-formedness of every node of a forest (the same fuelled worklist as
`collectGo`; exhausting the fuel fails the check, so a `true` result also
certifies the fuel covers the whole tree). -/
def wfGo (src : List Char) : Nat → List CST → Bool
  | 0, _ => false
  | _, [] => true
  | fuel + 1, t :: rest => nodeOkB src t && wfGo src fuel (t.children ++ rest)

/-- Well-formedness of a tree, with the traversal fuel. -/
def wfB (src : List Char) (fuel : Nat) (root : CST) : Bool := wfGo src fuel [root]

/-- `prev` and `next` are adjacent named children of the container `C`,
which occurs in the tree rooted at the first argument (the sites
`process_container_gaps` visits). -/
inductive ContainerPair : CST → CST → CST → CST → Prop where
  | here (n prev next : CST) (l1 l2 : List CST) :
      isContainer n.kind = true → n.children = l1 ++ prev :: next :: l2 →
      ContainerPair n n prev next
  | via (n c C prev next : CST) :
      c ∈ n.children → ContainerPair c C prev next → ContainerPair n C prev next

/-! ### Character-boundary alignment of byte slices -/

theorem encodeUtf8_append (l1 l2 : List Char) :
    encodeUtf8 (l1 ++ l2) = encodeUtf8 l1 ++ encodeUtf8 l2 :=
  List.flatMap_append l1 l2 utf8Bytes

theorem encodeUtf8_length (s : List Char) :
    (encodeUtf8 s).length = utf8SumLen s := by
  unfold encodeUtf8 utf8SumLen
  rw [List.length_flatMap]
  congr 1
  exact List.map_congr_left (fun c _ => utf8Bytes_length c)

theorem mem_encodeUtf8 {b : Nat} {s : List Char} (h : b ∈ encodeUtf8 s) :
    ∃ c ∈ s, b ∈ utf8Bytes c :=
  List.mem_flatMap.mp h

theorem utf8SumLen_take_mono (l : List Char) {m1 m2 : Nat} (h : m1 ≤ m2) :
    utf8SumLen (l.take m1) ≤ utf8SumLen (l.take m2) := by
  have heq : l.take m1 = (l.take m2).take m1 := by
    rw [List.take_take, Nat.min_eq_left h]
  rw [heq]
  exact utf8SumLen_take_le _ _

theorem lt_of_utf8SumLen_take_lt (l : List Char) {i j : Nat}
    (h : utf8SumLen (l.take i) < utf8SumLen (l.take j)) : i < j := by
  by_contra hc
  push_neg at hc
  exact absurd (utf8SumLen_take_mono l hc) (by omega)

theorem take_split_of_le (l : List Char) {i j : Nat} (h : i ≤ j) :
    l.take j = l.take i ++ (l.drop i).take (j - i) := by
  have h1 : j = i + (j - i) := by omega
  have h2 : i + (j - i) - i = j - i := by omega
  rw [h1, List.take_add, h2]

theorem sliceBytes_aligned (src : List Char) {i j : Nat} (h : i ≤ j) :
    sliceBytes (encodeUtf8 src) (utf8SumLen (src.take i)) (utf8SumLen (src.take j)) =
      encodeUtf8 ((src.drop i).take (j - i)) := by
  unfold sliceBytes
  have hsrc : encodeUtf8 src = encodeUtf8 (src.take j) ++ encodeUtf8 (src.drop j) := by
    rw [← encodeUtf8_append, List.take_append_drop]
  have htk : (encodeUtf8 src).take (utf8SumLen (src.take j)) =
      encodeUtf8 (src.take j) := by
    rw [hsrc]
    exact List.take_left' (encodeUtf8_length _)
  rw [htk, take_split_of_le src h, encodeUtf8_append]
  exact List.drop_left' (encodeUtf8_length _)

theorem sliceBytes_length (l : List Nat) {a b : Nat} (hb : b ≤ l.length) :
    (sliceBytes l a b).length = b - a := by
  unfold sliceBytes
  rw [List.length_drop, List.length_take, Nat.min_eq_left hb]

theorem sliceBytes_getElem? (l : List Nat) {a b k : Nat} (h1 : a ≤ k) (h2 : k < b) :
    (sliceBytes l a b)[k - a]? = l[k]? := by
  unfold sliceBytes
  rw [List.getElem?_drop]
  have : a + (k - a) = k := by omega
  rw [this, List.getElem?_take, if_pos h2]

theorem charsInRangeGo_take (j : Nat) :
    ∀ (l : List Char) (p a : Nat), a ≤ p → j ≤ l.length →
      charsInRangeGo l p a (p + utf8SumLen (l.take j)) = l.take j := by
  induction j with
  | zero =>
    intro l p a hap _
    cases l with
    | nil => rfl
    | cons c rest =>
      unfold charsInRangeGo
      rw [if_neg (by omega), if_neg (by have := utf8Len_pos c; simp [utf8SumLen]; omega)]
      rfl
  | succ j ih =>
    intro l p a hap hj
    cases l with
    | nil => rfl
    | cons c rest =>
      unfold charsInRangeGo
      rw [List.take_succ_cons, utf8SumLen_cons]
      rw [if_neg (by omega), if_pos (by omega)]
      have := ih rest (p + utf8Len c) a (by omega) (by
        have := hj
        simp at this
        omega)
      rw [show p + (utf8Len c + utf8SumLen (rest.take j)) =
        (p + utf8Len c) + utf8SumLen (rest.take j) by omega]
      rw [this]

theorem charsInRangeGo_skip (src : List Char) :
    ∀ (i j p : Nat), i ≤ j → j ≤ src.length →
      charsInRangeGo src p (p + utf8SumLen (src.take i))
        (p + utf8SumLen (src.take j)) = (src.drop i).take (j - i) := by
  induction src with
  | nil =>
    intro i j p _ _
    simp [charsInRangeGo]
  | cons c rest ih =>
    intro i j p hij hj
    cases i with
    | zero =>
      simp only [List.take_zero, List.drop_zero, Nat.sub_zero]
      have h0 : utf8SumLen ([] : List Char) = 0 := rfl
      rw [show p + utf8SumLen ([] : List Char) = p by rw [h0]; omega]
      exact charsInRangeGo_take j (c :: rest) p p (le_refl _) hj
    | succ i =>
      cases j with
      | zero => omega
      | succ j =>
        unfold charsInRangeGo
        rw [List.take_succ_cons, utf8SumLen_cons, List.take_succ_cons, utf8SumLen_cons]
        rw [if_pos (by have := utf8Len_pos c; omega)]
        have hlen : j ≤ rest.length := by
          have := hj
          simp at this
          omega
        have := ih i j (p + utf8Len c) (by omega) hlen
        rw [show p + (utf8Len c + utf8SumLen (rest.take i)) =
          (p + utf8Len c) + utf8SumLen (rest.take i) by omega]
        rw [show p + (utf8Len c + utf8SumLen (rest.take j)) =
          (p + utf8Len c) + utf8SumLen (rest.take j) by omega]
        rw [this, Nat.succ_sub_succ, List.drop_succ_cons]

theorem charsInRange_aligned (src : List Char) {i j : Nat} (hij : i ≤ j)
    (hj : j ≤ src.length) :
    charsInRange src (utf8SumLen (src.take i)) (utf8SumLen (src.take j)) =
      (src.drop i).take (j - i) := by
  unfold charsInRange
  have := charsInRangeGo_skip src i j 0 hij hj
  simpa using this

theorem boundaryB_iff (src : List Char) (k : Nat) :
    boundaryB src k = true ↔ ∃ i, i ≤ src.length ∧ utf8SumLen (src.take i) = k := by
  unfold boundaryB
  rw [List.any_eq_true]
  constructor
  · rintro ⟨i, hi, hd⟩
    rw [List.mem_range] at hi
    exact ⟨i, by omega, of_decide_eq_true hd⟩
  · rintro ⟨i, hi, he⟩
    exact ⟨i, List.mem_range.mpr (by omega), decide_eq_true he⟩

theorem aligned_gap_bytes (src : List Char) {i j : Nat} (hij : i ≤ j)
    (hj : j ≤ src.length) :
    encodeUtf8 (charsInRange src (utf8SumLen (src.take i))
        (utf8SumLen (src.take j))) =
      sliceBytes (encodeUtf8 src) (utf8SumLen (src.take i))
        (utf8SumLen (src.take j)) := by
  rw [charsInRange_aligned src hij hj, sliceBytes_aligned src hij]

theorem aligned_ws_bytes (src : List Char) {i j : Nat} (hij : i ≤ j)
    (hj : j ≤ src.length)
    (hws : (charsInRange src (utf8SumLen (src.take i))
      (utf8SumLen (src.take j))).all rustIsWhitespace = true) :
    ∀ k b, utf8SumLen (src.take i) ≤ k → k < utf8SumLen (src.take j) →
      (encodeUtf8 src)[k]? = some b → wsCompatibleByte b := by
  intro k b hk1 hk2 hkb
  have hbmem : b ∈ sliceBytes (encodeUtf8 src) (utf8SumLen (src.take i))
      (utf8SumLen (src.take j)) := by
    have := sliceBytes_getElem? (encodeUtf8 src) hk1 hk2
    rw [hkb] at this
    exact List.getElem?_mem this
  rw [← aligned_gap_bytes src hij hj] at hbmem
  obtain ⟨c, hc, hbc⟩ := mem_encodeUtf8 hbmem
  rw [List.all_eq_true] at hws
  exact wsCompatibleByte_of_mem_utf8Bytes (hws c hc) hbc

/-! ### Subtree well-formedness and children ordering -/

/-- Subtree-wide well-formedness as an inductive proposition (implied by the
executable worklist check `wfGo`). -/
inductive WfT (src : List Char) : CST → Prop where
  | mk (t : CST) : nodeOkB src t = true → (∀ c ∈ t.children, WfT src c) →
      WfT src t

theorem WfT.nodeOk {src : List Char} {t : CST} (h : WfT src t) :
    nodeOkB src t = true := by
  cases h
  assumption

theorem WfT.child {src : List Char} {t : CST} (h : WfT src t) :
    ∀ c ∈ t.children, WfT src c := by
  cases h
  assumption

theorem wfGo_WfT (src : List Char) :
    ∀ fuel ws, wfGo src fuel ws = true → ∀ t ∈ ws, WfT src t := by
  intro fuel
  induction fuel with
  | zero =>
    intro ws h
    simp [wfGo] at h
  | succ fuel ih =>
    intro ws h
    cases ws with
    | nil =>
      intro t ht
      exact absurd ht (by simp)
    | cons t rest =>
      simp only [wfGo, Bool.and_eq_true] at h
      obtain ⟨hok, hrest⟩ := h
      have hall := ih _ hrest
      intro x hx
      rcases List.mem_cons.mp hx with rfl | hx2
      · exact ⟨x, hok, fun c hc => hall c (List.mem_append.mpr (Or.inl hc))⟩
      · exact hall x (List.mem_append.mpr (Or.inr hx2))

theorem wfB_WfT {src : List Char} {fuel : Nat} {root : CST}
    (h : wfB src fuel root = true) : WfT src root :=
  wfGo_WfT src fuel [root] h root (by simp)

/-- The individual facts certified by `nodeOkB`. -/
theorem nodeOkB_parts {src : List Char} {t : CST} (h : nodeOkB src t = true) :
    t.start ≤ t.stop ∧ boundaryB src t.start = true ∧
    boundaryB src t.stop = true ∧
    (∀ c ∈ t.children, t.start ≤ c.start ∧ c.stop ≤ t.stop) ∧
    (∀ pr ∈ t.children.zip t.children.tail, pr.1.stop ≤ pr.2.start) ∧
    (t.kind = Kind.element → ∀ c cs, t.children = c :: cs →
      c.kind = Kind.startTag ∨ c.kind = Kind.selfClosingTag) ∧
    (isContainer t.kind = false → ∀ c ∈ t.children, isContainer c.kind = false) := by
  unfold nodeOkB at h
  simp only [Bool.and_eq_true, decide_eq_true_eq, List.all_eq_true] at h
  obtain ⟨⟨⟨⟨⟨⟨h1, h2⟩, h3⟩, h4⟩, h5⟩, h6⟩, h7⟩ := h
  refine ⟨h1, h2, h3, ?_, ?_, ?_, ?_⟩
  · intro c hc
    have := h4 c hc
    simp only [Bool.and_eq_true, decide_eq_true_eq] at this
    exact this
  · intro pr hpr
    have := h5 pr hpr
    simp only [decide_eq_true_eq] at this
    exact this
  · intro hk c cs hcs
    rw [if_pos hk, hcs] at h6
    simp only [Bool.or_eq_true, decide_eq_true_eq] at h6
    exact h6
  · intro hic c hc
    rw [if_neg (by rw [hic]; exact Bool.false_ne_true), List.all_eq_true] at h7
    have := h7 c hc
    simp only [Bool.not_eq_true'] at this
    exact this

/-- Every consecutive pair of a list arises from a decomposition. -/
theorem zip_tail_decomp {α : Type} (l : List α) :
    ∀ pr ∈ l.zip l.tail, ∃ m1 m2, l = m1 ++ pr.1 :: pr.2 :: m2 := by
  induction l with
  | nil => simp
  | cons a rest ih =>
    intro pr hpr
    cases rest with
    | nil => simp [List.zip] at hpr
    | cons b rest2 =>
      rcases List.mem_cons.mp hpr with rfl | h2
      · exact ⟨[], rest2, rfl⟩
      · obtain ⟨m1, m2, hm⟩ := ih pr h2
        exact ⟨a :: m1, m2, by rw [List.cons_append, ← hm]⟩

/-- Conversely, a decomposition yields a consecutive pair. -/
theorem mem_zip_tail_of_decomp {α : Type} (m1 : List α) :
    ∀ (l m2 : List α) (a b : α), l = m1 ++ a :: b :: m2 → (a, b) ∈ l.zip l.tail := by
  induction m1 with
  | nil =>
    intro l m2 a b h
    subst h
    simp [List.zip_cons_cons]
  | cons x rest ih =>
    intro l m2 a b h
    subst h
    rcases hl : rest ++ a :: b :: m2 with _ | ⟨c, l2⟩
    · exact absurd hl (by simp)
    · have hmem := ih (rest ++ a :: b :: m2) m2 a b rfl
      rw [hl] at hmem
      simp only [List.tail_cons] at hmem
      rw [List.cons_append, hl]
      simp only [List.tail_cons]
      rw [List.zip_cons_cons]
      exact List.mem_cons_of_mem _ hmem

/-- From the consecutive-pairs chain: the head's stop bounds every later
start. -/
theorem chain_head_le :
    ∀ (rest : List CST) (a : CST),
      (∀ pr ∈ (a :: rest).zip rest, pr.1.stop ≤ pr.2.start) →
      (∀ c ∈ rest, c.start ≤ c.stop) →
      ∀ b ∈ rest, a.stop ≤ b.start := by
  intro rest
  induction rest with
  | nil =>
    intro a _ _ b hb
    exact absurd hb (by simp)
  | cons b r2 ih =>
    intro a hord hss c hc
    have hab : a.stop ≤ b.start := by
      have := hord (a, b) (by rw [List.zip_cons_cons]; exact List.mem_cons_self _ _)
      exact this
    rcases List.mem_cons.mp hc with rfl | hc2
    · exact hab
    · have hbc := ih b (fun pr hpr => hord pr (by
        rw [List.zip_cons_cons]
        exact List.mem_cons_of_mem _ hpr))
        (fun x hx => hss x (List.mem_cons_of_mem _ hx)) c hc2
      have hbb : b.start ≤ b.stop := hss b (List.mem_cons_self _ _)
      omega

/-- The consecutive-pairs chain plus valid spans gives full pairwise
ordering. -/
theorem chain_pairwise :
    ∀ (l : List CST),
      (∀ pr ∈ l.zip l.tail, pr.1.stop ≤ pr.2.start) →
      (∀ c ∈ l, c.start ≤ c.stop) →
      List.Pairwise (fun a b => a.stop ≤ b.start) l := by
  intro l
  induction l with
  | nil =>
    intro _ _
    exact List.Pairwise.nil
  | cons a rest ih =>
    intro hord hss
    have hhead : ∀ b ∈ rest, a.stop ≤ b.start :=
      chain_head_le rest a hord
        (fun c hc => hss c (List.mem_cons_of_mem _ hc))
    have hrest : ∀ pr ∈ rest.zip rest.tail, pr.1.stop ≤ pr.2.start := by
      intro pr hpr
      apply hord
      cases rest with
      | nil => exact absurd hpr (by simp [List.zip])
      | cons b r2 =>
        simp only [List.tail_cons] at hpr ⊢
        rw [List.zip_cons_cons]
        exact List.mem_cons_of_mem _ hpr
    exact List.Pairwise.cons hhead
      (ih hrest (fun c hc => hss c (List.mem_cons_of_mem _ hc)))

/-- Two distinct members of a pairwise-ordered list are related one way or
the other. -/
theorem pairwise_mem_rel {R : CST → CST → Prop} :
    ∀ (l : List CST), List.Pairwise R l → ∀ a ∈ l, ∀ b ∈ l, a ≠ b → R a b ∨ R b a := by
  intro l
  induction l with
  | nil =>
    intro _ a ha
    exact absurd ha (by simp)
  | cons x rest ih =>
    intro hpw a ha b hb hne
    rw [List.pairwise_cons] at hpw
    obtain ⟨hx, hrest⟩ := hpw
    rcases List.mem_cons.mp ha with rfl | ha2
    · rcases List.mem_cons.mp hb with rfl | hb2
      · exact absurd rfl hne
      · exact Or.inl (hx b hb2)
    · rcases List.mem_cons.mp hb with rfl | hb2
      · exact Or.inr (hx a ha2)
      · exact ih hrest a ha2 b hb2 hne

/-! ### Shapes of emitted gap edits -/

/-- Everything `gapEdit` certifies when it emits an edit: the guards that
passed and the exact edit for each of the two rotation cases. -/
theorem gapEdit_some_cases {src : List Char} {cfg : Bool} {fuel : Nat}
    {p n : CST} {e : Edit} (h : gapEdit src cfg fuel p n = some e) :
    p.stop < n.start ∧
    (charsInRange src p.stop n.start).all rustIsWhitespace = true ∧
    (cfg = true →
      containsBlankLine (encodeUtf8 (charsInRange src p.stop n.start)) = false) ∧
    ((∃ d, fromNodeGo fuel p = some d ∧ d.len ≤ p.stop ∧
       rustGetRange (encodeUtf8 src) (p.stop - d.len) p.stop = some d.bytes ∧
       e = ⟨p.stop - d.len, n.start,
         (rotateDelimOverGap d (charsInRange src p.stop n.start)).1,
         (rotateDelimOverGap d (charsInRange src p.stop n.start)).2.map
           (fun off => some (p.stop - d.len + off)), d.len⟩) ∨
     (∃ pe, p.kind = Kind.text ∧ openerPrefixEnd src n = some pe ∧ n.start < pe ∧
       e = ⟨p.stop, pe,
         (rotatePrefixOverGap (sliceBytes (encodeUtf8 src) n.start pe)
           (charsInRange src p.stop n.start)).1,
         (rotatePrefixOverGap (sliceBytes (encodeUtf8 src) n.start pe)
           (charsInRange src p.stop n.start)).2.map
           (fun off => some (p.stop + off)), 0⟩)) := by
  unfold gapEdit at h
  split at h
  · exact absurd h (by simp)
  · rename_i hg1
    split at h
    · exact absurd h (by simp)
    · split at h
      · exact absurd h (by simp)
      · split at h
        · exact absurd h (by simp)
        · rename_i hg2 hg3 hg4
          refine ⟨by omega, not_not.mp hg3, ?_, ?_⟩
          · intro hcfg
            subst hcfg
            simpa using hg4
          · split at h
            · rename_i e2 heq
              unfold gapEditDelim at heq
              split at heq
              · rename_i d hd
                split at heq
                · rename_i hcond
                  injection heq with heq
                  injection h with h
                  subst h
                  subst heq
                  exact Or.inl ⟨d, hd, hcond.1, hcond.2, rfl⟩
                · exact absurd heq (by simp)
              · exact absurd heq (by simp)
            · rename_i hdelim
              unfold gapEditOpener at h
              split at h
              · rename_i hpk
                split at h
                · rename_i pe hpe
                  split at h
                  · rename_i hlt
                    injection h with h
                    subst h
                    exact Or.inr ⟨pe, hpk, hpe, hlt, rfl⟩
                  · exact absurd h (by simp)
                · exact absurd h (by simp)
              · exact absurd h (by simp)

/-- What `openerTagEnd` certifies on success. -/
theorem openerTagEnd_some {src : List Char} {t : CST} {pe : Nat}
    (h : openerTagEnd src t = some pe) :
    (encodeUtf8 src)[t.start]? = some 0x3C ∧
      ∃ tn ∈ t.children, tn.kind = Kind.tagName ∧ pe = tn.stop ∧ t.start < pe := by
  unfold openerTagEnd at h
  split at h
  · rename_i hbyte
    split at h
    · rename_i tn hfind
      split at h
      · rename_i hlt
        injection h with h
        subst h
        refine ⟨hbyte, tn, List.mem_of_find?_eq_some hfind, ?_, rfl, hlt⟩
        have := List.find?_some hfind
        simpa using this
      · exact absurd h (by simp)
    · exact absurd h (by simp)
  · exact absurd h (by simp)

/-- The three verified shapes of an opener prefix end: bounded by the node's
span for tags and elements, or literal verified bytes for `{` and
comment openers. -/
def OpenerShape (src : List Char) (n : CST) (pe : Nat) : Prop :=
  pe ≤ n.stop ∨
  (pe = n.start + 1 ∧ (encodeUtf8 src)[n.start]? = some 0x7B) ∨
  (pe = n.start + 4 ∧ rustGetRange (encodeUtf8 src) n.start (n.start + 4) =
    some [0x3C, 0x21, 0x2D, 0x2D])

theorem openerPrefixEnd_shape {src : List Char} {n : CST} {pe : Nat}
    (hwf : WfT src n) (h : openerPrefixEnd src n = some pe) :
    OpenerShape src n pe := by
  have hparts := nodeOkB_parts hwf.nodeOk
  unfold openerPrefixEnd at h
  split at h
  · split at h
    · rename_i hbyte
      injection h with h
      exact Or.inr (Or.inl ⟨h.symm, hbyte⟩)
    · exact absurd h (by simp)
  · split at h
    · rename_i hbytes
      injection h with h
      exact Or.inr (Or.inr ⟨h.symm, hbytes⟩)
    · exact absurd h (by simp)
  · rename_i hk
    split at h
    · rename_i t hfind
      obtain ⟨-, tn, htn, -, hpe, -⟩ := openerTagEnd_some h
      have htmem := List.mem_of_find?_eq_some hfind
      have h1 := (hparts.2.2.2.1 t htmem).2
      have h2 := ((nodeOkB_parts (hwf.child t htmem).nodeOk).2.2.2.1 tn htn).2
      exact Or.inl (by omega)
    · exact absurd h (by simp)
  · obtain ⟨-, tn, htn, -, hpe, -⟩ := openerTagEnd_some h
    have h2 := (hparts.2.2.2.1 tn htn).2
    exact Or.inl (by omega)
  · obtain ⟨-, tn, htn, -, hpe, -⟩ := openerTagEnd_some h
    have h2 := (hparts.2.2.2.1 tn htn).2
    exact Or.inl (by omega)
  · obtain ⟨-, tn, htn, -, hpe, -⟩ := openerTagEnd_some h
    have h2 := (hparts.2.2.2.1 tn htn).2
    exact Or.inl (by omega)
  · exact absurd h (by simp)

instance : DecidablePred wsCompatibleByte := fun b => by
  unfold wsCompatibleByte
  infer_instance

/-- No delimiter byte can occur in whitespace. -/
theorem delim_bytes_not_ws (d : TrailingDelim) :
    ∀ b ∈ d.bytes, ¬ wsCompatibleByte b := by
  cases d <;> decide

theorem comment_open_bytes_not_ws :
    ∀ b ∈ [0x3C, 0x21, 0x2D, 0x2D], ¬ wsCompatibleByte (b : Nat) := by
  decide

theorem brace_byte_not_ws : ¬ wsCompatibleByte 0x7B := by decide

/-- A position inside a range verified by `slice::get` holds one of the
verified bytes. -/
theorem rustGetRange_byte {l : List Nat} {a b : Nat} {bs : List Nat}
    (h : rustGetRange l a b = some bs) {k : Nat} (h1 : a ≤ k) (h2 : k < b) :
    ∃ byte, l[k]? = some byte ∧ byte ∈ bs := by
  unfold rustGetRange at h
  split at h
  · rename_i hcond
    injection h with h
    subst h
    have hk : k < l.length := by omega
    have hsl := sliceBytes_getElem? l h1 h2
    rw [List.getElem?_eq_getElem hk] at hsl
    exact ⟨l[k], List.getElem?_eq_getElem hk, List.getElem?_mem hsl⟩
  · exact absurd h (by simp)

/-- A byte lookup verified by `getElem?` is a membership. -/
theorem containsBlankLine_ne_nil {b : List Nat} (h : containsBlankLine b = true) :
    b ≠ [] := by
  intro he
  subst he
  simp [containsBlankLine, hasBlankLF, hasBlankCRLF] at h

/-! ### Geometry of container-pair gaps -/

/-- The designated pair of adjacent children spans a gap inside the node,
at character boundaries. -/
theorem containerPair_facts {src : List Char} :
    ∀ {n C prev next : CST}, ContainerPair n C prev next → WfT src n →
      n.start ≤ prev.stop ∧ prev.stop ≤ next.start ∧ next.start ≤ n.stop ∧
      boundaryB src prev.stop = true ∧ boundaryB src next.start = true := by
  intro n C prev next hcp
  induction hcp with
  | here m prev next l1 l2 hcont hch =>
    intro hwf
    have hparts := nodeOkB_parts hwf.nodeOk
    have hpmem : prev ∈ m.children := by
      rw [hch]
      exact List.mem_append.mpr (Or.inr (List.mem_cons_self _ _))
    have hnmem : next ∈ m.children := by
      rw [hch]
      exact List.mem_append.mpr (Or.inr (List.mem_cons_of_mem _ (List.mem_cons_self _ _)))
    have hprevwf := hwf.child prev hpmem
    have hnextwf := hwf.child next hnmem
    have hprevparts := nodeOkB_parts hprevwf.nodeOk
    have hnextparts := nodeOkB_parts hnextwf.nodeOk
    have hc1 := hparts.2.2.2.1 prev hpmem
    have hc2 := hparts.2.2.2.1 next hnmem
    have hchain := hparts.2.2.2.2.1 (prev, next)
      (mem_zip_tail_of_decomp l1 m.children l2 prev next hch)
    exact ⟨by omega, hchain, by
        have := hnextparts.1
        omega,
      hprevparts.2.2.1, hnextparts.2.1⟩
  | via m c C prev next hc hsub ih =>
    intro hwf
    obtain ⟨ih1, ih2, ih3, ih4, ih5⟩ := ih (hwf.child c hc)
    have hparts := nodeOkB_parts hwf.nodeOk
    have hcc := hparts.2.2.2.1 c hc
    exact ⟨by omega, ih2, by omega, ih4, ih5⟩

/-- A non-container well-formed node has no container pair inside it. -/
theorem noContainers_no_pair {src : List Char} :
    ∀ {t C prev next : CST}, ContainerPair t C prev next → WfT src t →
      isContainer t.kind = false → False := by
  intro t C prev next hcp
  induction hcp with
  | here m prev next l1 l2 hcont hch =>
    intro _ hic
    rw [hcont] at hic
    simp at hic
  | via m c C prev next hc hsub ih =>
    intro hwf hic
    have hchild := (nodeOkB_parts hwf.nodeOk).2.2.2.2.2.2 hic c hc
    exact ih (hwf.child c hc) hchild

/-- Every consecutive pair of a decomposed list is the designated one, or
ends no later than the left part, or starts no earlier than the right part. -/
theorem zip_tail_cases {α : Type} :
    ∀ (l1 : List α) (a b : α) (l2 : List α) (pr : α × α),
      pr ∈ (l1 ++ a :: b :: l2).zip (l1 ++ a :: b :: l2).tail →
      pr = (a, b) ∨ pr.2 ∈ l1 ++ [a] ∨ pr.1 ∈ b :: l2 := by
  intro l1
  induction l1 with
  | nil =>
    intro a b l2 pr hpr
    simp only [List.nil_append, List.tail_cons, List.zip_cons_cons] at hpr
    rcases List.mem_cons.mp hpr with rfl | h2
    · exact Or.inl rfl
    · have := (List.of_mem_zip h2).1
      exact Or.inr (Or.inr this)
  | cons x l1t ih =>
    intro a b l2 pr hpr
    rcases hl : l1t ++ a :: b :: l2 with _ | ⟨c, lrest⟩
    · exact absurd hl (by simp)
    · rw [List.cons_append, hl] at hpr
      simp only [List.tail_cons, List.zip_cons_cons] at hpr
      rcases List.mem_cons.mp hpr with rfl | h2
      · have hcm : c ∈ l1t ++ [a] := by
          cases l1t with
          | nil =>
            simp only [List.nil_append] at hl
            injection hl with hl1 _
            subst hl1
            simp
          | cons y l1t2 =>
            simp only [List.cons_append] at hl
            injection hl with hl1 _
            subst hl1
            simp
        exact Or.inr (Or.inl (List.mem_cons_of_mem _ hcm))
      · have hpr2 : pr ∈ (l1t ++ a :: b :: l2).zip (l1t ++ a :: b :: l2).tail := by
          rw [hl]
          simp only [List.tail_cons]
          exact h2
        rcases ih a b l2 pr hpr2 with h | h | h
        · exact Or.inl h
        · exact Or.inr (Or.inl (by
            rcases List.mem_append.mp h with h3 | h3
            · exact List.mem_append.mpr (Or.inl (List.mem_cons_of_mem _ h3))
            · exact List.mem_append.mpr (Or.inr h3)))
        · exact Or.inr (Or.inr h)

/-- Inside a well-formed node, every container-pair gap starts at or after
the end of the node's opener prefix. -/
theorem opener_le_gap {src : List Char} {n C prev next : CST} {pe : Nat}
    (hwf : WfT src n) (hcp : ContainerPair n C prev next)
    (hpe : openerPrefixEnd src n = some pe) : pe ≤ prev.stop := by
  rcases hic : isContainer n.kind with _ | _
  · exact (noContainers_no_pair hcp hwf hic).elim
  · have hparts := nodeOkB_parts hwf.nodeOk
    unfold openerPrefixEnd at hpe
    split at hpe
    · rename_i hk
      rw [hk] at hic
      exact absurd hic (by decide)
    · rename_i hk
      rw [hk] at hic
      exact absurd hic (by decide)
    · rename_i hkind
      split at hpe
      · rename_i t hfind
        obtain ⟨-, tn, htn, -, hpetn, -⟩ := openerTagEnd_some hpe
        have htmem := List.mem_of_find?_eq_some hfind
        have htwf := hwf.child t htmem
        have hpet : pe ≤ t.stop := by
          have := ((nodeOkB_parts htwf.nodeOk).2.2.2.1 tn htn).2
          omega
        obtain ⟨c0, cs, hcs⟩ : ∃ c0 cs, n.children = c0 :: cs := by
          cases hch : n.children with
          | nil =>
            rw [hch] at hfind
            exact absurd hfind (by simp)
          | cons c0 cs => exact ⟨c0, cs, rfl⟩
        have hhead := hparts.2.2.2.2.2.1 hkind c0 cs hcs
        have htc0 : t = c0 := by
          rw [hcs] at hfind
          rw [List.find?_cons_of_pos _ (by
            simp only [Bool.or_eq_true, decide_eq_true_eq]
            exact hhead)] at hfind
          injection hfind with hfind
          exact hfind.symm
        subst htc0
        have htkindnc : isContainer t.kind = false := by
          rcases hhead with h | h <;> rw [h] <;> rfl
        have hssall : ∀ c ∈ cs, c.start ≤ c.stop := by
          intro c hc
          exact (nodeOkB_parts (hwf.child c (by
            rw [hcs]
            exact List.mem_cons_of_mem _ hc)).nodeOk).1
        have hchain : ∀ pr ∈ (t :: cs).zip cs, pr.1.stop ≤ pr.2.start := by
          intro pr hpr
          apply hparts.2.2.2.2.1
          rw [hcs]
          simpa using hpr
        cases hcp with
        | here _ prevx nextx l1 l2 hcont hch =>
          rw [hcs] at hch
          cases l1 with
          | nil =>
            injection hch with hch1 _
            subst hch1
            exact hpet
          | cons y l1t =>
            injection hch with hch1 hch2
            subst hch1
            have hpmem : prev ∈ cs := by
              rw [hch2]
              exact List.mem_append.mpr (Or.inr (List.mem_cons_self _ _))
            have := chain_head_le cs t hchain hssall prev hpmem
            have hpss : prev.start ≤ prev.stop := (nodeOkB_parts (hwf.child prev (by
              rw [hcs, hch2]
              exact List.mem_cons_of_mem _
                (List.mem_append.mpr (Or.inr (List.mem_cons_self _ _))))).nodeOk).1
            omega
        | via _ c _ _ _ hc hsub =>
          have hGc := containerPair_facts hsub (hwf.child c hc)
          rw [hcs] at hc
          rcases List.mem_cons.mp hc with rfl | hc2
          · exact (noContainers_no_pair hsub (hwf.child c (by
              rw [hcs]
              exact List.mem_cons_self _ _)) htkindnc).elim
          · have := chain_head_le cs t hchain hssall c hc2
            omega
      · exact absurd hpe (by simp)
    · rename_i hk
      rw [hk] at hic
      exact absurd hic (by decide)
    · rename_i hk
      rw [hk] at hic
      exact absurd hic (by decide)
    · rename_i hk
      rw [hk] at hic
      exact absurd hic (by decide)
    · exact absurd hpe (by simp)

/-- The central frame lemma: an edit emitted for the adjacent pair `(p, n)`
cannot intersect a preserved blank gap `[gs, ge)` whose bytes are all
whitespace-compatible, provided the pair relates to the gap in one of the
four ways that arise in a well-formed tree: the pair lies before the gap,
the gap lies at or before the pair's gap start, the pair's own gap is the
preserved gap itself, or the gap lies inside `n` behind its opener. -/
theorem gapEdit_frame {src : List Char} {fuel : Nat} {p n : CST} {e : Edit}
    {gs ge : Nat}
    (h : gapEdit src true fuel p n = some e)
    (hps : p.start ≤ p.stop) (hns : n.start ≤ n.stop)
    (hbp : boundaryB src p.stop = true) (hbn : boundaryB src n.start = true)
    (hGws : ∀ k b, gs ≤ k → k < ge → (encodeUtf8 src)[k]? = some b →
      wsCompatibleByte b)
    (hbl : containsBlankLine (sliceBytes (encodeUtf8 src) gs ge) = true)
    (hlt : gs < ge)
    (hshape : ∀ pe, openerPrefixEnd src n = some pe → OpenerShape src n pe)
    (hpos : n.stop ≤ gs ∨ ge ≤ p.stop ∨ (gs = p.stop ∧ ge = n.start) ∨
      (n.start ≤ gs ∧ ∀ pe, openerPrefixEnd src n = some pe → pe ≤ gs)) :
    e.stop ≤ gs ∨ ge ≤ e.start := by
  obtain ⟨hpn, hws, hnb, hcase⟩ := gapEdit_some_cases h
  have hCfalse : ¬ (gs = p.stop ∧ ge = n.start) := by
    rintro ⟨hg1, hg2⟩
    subst hg1
    subst hg2
    obtain ⟨i, hi, hieq⟩ := (boundaryB_iff src p.stop).mp hbp
    obtain ⟨j, hj, hjeq⟩ := (boundaryB_iff src n.start).mp hbn
    have hij : i < j := by
      apply lt_of_utf8SumLen_take_lt src
      rw [hieq, hjeq]
      exact hpn
    have halg := aligned_gap_bytes src (le_of_lt hij) hj
    rw [hieq, hjeq] at halg
    have hfalse := hnb rfl
    rw [halg] at hfalse
    rw [hfalse] at hbl
    exact Bool.noConfusion hbl
  rcases hcase with ⟨d, hfrom, hdl, hget, rfl⟩ | ⟨pe, hpk, hope, hnpe, rfl⟩
  · show n.start ≤ gs ∨ ge ≤ p.stop - d.len
    rcases hpos with hA | hB | hC | ⟨hD1, hD2⟩
    · exact Or.inl (by omega)
    · by_cases hbc : ge ≤ p.stop - d.len
      · exact Or.inr hbc
      · exfalso
        have hk1 : p.stop - d.len ≤ max gs (p.stop - d.len) := le_max_right _ _
        have hk2 : max gs (p.stop - d.len) < p.stop := by
          have h1 : gs < ge := hlt
          have h2 : p.stop - d.len < ge := by omega
          have := max_lt (lt_of_lt_of_le h1 hB) (lt_of_lt_of_le h2 hB)
          omega
        obtain ⟨byte, hlook, hmem⟩ := rustGetRange_byte hget hk1 hk2
        have hkge : max gs (p.stop - d.len) < ge := by
          have h2 : p.stop - d.len < ge := by omega
          exact max_lt hlt h2
        have := hGws _ byte (le_max_left _ _) hkge hlook
        exact delim_bytes_not_ws d byte hmem this
    · exact (hCfalse hC).elim
    · exact Or.inl hD1
  · show pe ≤ gs ∨ ge ≤ p.stop
    rcases hpos with hA | hB | hC | ⟨hD1, hD2⟩
    · rcases hshape pe hope with hsh | ⟨hpe1, hbyte⟩ | ⟨hpe4, hbytes⟩
      · exact Or.inl (by omega)
      · by_cases hcg : pe ≤ gs
        · exact Or.inl hcg
        · exfalso
          have hgn : gs = n.start := by omega
          have := hGws gs 0x7B (le_refl _) hlt (by rw [hgn]; exact hbyte)
          exact brace_byte_not_ws this
      · by_cases hcg : pe ≤ gs
        · exact Or.inl hcg
        · exfalso
          have hk1 : n.start ≤ gs := by omega
          have hk2 : gs < n.start + 4 := by omega
          obtain ⟨byte, hlook, hmem⟩ := rustGetRange_byte hbytes hk1 hk2
          have := hGws gs byte (le_refl _) hlt hlook
          exact comment_open_bytes_not_ws byte hmem this
    · exact Or.inr hB
    · exact (hCfalse hC).elim
    · exact Or.inl (hD2 pe hope)

/-- Inversion for `ContainerPair`. -/
theorem containerPair_inv {n C prev next : CST} (h : ContainerPair n C prev next) :
    (isContainer n.kind = true ∧
      ∃ l1 l2, n.children = l1 ++ prev :: next :: l2) ∨
    ∃ c ∈ n.children, ContainerPair c C prev next := by
  cases h with
  | here _ _ _ l1 l2 hcont hch => exact Or.inl ⟨hcont, l1, l2, hch⟩
  | via _ c _ _ _ hc hsub => exact Or.inr ⟨c, hc, hsub⟩

/-- The worklist induction behind C4: no edit collected from a well-formed
worklist intersects the preserved gap, provided every worklist tree is either
disjoint from the gap or contains its container pair. -/
theorem collectGo_frame {src : List Char} {C prev next : CST}
    (hGws : ∀ k b, prev.stop ≤ k → k < next.start →
      (encodeUtf8 src)[k]? = some b → wsCompatibleByte b)
    (hbl : containsBlankLine
      (sliceBytes (encodeUtf8 src) prev.stop next.start) = true)
    (hlt : prev.stop < next.start) :
    ∀ (fuel : Nat) (ws : List CST),
      (∀ t ∈ ws, WfT src t) →
      (∀ t ∈ ws, (next.start ≤ t.start ∨ t.stop ≤ prev.stop) ∨
        ContainerPair t C prev next) →
      ∀ e ∈ collectGo src true fuel ws,
        e.stop ≤ prev.stop ∨ next.start ≤ e.start := by
  intro fuel
  induction fuel with
  | zero =>
    intro ws _ _ e he
    simp [collectGo] at he
  | succ fuel ih =>
    intro ws hwf hinv e he
    cases ws with
    | nil => simp [collectGo] at he
    | cons t rest =>
      simp only [collectGo] at he
      have hwt := hwf t (List.mem_cons_self _ _)
      have hparts := nodeOkB_parts hwt.nodeOk
      have hpw : List.Pairwise (fun a b => a.stop ≤ b.start) t.children :=
        chain_pairwise t.children hparts.2.2.2.2.1
          (fun c hc => (nodeOkB_parts (hwt.child c hc).nodeOk).1)
      have hwf2 : ∀ x ∈ t.children ++ rest, WfT src x := by
        intro x hx
        rcases List.mem_append.mp hx with hxc | hxr
        · exact hwt.child x hxc
        · exact hwf x (List.mem_cons_of_mem _ hxr)
      have hinv2 : ∀ x ∈ t.children ++ rest,
          (next.start ≤ x.start ∨ x.stop ≤ prev.stop) ∨
            ContainerPair x C prev next := by
        intro x hx
        rcases List.mem_append.mp hx with hxc | hxr
        · rcases hinv t (List.mem_cons_self _ _) with hdisj | hcp
          · have hcont := hparts.2.2.2.1 x hxc
            rcases hdisj with h1 | h1
            · exact Or.inl (Or.inl (by omega))
            · exact Or.inl (Or.inr (by omega))
          · rcases containerPair_inv hcp with ⟨hcnt, l1, l2, hch⟩ | ⟨c, hc, hsub⟩
            · have hpw2 := hpw
              rw [hch] at hpw2
              rw [List.pairwise_append] at hpw2
              obtain ⟨-, hpwr, hpw12⟩ := hpw2
              rw [List.pairwise_cons] at hpwr
              obtain ⟨hprevall, hpwr2⟩ := hpwr
              rw [List.pairwise_cons] at hpwr2
              obtain ⟨hnextall, -⟩ := hpwr2
              have hxc2 := hxc
              rw [hch] at hxc2
              have hprevmem : prev ∈ t.children := by
                rw [hch]
                exact List.mem_append.mpr (Or.inr (List.mem_cons_self _ _))
              have hnextmem : next ∈ t.children := by
                rw [hch]
                exact List.mem_append.mpr
                  (Or.inr (List.mem_cons_of_mem _ (List.mem_cons_self _ _)))
              have hprevss : prev.start ≤ prev.stop :=
                (nodeOkB_parts (hwt.child prev hprevmem).nodeOk).1
              have hnextss : next.start ≤ next.stop :=
                (nodeOkB_parts (hwt.child next hnextmem).nodeOk).1
              rcases List.mem_append.mp hxc2 with hx1 | hx2
              · have := hpw12 x hx1 prev (List.mem_cons_self _ _)
                exact Or.inl (Or.inr (by omega))
              · rcases List.mem_cons.mp hx2 with rfl | hx3
                · exact Or.inl (Or.inr (le_refl _))
                · rcases List.mem_cons.mp hx3 with rfl | hx4
                  · exact Or.inl (Or.inl (le_refl _))
                  · have h1 := hnextall x hx4
                    exact Or.inl (Or.inl (by omega))
            · by_cases hxc0 : x = c
              · subst hxc0
                exact Or.inr hsub
              · have hf := containerPair_facts hsub (hwt.child c hc)
                rcases pairwise_mem_rel t.children hpw x hxc c hc hxc0 with hr | hr
                · exact Or.inl (Or.inr (by omega))
                · exact Or.inl (Or.inl (by omega))
        · exact hinv x (List.mem_cons_of_mem _ hxr)
      rcases List.mem_append.mp he with he1 | he2
      · by_cases hcont : isContainer t.kind = true
        · rw [if_pos hcont] at he1
          unfold processPairs at he1
          obtain ⟨pr, hpr, hsome⟩ := List.mem_filterMap.mp he1
          obtain ⟨m1, m2, hdec⟩ := zip_tail_decomp t.children pr hpr
          have hp1mem : pr.1 ∈ t.children := by
            rw [hdec]
            exact List.mem_append.mpr (Or.inr (List.mem_cons_self _ _))
          have hp2mem : pr.2 ∈ t.children := by
            rw [hdec]
            exact List.mem_append.mpr
              (Or.inr (List.mem_cons_of_mem _ (List.mem_cons_self _ _)))
          have hp1wf := hwt.child pr.1 hp1mem
          have hp2wf := hwt.child pr.2 hp2mem
          have hp1parts := nodeOkB_parts hp1wf.nodeOk
          have hp2parts := nodeOkB_parts hp2wf.nodeOk
          have hpwd := hpw
          rw [hdec] at hpwd
          rw [List.pairwise_append] at hpwd
          obtain ⟨-, hpwr, hpw12⟩ := hpwd
          rw [List.pairwise_cons] at hpwr
          obtain ⟨hp1all, hpwr2⟩ := hpwr
          rw [List.pairwise_cons] at hpwr2
          obtain ⟨hp2all, -⟩ := hpwr2
          have hshape : ∀ pe, openerPrefixEnd src pr.2 = some pe →
              OpenerShape src pr.2 pe :=
            fun pe hpe => openerPrefixEnd_shape hp2wf hpe
          have hpos : pr.2.stop ≤ prev.stop ∨ next.start ≤ pr.1.stop ∨
              (prev.stop = pr.1.stop ∧ next.start = pr.2.start) ∨
              (pr.2.start ≤ prev.stop ∧
                ∀ pe, openerPrefixEnd src pr.2 = some pe → pe ≤ prev.stop) := by
            rcases hinv t (List.mem_cons_self _ _) with hdisj | hcp
            · rcases hdisj with h1 | h1
              · have hcont1 := hparts.2.2.2.1 pr.1 hp1mem
                have := hp1parts.1
                exact Or.inr (Or.inl (by omega))
              · have hcont2 := hparts.2.2.2.1 pr.2 hp2mem
                exact Or.inl (by omega)
            · rcases containerPair_inv hcp with ⟨hcnt, l1, l2, hch⟩ | ⟨c, hc, hsub⟩
              · have hprevmem : prev ∈ t.children := by
                  rw [hch]
                  exact List.mem_append.mpr (Or.inr (List.mem_cons_self _ _))
                have hnextmem : next ∈ t.children := by
                  rw [hch]
                  exact List.mem_append.mpr
                    (Or.inr (List.mem_cons_of_mem _ (List.mem_cons_self _ _)))
                have hprevss : prev.start ≤ prev.stop :=
                  (nodeOkB_parts (hwt.child prev hprevmem).nodeOk).1
                have hnextss : next.start ≤ next.stop :=
                  (nodeOkB_parts (hwt.child next hnextmem).nodeOk).1
                have hpwh := hpw
                rw [hch] at hpwh
                rw [List.pairwise_append] at hpwh
                obtain ⟨-, hpwhr, hpwh12⟩ := hpwh
                rw [List.pairwise_cons] at hpwhr
                obtain ⟨hprevall, hpwhr2⟩ := hpwhr
                rw [List.pairwise_cons] at hpwhr2
                obtain ⟨hnextall, -⟩ := hpwhr2
                have hprc := hpr
                rw [hch] at hprc
                rcases zip_tail_cases l1 prev next l2 pr hprc with heq | hin | hin
                · rw [heq]
                  exact Or.inr (Or.inr (Or.inl ⟨rfl, rfl⟩))
                · rcases List.mem_append.mp hin with h1 | h1
                  · have := hpwh12 pr.2 h1 prev (List.mem_cons_self _ _)
                    exact Or.inl (by omega)
                  · rw [List.mem_singleton.mp h1]
                    exact Or.inl (le_refl _)
                · rcases List.mem_cons.mp hin with heq2 | h1
                  · rw [heq2]
                    exact Or.inr (Or.inl (by omega))
                  · have := hnextall pr.1 h1
                    have hp1ss := hp1parts.1
                    exact Or.inr (Or.inl (by omega))
              · have hf := containerPair_facts hsub (hwt.child c hc)
                have hcm := hc
                rw [hdec] at hcm
                rcases List.mem_append.mp hcm with h1 | h1
                · have := hpw12 c h1 pr.1 (List.mem_cons_self _ _)
                  have hp1ss := hp1parts.1
                  exact Or.inr (Or.inl (by omega))
                · rcases List.mem_cons.mp h1 with heq2 | h2
                  · subst heq2
                    exact Or.inr (Or.inl (by omega))
                  · rcases List.mem_cons.mp h2 with heq2 | h3
                    · subst heq2
                      refine Or.inr (Or.inr (Or.inr ⟨by omega, ?_⟩))
                      intro pe hpe
                      exact opener_le_gap (hwt.child _ hc) hsub hpe
                    · have := hp2all c h3
                      exact Or.inl (by omega)
          exact gapEdit_frame hsome hp1parts.1 hp2parts.1 hp1parts.2.2.1
            hp2parts.2.1 hGws hbl hlt hshape hpos
        · rw [if_neg hcont] at he1
          simp at he1
      · exact ih (t.children ++ rest) hwf2 hinv2 e he2

/-- C4: preserve blank lines — for every source and well-formed tree, if
`preserve_blank_lines` is on and a whitespace-only sibling gap (between the
adjacent named children `prev`, `next` of a container) contains the byte
sequence `\n\n` or `\r\n\r\n`, then the collected edit list contains no edit
whose span intersects that gap, so the gap's bytes appear unchanged in the
output. -/
theorem preserveBlankLines_frame (src : List Char) (fuel : Nat)
    (root C prev next : CST)
    (hwf : wfB src fuel root = true)
    (hcp : ContainerPair root C prev next)
    (hws : (charsInRange src prev.stop next.start).all rustIsWhitespace = true)
    (hbl : containsBlankLine
      (sliceBytes (encodeUtf8 src) prev.stop next.start) = true) :
    ∀ e ∈ collectEdits src true fuel root,
      e.stop ≤ prev.stop ∨ next.start ≤ e.start := by
  intro e he
  have hperm := List.perm_insertionSort editLe (collectGo src true fuel [root])
  have he2 : e ∈ collectGo src true fuel [root] := hperm.mem_iff.mp he
  have hwft : WfT src root := wfB_WfT hwf
  obtain ⟨h1, h2, h3, hbp, hbn⟩ := containerPair_facts hcp hwft
  have hlt : prev.stop < next.start := by
    rcases Nat.lt_or_ge prev.stop next.start with h | h
    · exact h
    · exfalso
      refine containsBlankLine_ne_nil hbl ?_
      unfold sliceBytes
      refine List.drop_eq_nil_of_le ?_
      rw [List.length_take]
      omega
  obtain ⟨i, hi, hieq⟩ := (boundaryB_iff src prev.stop).mp hbp
  obtain ⟨j, hj, hjeq⟩ := (boundaryB_iff src next.start).mp hbn
  have hij : i < j := lt_of_utf8SumLen_take_lt src (by rw [hieq, hjeq]; exact hlt)
  have hGws : ∀ k b, prev.stop ≤ k → k < next.start →
      (encodeUtf8 src)[k]? = some b → wsCompatibleByte b := by
    have hthis := aligned_ws_bytes src (le_of_lt hij) hj
      (by rw [hieq, hjeq]; exact hws)
    rw [hieq, hjeq] at hthis
    exact hthis
  exact collectGo_frame hGws hbl hlt fuel [root]
    (fun x hx => by rw [List.mem_singleton.mp hx]; exact hwft)
    (fun x hx => by rw [List.mem_singleton.mp hx]; exact Or.inr hcp) e he2

/-- Source of the C4/C8 witnesses: `<a></a>\nx\n\ny`. -/
def wsrc : List Char :=
  ['<', 'a', '>', '<', '/', 'a', '>', '\n', 'x', '\n', '\n', 'y']

/-- `<a></a>`: an element with its start and end tags. -/
def wA : CST := .mk .element 0 7 [.mk .startTag 0 3 [], .mk .endTag 3 7 []]

/-- The text node `x`. -/
def wB : CST := .mk .text 8 9 []

/-- The text node `y`. -/
def wC : CST := .mk .text 11 12 []

/-- The document root of the witness tree. -/
def wroot : CST := .mk .document 0 12 [wA, wB, wC]

/-- Witness for C4: in `<a></a>\nx\n\ny`, the gap between the `x` and `y`
text nodes is a blank line and is preserved; the one edit collected (the
`>` rotation over the earlier single-newline gap, spanning bytes 6–8) does
not intersect the preserved gap `[9, 11)`. -/
theorem preserveBlankLines_frame_witness :
    (⟨6, 8, [10, 62], [some 7, some 6], 1⟩ : Edit).stop ≤ 9 ∨
      11 ≤ (⟨6, 8, [10, 62], [some 7, some 6], 1⟩ : Edit).start :=
  preserveBlankLines_frame wsrc 16 wroot wroot wB wC (by decide)
    (ContainerPair.here wroot wB wC [wA] [] (by decide) rfl)
    (by decide) (by decide)
    ⟨6, 8, [10, 62], [some 7, some 6], 1⟩ (by decide)

/-! ### Applying the edit list (`rewrite`) and length preservation -/

/-- The output-building loop of `strip::rewrite`: copy the bytes before each
edit, emit its replacement, and move the cursor to the edit's end; finally
copy the remaining bytes. -/
def applyEdits (src : List Nat) : List Edit → Nat → List Nat
  | [], cursor => src.drop cursor
  | e :: rest, cursor =>
    (if cursor < e.start then sliceBytes src cursor e.start else []) ++
      e.replacement ++ applyEdits src rest e.stop

theorem applyEdits_length (src : List Nat) :
    ∀ (edits : List Edit) (cursor : Nat), cursor ≤ src.length →
      editsChainFrom src.length cursor edits →
      (∀ e ∈ edits, e.replacement.length = e.stop - e.start) →
      (applyEdits src edits cursor).length = src.length - cursor := by
  intro edits
  induction edits with
  | nil =>
    intro cursor _ _ _
    simp [applyEdits]
  | cons e rest ih =>
    intro cursor hc hchain hlen
    obtain ⟨h1, h2, h3, h4, hrest⟩ := hchain
    simp only [applyEdits, List.length_append]
    have hr := ih e.stop h3 hrest (fun x hx => hlen x (List.mem_cons_of_mem _ hx))
    have he := hlen e (List.mem_cons_self _ _)
    have hsl : (if cursor < e.start then sliceBytes src cursor e.start
        else []).length = e.start - cursor := by
      split
      · exact sliceBytes_length src (by omega)
      · simp only [List.length_nil]
        omega
    rw [hsl, hr, he]
    omega

/-- Splitting a byte slice at an interior position. -/
theorem sliceBytes_split (l : List Nat) {a m b : Nat} (h1 : a ≤ m) (h2 : m ≤ b)
    (h3 : m ≤ l.length) :
    sliceBytes l a b = sliceBytes l a m ++ sliceBytes l m b := by
  unfold sliceBytes
  have hb : b = m + (b - m) := by omega
  rw [hb, List.take_add]
  rw [List.drop_append_of_le_length (by rw [List.length_take]; omega)]
  congr 1
  have happ : List.drop m (List.take m l ++ List.take (b - m) (List.drop m l)) =
      List.drop m (List.take m l) ++ List.take (b - m) (List.drop m l) :=
    List.drop_append_of_le_length (by rw [List.length_take]; omega)
  have hnil : List.drop m (List.take m l) = [] :=
    List.drop_eq_nil_of_le (by rw [List.length_take]; omega)
  rw [happ, hnil, List.nil_append]

/-- A successful indexed lookup bounds the index. -/
theorem lt_length_of_getElem?_some {l : List Nat} {i v : Nat}
    (h : l[i]? = some v) : i < l.length := by
  by_contra hc
  push_neg at hc
  rw [List.getElem?_eq_none hc] at h
  exact Option.noConfusion h

/-- Every opener shape ends within the encoded source, given the node does. -/
theorem openerShape_le_len {src : List Char} {n : CST} {pe : Nat}
    (hsh : OpenerShape src n pe) (hstop : n.stop ≤ (encodeUtf8 src).length) :
    pe ≤ (encodeUtf8 src).length := by
  rcases hsh with h | ⟨h1, h2⟩ | ⟨h1, h2⟩
  · omega
  · have := lt_length_of_getElem?_some h2
    omega
  · unfold rustGetRange at h2
    split at h2
    · rename_i hcond
      omega
    · exact Option.noConfusion h2

/-- What `rustGetRange` certifies on success. -/
theorem rustGetRange_some {l : List Nat} {a b : Nat} {bs : List Nat}
    (h : rustGetRange l a b = some bs) :
    a ≤ b ∧ b ≤ l.length ∧ sliceBytes l a b = bs := by
  unfold rustGetRange at h
  split at h
  · rename_i hcond
    injection h with h
    exact ⟨hcond.1, hcond.2, h⟩
  · exact Option.noConfusion h

/-- A node boundary is bounded by the encoded length. -/
theorem boundaryB_le_len {src : List Char} {k : Nat}
    (h : boundaryB src k = true) : k ≤ (encodeUtf8 src).length := by
  obtain ⟨i, hi, hieq⟩ := (boundaryB_iff src k).mp h
  rw [encodeUtf8_length]
  rw [← hieq]
  exact utf8SumLen_take_le src i

/-- The offset-to-origin map of a rotation covers the span as a bijection. -/
theorem map_some_add_range (dp cnt : Nat) :
    ((List.range cnt).map (fun off => some (dp + off))) =
      (List.range' dp cnt).map some := by
  have h1 : (List.range cnt).map (fun off => some (dp + off)) =
      ((List.range cnt).map (dp + ·)).map some := by
    rw [List.map_map]
    rfl
  rw [h1, List.range_eq_range', List.map_add_range', Nat.add_zero]

/-- Content of an emitted gap edit: its replacement is a byte permutation of
the input span `[start, stop)`, has exactly the span's length, and its
origin table enumerates the span (all `Some`, a bijection). -/
theorem gapEdit_content {src : List Char} {cfg : Bool} {fuel : Nat} {p n : CST}
    {e : Edit} (h : gapEdit src cfg fuel p n = some e)
    (hbp : boundaryB src p.stop = true) (hbn : boundaryB src n.start = true)
    (hbns : boundaryB src n.stop = true)
    (hshape : ∀ pe, openerPrefixEnd src n = some pe → OpenerShape src n pe) :
    (e.replacement : Multiset Nat) =
      (↑(sliceBytes (encodeUtf8 src) e.start e.stop) : Multiset Nat) ∧
    e.replacement.length = e.stop - e.start ∧
    (e.outputByteToInputByte : Multiset (Option Nat)) =
      (↑((List.range' e.start (e.stop - e.start)).map some) :
        Multiset (Option Nat)) := by
  obtain ⟨hpn, hws, -, hcase⟩ := gapEdit_some_cases h
  obtain ⟨i, hi, hieq⟩ := (boundaryB_iff src p.stop).mp hbp
  obtain ⟨j, hj, hjeq⟩ := (boundaryB_iff src n.start).mp hbn
  have hij : i < j := lt_of_utf8SumLen_take_lt src (by rw [hieq, hjeq]; exact hpn)
  have hgap : encodeUtf8 (charsInRange src p.stop n.start) =
      sliceBytes (encodeUtf8 src) p.stop n.start := by
    have hthis := aligned_gap_bytes src (le_of_lt hij) hj
    rw [hieq, hjeq] at hthis
    exact hthis
  have hnlen : n.start ≤ (encodeUtf8 src).length := boundaryB_le_len hbn
  have hglen : (encodeUtf8 (charsInRange src p.stop n.start)).length =
      n.start - p.stop := by
    rw [hgap]
    exact sliceBytes_length _ hnlen
  rcases hcase with ⟨d, hfrom, hdl, hget, rfl⟩ | ⟨pe, hpk, hope, hnpe, rfl⟩
  · obtain ⟨hab, hblen, hslice⟩ := rustGetRange_some hget
    have hsplit : sliceBytes (encodeUtf8 src) (p.stop - d.len) n.start =
        d.bytes ++ encodeUtf8 (charsInRange src p.stop n.start) := by
      have hthis := sliceBytes_split (encodeUtf8 src)
        (show p.stop - d.len ≤ p.stop by omega)
        (show p.stop ≤ n.start by omega)
        (show p.stop ≤ (encodeUtf8 src).length from hblen)
      rw [hthis, hslice, hgap]
    refine ⟨?_, ?_, ?_⟩
    · show ((rotateDelimOverGap d (charsInRange src p.stop n.start)).1 :
        Multiset Nat) = ↑(sliceBytes (encodeUtf8 src) (p.stop - d.len) n.start)
      rw [rotateDelimOverGap_fst_multiset, hsplit]
    · show (rotateDelimOverGap d (charsInRange src p.stop n.start)).1.length =
        n.start - (p.stop - d.len)
      have hcard : (rotateDelimOverGap d (charsInRange src p.stop n.start)).1.length =
          (d.bytes ++ encodeUtf8 (charsInRange src p.stop n.start)).length :=
        congrArg Multiset.card
          (rotateDelimOverGap_fst_multiset d (charsInRange src p.stop n.start))
      rw [hcard, List.length_append, hglen]
      have hdb : d.bytes.length = d.len := rfl
      omega
    · show (((rotateDelimOverGap d (charsInRange src p.stop n.start)).2.map
          (fun off => some (p.stop - d.len + off)) : List (Option Nat)) :
          Multiset (Option Nat)) =
        ↑((List.range' (p.stop - d.len) (n.start - (p.stop - d.len))).map some)
      rw [← Multiset.map_coe, rotateDelimOverGap_snd_multiset, Multiset.map_coe,
        map_some_add_range]
      have hcnt : d.bytes.length +
          (encodeUtf8 (charsInRange src p.stop n.start)).length =
          n.start - (p.stop - d.len) := by
        rw [hglen]
        have hdb : d.bytes.length = d.len := rfl
        omega
      rw [hcnt]
  · have hsh := hshape pe hope
    have hstoplen : n.stop ≤ (encodeUtf8 src).length := boundaryB_le_len hbns
    have hpelen : pe ≤ (encodeUtf8 src).length := openerShape_le_len hsh hstoplen
    have hpfxlen : (sliceBytes (encodeUtf8 src) n.start pe).length =
        pe - n.start := sliceBytes_length _ hpelen
    have hsplit : sliceBytes (encodeUtf8 src) p.stop pe =
        encodeUtf8 (charsInRange src p.stop n.start) ++
          sliceBytes (encodeUtf8 src) n.start pe := by
      have hthis := sliceBytes_split (encodeUtf8 src)
        (show p.stop ≤ n.start by omega)
        (show n.start ≤ pe by omega)
        (show n.start ≤ (encodeUtf8 src).length from hnlen)
      rw [hthis, hgap]
    refine ⟨?_, ?_, ?_⟩
    · show ((rotatePrefixOverGap (sliceBytes (encodeUtf8 src) n.start pe)
          (charsInRange src p.stop n.start)).1 : Multiset Nat) =
        ↑(sliceBytes (encodeUtf8 src) p.stop pe)
      rw [rotatePrefixOverGap_fst_multiset, hsplit]
    · show (rotatePrefixOverGap (sliceBytes (encodeUtf8 src) n.start pe)
          (charsInRange src p.stop n.start)).1.length = pe - p.stop
      have hcard : (rotatePrefixOverGap (sliceBytes (encodeUtf8 src) n.start pe)
            (charsInRange src p.stop n.start)).1.length =
          (encodeUtf8 (charsInRange src p.stop n.start) ++
            sliceBytes (encodeUtf8 src) n.start pe).length :=
        congrArg Multiset.card
          (rotatePrefixOverGap_fst_multiset _ (charsInRange src p.stop n.start))
      rw [hcard, List.length_append, hglen, hpfxlen]
      omega
    · show (((rotatePrefixOverGap (sliceBytes (encodeUtf8 src) n.start pe)
            (charsInRange src p.stop n.start)).2.map
          (fun off => some (p.stop + off)) : List (Option Nat)) :
          Multiset (Option Nat)) =
        ↑((List.range' p.stop (pe - p.stop)).map some)
      rw [← Multiset.map_coe, rotatePrefixOverGap_snd_multiset, Multiset.map_coe,
        map_some_add_range]
      have hcnt : (encodeUtf8 (charsInRange src p.stop n.start)).length +
          (sliceBytes (encodeUtf8 src) n.start pe).length = pe - p.stop := by
        rw [hglen, hpfxlen]
        omega
      rw [hcnt]

/-- Every edit the traversal collects from a well-formed worklist has the
span-permutation content of `gapEdit_content`. -/
theorem collectGo_content {src : List Char} (cfg : Bool) :
    ∀ (fuel : Nat) (ws : List CST), (∀ t ∈ ws, WfT src t) →
      ∀ e ∈ collectGo src cfg fuel ws,
        (e.replacement : Multiset Nat) =
          (↑(sliceBytes (encodeUtf8 src) e.start e.stop) : Multiset Nat) ∧
        e.replacement.length = e.stop - e.start ∧
        (e.outputByteToInputByte : Multiset (Option Nat)) =
          (↑((List.range' e.start (e.stop - e.start)).map some) :
            Multiset (Option Nat)) := by
  intro fuel
  induction fuel with
  | zero =>
    intro ws _ e he
    simp [collectGo] at he
  | succ fuel ih =>
    intro ws hwf e he
    cases ws with
    | nil => simp [collectGo] at he
    | cons t rest =>
      simp only [collectGo] at he
      have hwt := hwf t (List.mem_cons_self _ _)
      rcases List.mem_append.mp he with he1 | he2
      · by_cases hcont : isContainer t.kind = true
        · rw [if_pos hcont] at he1
          unfold processPairs at he1
          obtain ⟨pr, hpr, hsome⟩ := List.mem_filterMap.mp he1
          have hp1mem := (List.of_mem_zip (by
            have := hpr
            simpa using this : pr ∈ t.children.zip t.children.tail)).1
          have hp2mem : pr.2 ∈ t.children := by
            obtain ⟨m1, m2, hdec⟩ := zip_tail_decomp t.children pr hpr
            rw [hdec]
            exact List.mem_append.mpr
              (Or.inr (List.mem_cons_of_mem _ (List.mem_cons_self _ _)))
          have hp1parts := nodeOkB_parts (hwt.child pr.1 hp1mem).nodeOk
          have hp2wf := hwt.child pr.2 hp2mem
          have hp2parts := nodeOkB_parts hp2wf.nodeOk
          exact gapEdit_content hsome hp1parts.2.2.1 hp2parts.2.1
            hp2parts.2.2.1 (fun pe hpe => openerPrefixEnd_shape hp2wf hpe)
        · rw [if_neg hcont] at he1
          simp at he1
      · refine ih (t.children ++ rest) ?_ e he2
        intro x hx
        rcases List.mem_append.mp hx with hxc | hxr
        · exact hwt.child x hxc
        · exact hwf x (List.mem_cons_of_mem _ hxr)

/-- C8: length preservation — for every source and well-formed tree, every
edit emitted by the rewriter has a replacement that is a byte permutation of
`input[start..end]` with all origins `Some` and forming a bijection of the
span; consequently, whenever the collected edits validate, applying them
yields an output of exactly the input's byte length: no byte is inserted or
deleted. -/
theorem rewrite_length_preservation (src : List Char) (cfg : Bool) (fuel : Nat)
    (root : CST) (hwf : wfB src fuel root = true) :
    (∀ e ∈ collectEdits src cfg fuel root,
      (e.replacement : Multiset Nat) =
        (↑(sliceBytes (encodeUtf8 src) e.start e.stop) : Multiset Nat) ∧
      e.replacement.length = e.stop - e.start ∧
      (e.outputByteToInputByte : Multiset (Option Nat)) =
        (↑((List.range' e.start (e.stop - e.start)).map some) :
          Multiset (Option Nat))) ∧
    (validateEdits (encodeUtf8 src).length (collectEdits src cfg fuel root) =
        .ok () →
      (applyEdits (encodeUtf8 src) (collectEdits src cfg fuel root) 0).length =
        (encodeUtf8 src).length) := by
  have hwft : WfT src root := wfB_WfT hwf
  have hcontent : ∀ e ∈ collectEdits src cfg fuel root,
      (e.replacement : Multiset Nat) =
        (↑(sliceBytes (encodeUtf8 src) e.start e.stop) : Multiset Nat) ∧
      e.replacement.length = e.stop - e.start ∧
      (e.outputByteToInputByte : Multiset (Option Nat)) =
        (↑((List.range' e.start (e.stop - e.start)).map some) :
          Multiset (Option Nat)) := by
    intro e he
    have hperm := List.perm_insertionSort editLe (collectGo src cfg fuel [root])
    exact collectGo_content cfg fuel [root]
      (fun x hx => by rw [List.mem_singleton.mp hx]; exact hwft) e
      (hperm.mem_iff.mp he)
  refine ⟨hcontent, ?_⟩
  intro hval
  obtain ⟨hok, hnoov⟩ := (validateEditsGo_ok_iff (encodeUtf8 src).length
    (collectEdits src cfg fuel root) 0 none).mp hval
  have hchain : editsChainFrom (encodeUtf8 src).length 0
      (collectEdits src cfg fuel root) := by
    refine editsChainFrom_of_validated (encodeUtf8 src).length _ 0 hok ?_
    rw [noOverlapFrom_some_iff]
    exact ⟨fun q hq => Nat.zero_le _, hnoov⟩
  have hlen := applyEdits_length (encodeUtf8 src) (collectEdits src cfg fuel root)
    0 (Nat.zero_le _) hchain (fun e he => (hcontent e he).2.1)
  omega

/-- Witness for C8 on `<a></a>\nx\n\ny`: the single collected edit (the `>`
rotation over bytes 6–8) is a permutation of the input span, and applying
the validated edit list preserves the 12-byte length. -/
theorem rewrite_length_preservation_witness :
    ((⟨6, 8, [10, 62], [some 7, some 6], 1⟩ : Edit).replacement : Multiset Nat) =
      (↑(sliceBytes (encodeUtf8 wsrc) 6 8) : Multiset Nat) ∧
    (applyEdits (encodeUtf8 wsrc) (collectEdits wsrc true 16 wroot) 0).length =
      (encodeUtf8 wsrc).length :=
  ⟨((rewrite_length_preservation wsrc true 16 wroot (by decide)).1
      ⟨6, 8, [10, 62], [some 7, some 6], 1⟩ (by decide)).1,
    (rewrite_length_preservation wsrc true 16 wroot (by decide)).2 (by rfl)⟩

end StripWs
